import Mathlib

/-!
# Pathfinding on a cost grid (`Game/Pathfinding.hpp`)

A shallow embedding of the two searches of `Pathfinding.hpp`:

* `AStar.run`, the A* path search over a `Matrix` of integer costs;
* `Distance.run`, the layered enumeration of the cells within a hop budget.

Conventions of the embedding.

* `I32` values are integers.  The definitions of `AStar` compute with exact
  integers: they are the code as long as no signed addition, subtraction or
  multiplication overflows (such an overflow has no defined behaviour in the
  source language).  `AStar.Machine` is the same code with every arithmetic
  result reduced to 32 bits in two's complement, as the compiled code does, and
  `AStar.noOverflow` tests that every exact result of a run fits in 32 bits;
  under it the two readings coincide (`AStar.runState_machine`).
* A `std::map` keyed by a pair of integers is a partial function on
  coordinates.  A lookup `find(key)->second` of an absent key has no defined
  behaviour; it is the failure `none` of the embedding.
* A `Node*` is the key of the node inside the `NodeMatrix` that owns it: the
  store holds exactly one node per key, so pointer equality is key equality and
  a write through a pointer is an update of the store at that key.
* `oe::MapUtility::getNeighboors` is declared outside the sources; the searches
  take the neighbour provider as a parameter `nb`.
* The unbounded loops of `AStar.run` carry a fuel argument derived from the map
  size; running out of fuel is the failure `none`, and the development proves
  that it never happens.
-/

namespace Arthropoda

/-! ## Data model -/

/-- Grid coordinate, the `oe::Vector2i` of the sources. -/
structure Vector2i where
  x : Int
  y : Int
deriving DecidableEq, Repr

/-- Modelled from the spec: `oe::Vector2i` is declared outside the sources; a
default-constructed coordinate is taken to be `(0, 0)`.  The searches write the
`position` of a node before they read it, so the value is never observed. -/
def Vector2i.zero : Vector2i := ⟨0, 0⟩

/-- Bounds test `p.x >= 0 && p.y >= 0 && p.x < size.x && p.y < size.y`. -/
def inBounds (size p : Vector2i) : Prop :=
  p.x ≥ 0 ∧ p.y ≥ 0 ∧ p.x < size.x ∧ p.y < size.y

instance (size p : Vector2i) : Decidable (inBounds size p) :=
  inferInstanceAs (Decidable (p.x ≥ 0 ∧ p.y ≥ 0 ∧ p.x < size.x ∧ p.y < size.y))

/-- The coordinates visited by `for i < size.x` / `for j < size.y`, in loop order. -/
def cells (size : Vector2i) : List Vector2i :=
  (List.range size.x.toNat).flatMap fun (i : Nat) =>
    (List.range size.y.toNat).map fun (j : Nat) => (⟨Int.ofNat i, Int.ofNat j⟩ : Vector2i)

/-- Search node `Node`.  `parent` is the key of the parent node, `none` for `nullptr`. -/
structure Node where
  score : Int
  gScore : Int
  fScore : Int
  position : Vector2i
  parent : Option Vector2i
  visited : Bool
deriving DecidableEq, Repr

/-- Constructor `Node(I32 _gScore, I32 _fScore)`. -/
def Node.mk2 (g f : Int) : Node :=
  { score := g, gScore := g, fScore := f, position := Vector2i.zero, parent := none,
    visited := false }

/-- Cost map `Matrix<I32>`: the `std::map` of costs and the recorded size. -/
structure Matrix where
  mMap : Vector2i → Option Int
  mSize : Vector2i

/-- `Matrix::create(x, y, val)`. -/
def Matrix.create (x y val : Int) : Matrix :=
  { mMap := fun p => if inBounds ⟨x, y⟩ p then some val else none
    mSize := ⟨x, y⟩ }

/-- `Matrix::get(coords)`: `mMap.find(coords)->second`, `none` when the key is absent. -/
def Matrix.get (m : Matrix) (p : Vector2i) : Option Int := m.mMap p

/-- `Matrix::set(coords, val)`. -/
def Matrix.set (m : Matrix) (p : Vector2i) (val : Int) : Matrix :=
  { m with mMap := fun q => if q = p then some val else m.mMap q }

/-- `Matrix::getSize()`. -/
def Matrix.getSize (m : Matrix) : Vector2i := m.mSize

/-- Data-model invariant of a cost map: every coordinate inside the size has a cost. -/
def Matrix.Complete (m : Matrix) : Prop :=
  ∀ p ∈ cells m.mSize, (m.get p).isSome = true

instance (m : Matrix) : Decidable m.Complete :=
  inferInstanceAs (Decidable (∀ p ∈ cells m.mSize, (m.get p).isSome = true))

/-- The reserved cost `1` ("1 = collision") that marks a wall. -/
def WALL_COST : Int := 1

/-- Node store `NodeMatrix`. -/
structure NodeMatrix where
  mMap : Vector2i → Option Node
  mSize : Vector2i

/-- `NodeMatrix(size)`: an empty store of the given size. -/
def NodeMatrix.new (size : Vector2i) : NodeMatrix :=
  { mMap := fun _ => none, mSize := size }

/-- `NodeMatrix::get(coords)`: `none` when the key is absent. -/
def NodeMatrix.get (cl : NodeMatrix) (p : Vector2i) : Option Node := cl.mMap p

/-- `NodeMatrix::set(coords, node)`; also the write of a node through its pointer. -/
def NodeMatrix.set (cl : NodeMatrix) (p : Vector2i) (n : Node) : NodeMatrix :=
  { cl with mMap := fun q => if q = p then some n else cl.mMap q }

/-- `NodeMatrix::getSize()`. -/
def NodeMatrix.getSize (cl : NodeMatrix) : Vector2i := cl.mSize

/-- Read through a `Node*`.  Every pointer the search holds was returned by
`get`, so the node exists; the fallback value is never used (`AStar.Inv`). -/
def NodeMatrix.deref (cl : NodeMatrix) (k : Vector2i) : Node :=
  (cl.mMap k).getD (Node.mk2 0 0)

/-! ## Neighbour provider -/

namespace MapUtility

/-- Modelled from the spec: the hexagonal six-neighbour topology.
`oe::MapUtility::getNeighboors` is declared outside the sources; the candidates
are those of an offset-row hexagonal grid, unfiltered: each differs from the
queried cell by at most 1 in `x` and in `y`. -/
def getNeighboors (coords : Vector2i) : List Vector2i :=
  if coords.y % 2 = 0 then
    [⟨coords.x - 1, coords.y - 1⟩, ⟨coords.x, coords.y - 1⟩, ⟨coords.x + 1, coords.y⟩,
     ⟨coords.x, coords.y + 1⟩, ⟨coords.x - 1, coords.y + 1⟩, ⟨coords.x - 1, coords.y⟩]
  else
    [⟨coords.x, coords.y - 1⟩, ⟨coords.x + 1, coords.y - 1⟩, ⟨coords.x + 1, coords.y⟩,
     ⟨coords.x + 1, coords.y + 1⟩, ⟨coords.x, coords.y + 1⟩, ⟨coords.x - 1, coords.y⟩]

end MapUtility

/-- `std::list::clear` and `std::vector::clear`. -/
def listClear (_l : List Vector2i) : List Vector2i := []

/-- The value of the exact result `n` as an `I32`: its reduction to 32 bits in
two's complement. -/
def wrapI32 (n : Int) : Int := (n + 2147483648) % 4294967296 - 2147483648

/-- The exact result `n` lies in the range of `I32`. -/
def fitsI32 (n : Int) : Bool := decide (-2147483648 ≤ n) && decide (n < 2147483648)

/-! ## `AStar` -/

namespace AStar

/-- Largest `k ≤ bound` with `k * k ≤ n` (`0` when there is none). -/
def isqrtAux (n : Nat) : Nat → Nat
  | 0 => 0
  | k + 1 => if (k + 1) * (k + 1) ≤ n then k + 1 else isqrtAux n k

/-- Integer part of the square root: `(I32) std::sqrt(n)` for `0 ≤ n`. -/
def isqrt (n : Nat) : Nat := isqrtAux n n

/-- `AStar::heuristic`: the straight-line distance, truncated. -/
def heuristic (p1 p2 : Vector2i) : Int :=
  let a := p1.x - p2.x
  let b := p1.y - p2.y
  ((isqrt (a * a + b * b).toNat : Nat) : Int)

/-- `AStar::isInOpenList`: `std::find` over the open list. -/
def isInOpenList (n : Vector2i) (openList : List Vector2i) : Bool :=
  openList.contains n

/-- `AStar::isVisited`. -/
def isVisited (position : Vector2i) (closeList : NodeMatrix) : Option Bool :=
  (closeList.get position).map fun n => n.visited

/-- `AStar::isWall`: `closeList.get(position)->gScore == 1`. -/
def isWall (position : Vector2i) (closeList : NodeMatrix) : Option Bool :=
  (closeList.get position).map fun n => decide (n.gScore = 1)

/-- `AStar::compareNode`: `first->fScore < second->fScore`. -/
def compareNode (closeList : NodeMatrix) (first second : Vector2i) : Bool :=
  decide ((closeList.deref first).fScore < (closeList.deref second).fScore)

/-- Body of the `for` loop of `AStar::getNeighbors` for one candidate `p`. -/
def getNeighborsStep (acc : List Vector2i × NodeMatrix) (p : Vector2i) :
    Option (List Vector2i × NodeMatrix) :=
  if inBounds acc.2.getSize p then
    match acc.2.get p with
    | none => none
    | some newnode =>
      let cl := acc.2.set p { newnode with position := p }
      match isWall (cl.deref p).position cl with
      | none => none
      | some w => if w then some (acc.1, cl) else some (acc.1 ++ [p], cl)
  else some acc

/-- `AStar::getNeighbors`: the in-bounds, non-wall candidates of `node`, in
provider order, appended to `neighbors`; the visited candidates have their
`position` written. -/
def getNeighbors (nb : Vector2i → List Vector2i) (neighbors : List Vector2i)
    (node : Vector2i) (closeList : NodeMatrix) : Option (List Vector2i × NodeMatrix) :=
  (nb (closeList.deref node).position).foldlM getNeighborsStep (neighbors, closeList)

/-- Body of the inner `while (!neighbors.empty())` loop of `AStar::run` for one
neighbour: the relaxation of `neighbor` from `current`. -/
def relax (endp current : Vector2i) (st : NodeMatrix × List Vector2i)
    (neighbor : Vector2i) : NodeMatrix × List Vector2i :=
  if (st.1.deref neighbor).visited = false then
    let gscore := (st.1.deref current).gScore + (st.1.deref current).score
    if isInOpenList neighbor st.2 = false ∨ gscore < (st.1.deref neighbor).gScore then
      let n := st.1.deref neighbor
      let cl := st.1.set neighbor
        { n with parent := some current, gScore := gscore,
                 fScore := gscore + heuristic n.position endp }
      if isInOpenList neighbor st.2 = false then (cl, neighbor :: st.2) else (cl, st.2)
    else st
  else st

/-- Path reconstruction of `AStar::run`: follow `parent` from `nend`, putting
the position of every node that has a parent at the front of `path`. -/
def reconstruct (closeList : NodeMatrix) :
    Nat → Option Vector2i → List Vector2i → Option (List Vector2i)
  | 0, _, _ => none
  | _ + 1, none, path => some path
  | fuel + 1, some k, path =>
    match (closeList.deref k).parent with
    | some p => reconstruct closeList fuel (some p) ((closeList.deref k).position :: path)
    | none => reconstruct closeList fuel none path

/-- `openList.sort(compareNode)`: the stable sort by ascending `fScore`. -/
def sortOpen (closeList : NodeMatrix) (openList : List Vector2i) : List Vector2i :=
  openList.insertionSort fun a b => compareNode closeList b a = false

/-- The part of the body of the main loop that runs when the end was not
reached: `current` is the node taken from the front of the sorted open list and
`rest` the open list after `pop_front`. -/
def expand (nb : Vector2i → List Vector2i) (endp : Vector2i) (closeList : NodeMatrix)
    (current : Vector2i) (rest : List Vector2i) : Option (NodeMatrix × List Vector2i) :=
  match getNeighbors nb [] current closeList with
  | none => none
  | some (neighbors, cl1) =>
    let cl2 := cl1.set current { cl1.deref current with visited := true }
    some (neighbors.foldl (relax endp current) (cl2, rest))

/-- The main `while (!openList.empty())` loop of `AStar::run`.  The result is
the path together with the final node store; `front()` of an empty list, like
an exhausted fuel, is the failure `none`. -/
def loop (nb : Vector2i → List Vector2i) (endp : Vector2i) (path : List Vector2i) :
    Nat → NodeMatrix → List Vector2i → Option (List Vector2i × NodeMatrix)
  | 0, _, _ => none
  | fuel + 1, closeList, openList =>
    if openList.isEmpty then some (path, closeList)
    else
      match sortOpen closeList openList with
      | [] => none
      | current :: rest =>
        if (closeList.deref current).position = endp then
          match closeList.get endp with
          | none => none
          | some _ =>
            (reconstruct closeList ((cells closeList.getSize).length + 1) (some endp) path).map
              fun p => (p, closeList)
        else
          match expand nb endp closeList current rest with
          | none => none
          | some st => loop nb endp path fuel st.1 st.2

/-- The `RESET` loops of `AStar::run`: one fresh node per cell of the map. -/
def reset (map : Matrix) (closeList : NodeMatrix) : Option NodeMatrix :=
  (cells map.getSize).foldlM
    (fun cl p => (map.get p).map fun c => cl.set p (Node.mk2 c 0)) closeList

/-- `AStar::run`, with the final node store next to the path.  `path` is the
content of the output list on entry. -/
def runState (nb : Vector2i → List Vector2i) (path : List Vector2i) (start endp : Vector2i)
    (map : Matrix) : Option (List Vector2i × NodeMatrix) :=
  let path := listClear path
  let size := map.getSize
  match reset map (NodeMatrix.new size) with
  | none => none
  | some closeList =>
    if start = endp then some (path, closeList) else
    match isWall start closeList with
    | none => none
    | some ws =>
      if ws then some (path, closeList) else
      match isWall endp closeList with
      | none => none
      | some we =>
        if we then some (path, closeList) else
        match closeList.get start with
        | none => none
        | some n =>
          let cl := closeList.set start
            { n with position := start, gScore := 0, fScore := 0 + heuristic start endp }
          loop nb endp path ((cells size).length + 1) cl [start]

/-- `AStar::run`: the returned path. -/
def run (nb : Vector2i → List Vector2i) (path : List Vector2i) (start endp : Vector2i)
    (map : Matrix) : Option (List Vector2i) :=
  (runState nb path start endp map).map Prod.fst

/-! ### The course of the search

The same code, read for the states it goes through rather than for its result:
the store and the open list at the head of the main loop, after the sort,
after `getNeighbors`, after the front node is popped and closed, and after
every relaxation. -/

/-- The node that the iteration started on `(closeList, openList)` takes from
the open list, with the open list after `pop_front`; `none` when the loop ends
in this iteration (empty open list, or end reached). -/
def popped (endp : Vector2i) (closeList : NodeMatrix) (openList : List Vector2i) :
    Option (Vector2i × List Vector2i) :=
  if openList.isEmpty then none
  else
    match sortOpen closeList openList with
    | [] => none
    | current :: rest =>
      if (closeList.deref current).position = endp then none else some (current, rest)

/-- The state at the head of the next iteration of the main loop, if there is one. -/
def next (nb : Vector2i → List Vector2i) (endp : Vector2i) (closeList : NodeMatrix)
    (openList : List Vector2i) : Option (NodeMatrix × List Vector2i) :=
  match popped endp closeList openList with
  | none => none
  | some (current, rest) => expand nb endp closeList current rest

/-- The states of one iteration of the main loop, in order: at the head, after
`openList.sort`, after `getNeighbors`, after `pop_front` and `visited = true`,
and after each relaxation of the inner loop. -/
def iterStates (nb : Vector2i → List Vector2i) (endp : Vector2i) (closeList : NodeMatrix)
    (openList : List Vector2i) : List (NodeMatrix × List Vector2i) :=
  (closeList, openList) :: (closeList, sortOpen closeList openList) ::
    match popped endp closeList openList with
    | none => []
    | some (current, rest) =>
      match getNeighbors nb [] current closeList with
      | none => []
      | some (neighbors, cl1) =>
        (cl1, current :: rest) ::
          neighbors.scanl (relax endp current)
            (cl1.set current { cl1.deref current with visited := true }, rest)

/-- The states of the main loop started on `(closeList, openList)`. -/
def states (nb : Vector2i → List Vector2i) (endp : Vector2i) :
    Nat → NodeMatrix → List Vector2i → List (NodeMatrix × List Vector2i)
  | 0, _, _ => []
  | fuel + 1, closeList, openList =>
    iterStates nb endp closeList openList ++
      match next nb endp closeList openList with
      | none => []
      | some st => states nb endp fuel st.1 st.2

/-- The nodes popped from the open list (and closed) by the main loop started
on `(closeList, openList)`, in order: one per iteration that reaches
`openList.pop_front()`. -/
def pops (nb : Vector2i → List Vector2i) (endp : Vector2i) :
    Nat → NodeMatrix → List Vector2i → List Vector2i
  | 0, _, _ => []
  | fuel + 1, closeList, openList =>
    match popped endp closeList openList with
    | none => []
    | some (current, rest) =>
      match expand nb endp closeList current rest with
      | none => []
      | some st => current :: pops nb endp fuel st.1 st.2

/-- The state in which `AStar::run` enters its main loop: `RESET`, `VERIF` and
`FIRST NODE`; `none` when the run returns (or fails) before the loop. -/
def entry (start endp : Vector2i) (map : Matrix) : Option (NodeMatrix × List Vector2i) :=
  match reset map (NodeMatrix.new map.getSize) with
  | none => none
  | some closeList =>
    if start = endp then none else
    match isWall start closeList with
    | none => none
    | some ws =>
      if ws then none else
      match isWall endp closeList with
      | none => none
      | some we =>
        if we then none else
        match closeList.get start with
        | none => none
        | some n =>
          some (closeList.set start
            { n with position := start, gScore := 0, fScore := 0 + heuristic start endp },
            [start])

/-- The states that `AStar::run` goes through in its main loop. -/
def runStates (nb : Vector2i → List Vector2i) (start endp : Vector2i) (map : Matrix) :
    List (NodeMatrix × List Vector2i) :=
  match entry start endp map with
  | none => []
  | some st => states nb endp ((cells map.getSize).length + 1) st.1 st.2

/-- The nodes that `AStar::run` pops and closes, in order. -/
def runPops (nb : Vector2i → List Vector2i) (start endp : Vector2i) (map : Matrix) :
    List Vector2i :=
  match entry start endp map with
  | none => []
  | some st => pops nb endp ((cells map.getSize).length + 1) st.1 st.2

/-! ### Machine arithmetic

`AStar::run` with its arithmetic in `I32`: the sums of `gscore` and `fScore`
and the differences, products and sum of `heuristic` are reduced to 32 bits.
Everything that does not compute is shared with the exact reading. -/

namespace Machine

/-- `AStar::heuristic` in `I32` arithmetic.  `std::sqrt` of a negative value is
not a number; its conversion to `I32` is read as the least `I32`, the value the
conversion instruction of the build target produces. -/
def heuristic (p1 p2 : Vector2i) : Int :=
  let a := wrapI32 (p1.x - p2.x)
  let b := wrapI32 (p1.y - p2.y)
  let n := wrapI32 (wrapI32 (a * a) + wrapI32 (b * b))
  if n < 0 then -2147483648 else ((isqrt n.toNat : Nat) : Int)

/-- Body of the inner loop of `AStar::run` for one neighbour, in `I32` arithmetic. -/
def relax (endp current : Vector2i) (st : NodeMatrix × List Vector2i)
    (neighbor : Vector2i) : NodeMatrix × List Vector2i :=
  if (st.1.deref neighbor).visited = false then
    let gscore := wrapI32 ((st.1.deref current).gScore + (st.1.deref current).score)
    if isInOpenList neighbor st.2 = false ∨ gscore < (st.1.deref neighbor).gScore then
      let n := st.1.deref neighbor
      let cl := st.1.set neighbor
        { n with parent := some current, gScore := gscore,
                 fScore := wrapI32 (gscore + heuristic n.position endp) }
      if isInOpenList neighbor st.2 = false then (cl, neighbor :: st.2) else (cl, st.2)
    else st
  else st

/-- The part of the body of the main loop that runs when the end was not
reached, in `I32` arithmetic. -/
def expand (nb : Vector2i → List Vector2i) (endp : Vector2i) (closeList : NodeMatrix)
    (current : Vector2i) (rest : List Vector2i) : Option (NodeMatrix × List Vector2i) :=
  match getNeighbors nb [] current closeList with
  | none => none
  | some (neighbors, cl1) =>
    let cl2 := cl1.set current { cl1.deref current with visited := true }
    some (neighbors.foldl (relax endp current) (cl2, rest))

/-- The main loop of `AStar::run`, in `I32` arithmetic. -/
def loop (nb : Vector2i → List Vector2i) (endp : Vector2i) (path : List Vector2i) :
    Nat → NodeMatrix → List Vector2i → Option (List Vector2i × NodeMatrix)
  | 0, _, _ => none
  | fuel + 1, closeList, openList =>
    if openList.isEmpty then some (path, closeList)
    else
      match sortOpen closeList openList with
      | [] => none
      | current :: rest =>
        if (closeList.deref current).position = endp then
          match closeList.get endp with
          | none => none
          | some _ =>
            (reconstruct closeList ((cells closeList.getSize).length + 1) (some endp) path).map
              fun p => (p, closeList)
        else
          match expand nb endp closeList current rest with
          | none => none
          | some st => loop nb endp path fuel st.1 st.2

/-- `AStar::run` in `I32` arithmetic, with the final node store next to the path. -/
def runState (nb : Vector2i → List Vector2i) (path : List Vector2i) (start endp : Vector2i)
    (map : Matrix) : Option (List Vector2i × NodeMatrix) :=
  let path := listClear path
  let size := map.getSize
  match reset map (NodeMatrix.new size) with
  | none => none
  | some closeList =>
    if start = endp then some (path, closeList) else
    match isWall start closeList with
    | none => none
    | some ws =>
      if ws then some (path, closeList) else
      match isWall endp closeList with
      | none => none
      | some we =>
        if we then some (path, closeList) else
        match closeList.get start with
        | none => none
        | some n =>
          let cl := closeList.set start
            { n with position := start, gScore := 0,
                     fScore := wrapI32 (0 + heuristic start endp) }
          loop nb endp path ((cells size).length + 1) cl [start]

/-- `AStar::run` in `I32` arithmetic: the returned path. -/
def run (nb : Vector2i → List Vector2i) (path : List Vector2i) (start endp : Vector2i)
    (map : Matrix) : Option (List Vector2i) :=
  (runState nb path start endp map).map Prod.fst

/-- The returned path together with the total path cost accumulated for the
end node (its final `gScore`), in `I32` arithmetic. -/
def runCost (nb : Vector2i → List Vector2i) (path : List Vector2i) (start endp : Vector2i)
    (map : Matrix) : Option (List Vector2i × Int) :=
  (runState nb path start endp map).map fun r => (r.1, (r.2.deref endp).gScore)

end Machine

/-! ### Runs without overflow

The test that every exact result of the arithmetic of a run is an `I32`.  It
follows the run operation by operation. -/

/-- The differences, the two products and the sum computed by
`heuristic(p1, p2)` fit in `I32`. -/
def heuristicFits (p1 p2 : Vector2i) : Bool :=
  fitsI32 (p1.x - p2.x) && fitsI32 (p1.y - p2.y) &&
    fitsI32 ((p1.x - p2.x) * (p1.x - p2.x)) && fitsI32 ((p1.y - p2.y) * (p1.y - p2.y)) &&
    fitsI32 ((p1.x - p2.x) * (p1.x - p2.x) + (p1.y - p2.y) * (p1.y - p2.y))

/-- The results computed by the relaxation of `neighbor` from `current` fit in
`I32`: `gscore` whenever the neighbour is not visited, and the heuristic and
`fScore` when the neighbour is updated. -/
def relaxFits (endp current : Vector2i) (st : NodeMatrix × List Vector2i)
    (neighbor : Vector2i) : Bool :=
  if (st.1.deref neighbor).visited = false then
    let gscore := (st.1.deref current).gScore + (st.1.deref current).score
    fitsI32 gscore &&
      if isInOpenList neighbor st.2 = false ∨ gscore < (st.1.deref neighbor).gScore then
        heuristicFits (st.1.deref neighbor).position endp &&
          fitsI32 (gscore + heuristic (st.1.deref neighbor).position endp)
      else true
  else true

/-- The results computed by the inner loop of `AStar::run` over `neighbors` fit
in `I32`. -/
def relaxAllFit (endp current : Vector2i) :
    List Vector2i → NodeMatrix × List Vector2i → Bool
  | [], _ => true
  | neighbor :: neighbors, st =>
    relaxFits endp current st neighbor &&
      relaxAllFit endp current neighbors (relax endp current st neighbor)

/-- The results computed by one expansion fit in `I32`. -/
def expandFits (nb : Vector2i → List Vector2i) (endp : Vector2i) (closeList : NodeMatrix)
    (current : Vector2i) (rest : List Vector2i) : Bool :=
  match getNeighbors nb [] current closeList with
  | none => true
  | some (neighbors, cl1) =>
    relaxAllFit endp current neighbors
      (cl1.set current { cl1.deref current with visited := true }, rest)

/-- The results computed by the main loop started on `(closeList, openList)`
fit in `I32`. -/
def loopFits (nb : Vector2i → List Vector2i) (endp : Vector2i) :
    Nat → NodeMatrix → List Vector2i → Bool
  | 0, _, _ => true
  | fuel + 1, closeList, openList =>
    match popped endp closeList openList with
    | none => true
    | some (current, rest) =>
      expandFits nb endp closeList current rest &&
        match expand nb endp closeList current rest with
        | none => true
        | some st => loopFits nb endp fuel st.1 st.2

/-- No arithmetic operation of `AStar::run` on this query overflows `I32`: the
heuristic and `fScore` of the first node, and every operation of the main loop.
A query that returns before the first node computes nothing. -/
def noOverflow (nb : Vector2i → List Vector2i) (start endp : Vector2i) (map : Matrix) :
    Bool :=
  match entry start endp map with
  | none => true
  | some st =>
    heuristicFits start endp && fitsI32 (0 + heuristic start endp) &&
      loopFits nb endp ((cells map.getSize).length + 1) st.1 st.2

end AStar

/-! ## `Distance` -/

namespace Distance

/-- `Distance::has`: linear search of `value` in the vector. -/
def has (value : Vector2i) (l : List Vector2i) : Bool :=
  l.any fun v => decide (value = v)

/-- Body of the loop over the neighbours of one frontier cell.  The state is
`(reachables, futurChecks)`; the cost lookup comes first and is not guarded. -/
def neighborStep (map : Matrix) (st : List Vector2i × List Vector2i) (neighbor : Vector2i) :
    Option (List Vector2i × List Vector2i) :=
  match map.get neighbor with
  | none => none
  | some c =>
    if c ≠ 1 ∧ has neighbor st.1 = false then some (st.1 ++ [neighbor], st.2 ++ [neighbor])
    else some st

/-- Body of the loop over `checks` for one frontier cell `check`. -/
def checkStep (nb : Vector2i → List Vector2i) (map : Matrix)
    (st : List Vector2i × List Vector2i) (check : Vector2i) :
    Option (List Vector2i × List Vector2i) :=
  (nb check).foldlM (neighborStep map) st

/-- One iteration of the outer `for (U32 i = 0; i < length; i++)` loop.  The
state is `(reachables, checks)`; `futurChecks` is empty on entry and becomes
the next `checks`. -/
def layer (nb : Vector2i → List Vector2i) (map : Matrix)
    (st : List Vector2i × List Vector2i) : Option (List Vector2i × List Vector2i) :=
  st.2.foldlM (checkStep nb map) (st.1, [])

/-- The outer loop, `n` iterations. -/
def iterate (nb : Vector2i → List Vector2i) (map : Matrix) :
    Nat → List Vector2i × List Vector2i → Option (List Vector2i × List Vector2i)
  | 0, st => some st
  | n + 1, st =>
    match layer nb map st with
    | none => none
    | some st1 => iterate nb map n st1

/-- `Distance::run`.  `reachables` is the content of the output vector on entry. -/
def run (nb : Vector2i → List Vector2i) (reachables : List Vector2i) (start : Vector2i)
    (length : Nat) (map : Matrix) : Option (List Vector2i) :=
  let reachables := listClear reachables
  if length = 0 then some reachables
  else
    match map.get start with
    | none => none
    | some c =>
      if c = 1 then some reachables
      else (iterate nb map length (reachables ++ [start], [start])).map Prod.fst

end Distance

/-! ## Specification vocabulary -/

namespace AStar

/-- A node is touched when it is closed (`visited`) or waits in the open list. -/
def Touched (cl : NodeMatrix) (openList : List Vector2i) (k : Vector2i) : Prop :=
  (cl.deref k).visited = true ∨ k ∈ openList

/-- The list `k :: ... :: [start]` follows the `parent` pointers from its head
back to `start`. -/
def RChain (cl : NodeMatrix) (start : Vector2i) : List Vector2i → Prop
  | [] => False
  | [a] => a = start
  | a :: b :: r => (cl.deref a).parent = some b ∧ RChain cl start (b :: r)

/-- Loop invariant of `AStar::run`.  `exc` lists the closed nodes whose
neighbours are still being relaxed (empty at the head of the main loop). -/
structure Inv (nb : Vector2i → List Vector2i) (map : Matrix) (start endp : Vector2i)
    (exc : List Vector2i) (cl : NodeMatrix) (openList : List Vector2i) : Prop where
  size : cl.mSize = map.mSize
  store : ∀ k, inBounds map.mSize k → ∃ n, cl.mMap k = some n ∧ map.get k = some n.score
  open_nodup : openList.Nodup
  open_unvisited : ∀ k ∈ openList, (cl.deref k).visited = false
  touched_inb : ∀ k, Touched cl openList k → inBounds map.mSize k
  touched_pos : ∀ k, Touched cl openList k → (cl.deref k).position = k
  touched_nonwall : ∀ k, Touched cl openList k → map.get k ≠ some WALL_COST
  visited_ne_end : ∀ k, (cl.deref k).visited = true → k ≠ endp
  start_root : (cl.deref start).parent = none ∧ (cl.deref start).gScore = 0
  start_state : (cl.deref start).visited = true ∨ openList = [start]
  untouched : ∀ k, ¬ Touched cl openList k →
    (cl.deref k).gScore = (cl.deref k).score ∧ (cl.deref k).parent = none
  link : ∀ k p, (cl.deref k).parent = some p →
    (cl.deref p).visited = true ∧ k ∈ nb p ∧
      (cl.deref k).gScore = (cl.deref p).gScore + (cl.deref p).score
  chain : ∀ k, Touched cl openList k →
    ∃ r, RChain cl start (k :: r) ∧ (k :: r).Nodup ∧ ∀ x ∈ r, (cl.deref x).visited = true
  closure : ∀ u, (cl.deref u).visited = true → u ∉ exc → ∀ v ∈ nb u,
    inBounds map.mSize v → map.get v ≠ some WALL_COST → Touched cl openList v
  fscore : ∀ k ∈ openList, (cl.deref k).fScore = (cl.deref k).gScore + heuristic k endp

/-- Effect of `getNeighbors` on the store: the in-bounds candidates get their
`position` written, nothing else changes. -/
def posWritten (cl : NodeMatrix) (l : List Vector2i) (k : Vector2i) : Option Node :=
  if k ∈ l ∧ inBounds cl.mSize k then (cl.mMap k).map fun n => { n with position := k }
  else cl.mMap k

/-- Two stores agree on every node except, possibly, on `position`, which may
have been overwritten with the node's own key. -/
def SameButPos (cl cl1 : NodeMatrix) : Prop :=
  ∀ k, ∃ pos, cl1.deref k = { cl.deref k with position := pos } ∧
    (pos = (cl.deref k).position ∨ pos = k)

/-- The node written by a successful relaxation of `neighbor` from `current`. -/
def relaxed (endp current : Vector2i) (cl : NodeMatrix) (neighbor : Vector2i) : Node :=
  { cl.deref neighbor with
    parent := some current
    gScore := (cl.deref current).gScore + (cl.deref current).score
    fScore := (cl.deref current).gScore + (cl.deref current).score +
      heuristic (cl.deref neighbor).position endp }

/-- The main loop stopped on the end node: `openList` is the open list at that
moment, `endp :: r` the parent chain of the end node, and the returned path is
that chain in forward order without `start`.  `Q` is any further loop
invariant. -/
def Reached (nb : Vector2i → List Vector2i) (map : Matrix) (start endp : Vector2i)
    (Q : NodeMatrix → List Vector2i → Prop) (cl : NodeMatrix) (path : List Vector2i) : Prop :=
  ∃ openList rest r, Inv nb map start endp [] cl openList ∧ Q cl openList ∧
    sortOpen cl openList = endp :: rest ∧ RChain cl start (endp :: r) ∧ (endp :: r).Nodup ∧
    (∀ x ∈ r, (cl.deref x).visited = true) ∧ start :: path = (endp :: r).reverse

/-- The main loop stopped on an empty open list. -/
def Exhausted (nb : Vector2i → List Vector2i) (map : Matrix) (start endp : Vector2i)
    (Q : NodeMatrix → List Vector2i → Prop) (cl : NodeMatrix) (path : List Vector2i) : Prop :=
  path = [] ∧ Inv nb map start endp [] cl [] ∧ Q cl []

/-- A further invariant `Q` is kept by every iteration of the main loop. -/
def StepInvariant (nb : Vector2i → List Vector2i) (map : Matrix) (start endp : Vector2i)
    (Q : NodeMatrix → List Vector2i → Prop) : Prop :=
  ∀ (cl : NodeMatrix) (openList : List Vector2i) (current : Vector2i) (rest : List Vector2i)
    (st : NodeMatrix × List Vector2i),
    Inv nb map start endp [] cl openList → Q cl openList →
    sortOpen cl openList = current :: rest → (cl.deref current).position ≠ endp →
    expand nb endp cl current rest = some st → Q st.1 st.2

/-- One move of a valid walk: `v` is a neighbour of `u`, lies inside the map and
is not a wall. -/
def Step (nb : Vector2i → List Vector2i) (map : Matrix) (u v : Vector2i) : Prop :=
  v ∈ nb u ∧ inBounds map.getSize v ∧ map.get v ≠ some WALL_COST

instance (nb : Vector2i → List Vector2i) (map : Matrix) (u v : Vector2i) :
    Decidable (Step nb map u v) :=
  inferInstanceAs (Decidable (v ∈ nb u ∧ inBounds map.getSize v ∧ map.get v ≠ some WALL_COST))

/-- The cells `w = c1, ..., cn` continue `start` to a valid walk that ends at `endp`. -/
def IsWalk (nb : Vector2i → List Vector2i) (map : Matrix) (start endp : Vector2i)
    (w : List Vector2i) : Prop :=
  List.Chain (Step nb map) start w ∧ (start :: w).getLast? = some endp

/-- Map cost of a cell (`0` outside the map, where no cost is assigned). -/
def cost (map : Matrix) (c : Vector2i) : Int := (map.get c).getD 0

/-- Cost of the walk `start, c1, ..., cn`: the map costs of `start, c1, ..., c(n-1)`;
the cost of the last cell is not part of it. -/
def walkCost (map : Matrix) (start : Vector2i) (w : List Vector2i) : Int :=
  (((start :: w).dropLast).map (cost map)).sum

/-- Every non-wall cost of the map is non-negative. -/
def NonNeg (map : Matrix) : Prop :=
  ∀ p ∈ cells map.getSize, map.get p ≠ some WALL_COST → 0 ≤ cost map p

instance (map : Matrix) : Decidable (NonNeg map) :=
  inferInstanceAs (Decidable
    (∀ p ∈ cells map.getSize, map.get p ≠ some WALL_COST → 0 ≤ cost map p))

/-- The heuristic is admissible: from no cell does it exceed the cost of a valid
walk from that cell to `endp`. -/
def Admissible (nb : Vector2i → List Vector2i) (map : Matrix) (endp : Vector2i) : Prop :=
  ∀ c w, IsWalk nb map c endp w → heuristic c endp ≤ walkCost map c w

/-- The heuristic is consistent: along every move `u → v` of a valid walk from
a non-wall cell `u` of the map it drops by at most the cost of `u`. -/
def Consistent (nb : Vector2i → List Vector2i) (map : Matrix) (endp : Vector2i) : Prop :=
  ∀ u ∈ cells map.getSize, map.get u ≠ some WALL_COST → ∀ v ∈ nb u,
    inBounds map.getSize v → map.get v ≠ some WALL_COST →
      heuristic u endp ≤ cost map u + heuristic v endp

instance (nb : Vector2i → List Vector2i) (map : Matrix) (endp : Vector2i) :
    Decidable (Consistent nb map endp) :=
  inferInstanceAs (Decidable
    (∀ u ∈ cells map.getSize, map.get u ≠ some WALL_COST → ∀ v ∈ nb u,
      inBounds map.getSize v → map.get v ≠ some WALL_COST →
        heuristic u endp ≤ cost map u + heuristic v endp))

/-- Further loop invariant of `AStar::run` under non-negative costs: the path
costs of touched nodes are never `1`, the path cost of a closed node is minimal,
and an open node is relaxed from each of its closed predecessors. -/
structure OptInv (nb : Vector2i → List Vector2i) (map : Matrix) (start : Vector2i)
    (cl : NodeMatrix) (openList : List Vector2i) : Prop where
  gs_ok : ∀ k, Touched cl openList k → 0 ≤ (cl.deref k).gScore ∧ (cl.deref k).gScore ≠ 1
  opt_visited : ∀ u, (cl.deref u).visited = true → ∀ w, IsWalk nb map start u w →
    (cl.deref u).gScore ≤ walkCost map start w
  opt_open : ∀ u, (cl.deref u).visited = true → ∀ v ∈ openList, Step nb map u v →
    (cl.deref v).gScore ≤ (cl.deref u).gScore + (cl.deref u).score

/-- No path cost of a touched node is negative or equal to the wall value `1`. -/
def GsOk (cl : NodeMatrix) (openList : List Vector2i) : Prop :=
  ∀ k, Touched cl openList k → 0 ≤ (cl.deref k).gScore ∧ (cl.deref k).gScore ≠ 1

/-- What holds in every state of the search: the loop invariant, up to the
closed node whose neighbours are being relaxed, and, on a map with non-negative
costs, path costs that are never `1`. -/
def Sane (nb : Vector2i → List Vector2i) (map : Matrix) (start endp : Vector2i)
    (st : NodeMatrix × List Vector2i) : Prop :=
  ∃ exc, Inv nb map start endp exc st.1 st.2 ∧ (NonNeg map → GsOk st.1 st.2)

/-- What the inner loop of `AStar::run` does to the path costs, between a state
`st0` and a later state `st`; `g` is the candidate cost through `current`. -/
structure RelaxFacts (g : Int) (st0 st : NodeMatrix × List Vector2i) : Prop where
  vis : ∀ k, (st.1.deref k).visited = (st0.1.deref k).visited
  score : ∀ k, (st.1.deref k).score = (st0.1.deref k).score
  keep : ∀ k, (st0.1.deref k).visited = true → (st.1.deref k).gScore = (st0.1.deref k).gScore
  grow : ∀ k ∈ st0.2, k ∈ st.2
  le : ∀ k ∈ st0.2, (st.1.deref k).gScore ≤ (st0.1.deref k).gScore
  new : ∀ k ∈ st.2, k ∉ st0.2 → (st.1.deref k).gScore = g
  val : ∀ k, (st.1.deref k).gScore = (st0.1.deref k).gScore ∨ (st.1.deref k).gScore = g

/-- The returned path together with the total path cost accumulated for the
end node (its final `gScore`). -/
def runCost (nb : Vector2i → List Vector2i) (path : List Vector2i) (start endp : Vector2i)
    (map : Matrix) : Option (List Vector2i × Int) :=
  (runState nb path start endp map).map fun r => (r.1, (r.2.deref endp).gScore)

/-- Two node stores of two runs that differ in the map cost of the end cell
only: they agree everywhere except on the base cost `score` of the end node
and, as long as the end node has not entered the open list, on its `gScore`,
which is then not `1` in either store. -/
structure EndRel (endp : Vector2i) (openList : List Vector2i) (cl cl' : NodeMatrix) : Prop where
  size : cl'.mSize = cl.mSize
  other : ∀ k, k ≠ endp → cl'.mMap k = cl.mMap k
  isSome : (cl'.mMap endp).isSome = (cl.mMap endp).isSome
  fScore : (cl'.deref endp).fScore = (cl.deref endp).fScore
  position : (cl'.deref endp).position = (cl.deref endp).position
  parent : (cl'.deref endp).parent = (cl.deref endp).parent
  visited : (cl'.deref endp).visited = (cl.deref endp).visited
  gScore : (cl'.deref endp).gScore = (cl.deref endp).gScore ∨
    (endp ∉ openList ∧ (cl.deref endp).gScore ≠ 1 ∧ (cl'.deref endp).gScore ≠ 1)

/-- Number of cells of the map that are not closed yet. -/
def unvisitedCount (cl : NodeMatrix) : Nat :=
  (cells cl.mSize).countP fun k => (cl.deref k).visited = false

end AStar

namespace Distance

/-- `Hop nb map start k c`: there is a chain `start = c0, ..., ck = c` of exactly
`k` moves, each to a neighbour whose map cost is not `WALL_COST`. -/
inductive Hop (nb : Vector2i → List Vector2i) (map : Matrix) (start : Vector2i) :
    Nat → Vector2i → Prop
  | zero : Hop nb map start 0 start
  | succ {k : Nat} {u v : Vector2i} : Hop nb map start k u → v ∈ nb u →
      map.get v ≠ some WALL_COST → Hop nb map start (k + 1) v

/-- `c` is within `b` hops of `start`. -/
def Within (nb : Vector2i → List Vector2i) (map : Matrix) (start : Vector2i) (b : Nat)
    (c : Vector2i) : Prop :=
  ∃ k, k ≤ b ∧ Hop nb map start k c

/-- Invariant of the outer loop of `Distance::run` after `i` iterations, for
the state `(reachables, checks)`. -/
structure BInv (nb : Vector2i → List Vector2i) (map : Matrix) (start : Vector2i) (i : Nat)
    (st : List Vector2i × List Vector2i) : Prop where
  nodup : st.1.Nodup
  checks_sub : ∀ c ∈ st.2, c ∈ st.1
  checks_hop : ∀ c ∈ st.2, Hop nb map start i c
  sound : ∀ c ∈ st.1, Within nb map start i c
  complete : ∀ c, Within nb map start i c → c ∈ st.1
  closed : ∀ u ∈ st.1, u ∉ st.2 → ∀ v ∈ nb u, map.get v ≠ some WALL_COST → v ∈ st.1
  head : st.1.head? = some start
  ordered : st.1.Pairwise fun a c => ∀ k, Within nb map start k c → Within nb map start k a
  nonwall : ∀ c ∈ st.1, map.get c ≠ some WALL_COST

/-- Invariant inside one iteration of the outer loop, for the state
`(reachables, futurChecks)`; `R` is `reachables` at the start of the iteration. -/
structure LBase (nb : Vector2i → List Vector2i) (map : Matrix) (start : Vector2i) (i : Nat)
    (R : List Vector2i) (st : List Vector2i × List Vector2i) : Prop where
  split : st.1 = R ++ st.2
  nodup : st.1.Nodup
  fresh : ∀ c ∈ st.2, Hop nb map start (i + 1) c ∧ map.get c ≠ some WALL_COST

end Distance

/-! ## Concrete inputs -/

/-- A 3 x 3 map of cost `2` with a wall at `(1, 1)`. -/
def wallMap : Matrix := (Matrix.create 3 3 2).set ⟨1, 1⟩ WALL_COST

/-- The 3 x 3 map on which every cell, `(1, 1)` included, has cost `1`. -/
def onesMap : Matrix := (Matrix.create 3 3 1).set ⟨1, 1⟩ WALL_COST

/-- A 5 x 5 map of cost `2` without walls. -/
def openMap : Matrix := Matrix.create 5 5 2

/-- A 6 x 2 map of cost `2`, with cost `3` at `(0, 1)` and cost `5` at `(1, 0)`. -/
def detourMap : Matrix := ((Matrix.create 6 2 2).set ⟨0, 1⟩ 3).set ⟨1, 0⟩ 5

/-- A neighbour provider with two routes from `(5, 1)` to `(0, 0)`: through
`(5, 0)` and `(1, 0)`, or through `(0, 1)` and `(1, 0)`. -/
def detourNb (p : Vector2i) : List Vector2i :=
  if p = ⟨5, 1⟩ then [⟨5, 0⟩, ⟨0, 1⟩]
  else if p = ⟨5, 0⟩ then [⟨1, 0⟩]
  else if p = ⟨0, 1⟩ then [⟨1, 0⟩]
  else if p = ⟨1, 0⟩ then [⟨0, 0⟩]
  else []

/-- Least cost of a walk to `(0, 0)` in the graph of `detourNb` on `detourMap`. -/
def detourBound (p : Vector2i) : Int :=
  if p = ⟨5, 1⟩ then 9
  else if p = ⟨5, 0⟩ then 7
  else if p = ⟨0, 1⟩ then 8
  else if p = ⟨1, 0⟩ then 5
  else 0

/-- A 2 x 1 map of cost `2`. -/
def lineMap : Matrix := Matrix.create 2 1 2

/-- A 2 x 2 map of cost `2` with the costs `2147483647` at `(0, 0)` and
`2000000000` at `(1, 0)`, whose sum is not an `I32`. -/
def overflowMap : Matrix :=
  ((Matrix.create 2 2 2).set ⟨0, 0⟩ 2147483647).set ⟨1, 0⟩ 2000000000
/-! ## Basic facts -/

theorem mem_cells (size p : Vector2i) : p ∈ cells size ↔ inBounds size p := by
  unfold cells inBounds
  simp only [List.mem_flatMap, List.mem_map, List.mem_range]
  constructor
  · rintro ⟨i, hi, j, hj, rfl⟩
    have h1 : Int.ofNat i < size.x := by simp only [Int.ofNat_eq_coe]; omega
    have h2 : Int.ofNat j < size.y := by simp only [Int.ofNat_eq_coe]; omega
    exact ⟨Int.ofNat_nonneg i, Int.ofNat_nonneg j, h1, h2⟩
  · rintro ⟨h1, h2, h3, h4⟩
    refine ⟨p.x.toNat, by omega, p.y.toNat, by omega, ?_⟩
    cases p with
    | mk x y =>
      have hx : ((x.toNat : Nat) : Int) = x := Int.toNat_of_nonneg h1
      have hy : ((y.toNat : Nat) : Int) = y := Int.toNat_of_nonneg h2
      simp only [Int.ofNat_eq_coe, hx, hy]

@[simp] theorem NodeMatrix.deref_set (cl : NodeMatrix) (p q : Vector2i) (n : Node) :
    (cl.set p n).deref q = if q = p then n else cl.deref q := by
  unfold NodeMatrix.deref NodeMatrix.set
  by_cases h : q = p <;> simp [h]

@[simp] theorem NodeMatrix.mSize_set (cl : NodeMatrix) (p : Vector2i) (n : Node) :
    (cl.set p n).mSize = cl.mSize := rfl

theorem NodeMatrix.mMap_set (cl : NodeMatrix) (p q : Vector2i) (n : Node) :
    (cl.set p n).mMap q = if q = p then some n else cl.mMap q := rfl

namespace AStar

theorem reset_fold (map : Matrix) :
    ∀ (l : List Vector2i) (cl0 : NodeMatrix), (∀ p ∈ l, (map.get p).isSome = true) →
      ∃ cl, l.foldlM (fun cl p => (map.get p).map fun c => cl.set p (Node.mk2 c 0)) cl0 = some cl ∧
        cl.mSize = cl0.mSize ∧
        ∀ p, cl.mMap p = if p ∈ l then (map.get p).map (fun c => Node.mk2 c 0) else cl0.mMap p := by
  intro l
  induction l with
  | nil => intro cl0 _; exact ⟨cl0, rfl, rfl, fun p => by simp⟩
  | cons a l ih =>
    intro cl0 h
    obtain ⟨c, hc⟩ := Option.isSome_iff_exists.mp (h a (List.mem_cons_self a l))
    obtain ⟨cl, h1, h2, h3⟩ := ih (cl0.set a (Node.mk2 c 0))
      (fun p hp => h p (List.mem_cons_of_mem a hp))
    refine ⟨cl, ?_, ?_, ?_⟩
    · simp only [List.foldlM_cons, hc, Option.map_some', Option.bind_eq_bind, Option.some_bind]
      exact h1
    · rw [h2]; rfl
    · intro p
      rw [h3 p, NodeMatrix.mMap_set]
      by_cases hpa : p = a
      · subst hpa
        by_cases hpl : p ∈ l <;> simp [hpl, hc]
      · simp [hpa]

theorem reset_spec (map : Matrix) (hmap : map.Complete) :
    ∃ cl, reset map (NodeMatrix.new map.getSize) = some cl ∧ cl.mSize = map.mSize ∧
      ∀ p, cl.mMap p =
        if inBounds map.mSize p then (map.get p).map (fun c => Node.mk2 c 0) else none := by
  obtain ⟨cl, h1, h2, h3⟩ := reset_fold map (cells map.getSize) (NodeMatrix.new map.getSize) hmap
  refine ⟨cl, h1, h2, fun p => ?_⟩
  rw [h3 p]
  by_cases hp : inBounds map.mSize p
  · have : p ∈ cells map.getSize := (mem_cells _ _).mpr hp
    simp [hp, this]
  · have : p ∉ cells map.getSize := fun h => hp ((mem_cells _ _).mp h)
    simp [hp, this, NodeMatrix.new]

end AStar


namespace AStar

theorem deref_of_mMap {cl : NodeMatrix} {k : Vector2i} {n : Node} (h : cl.mMap k = some n) :
    cl.deref k = n := by
  simp [NodeMatrix.deref, h]

theorem getNeighborsStep_inb {acc : List Vector2i} {cl : NodeMatrix} {p : Vector2i} {n : Node}
    (hp : inBounds cl.mSize p) (hn : cl.mMap p = some n) :
    getNeighborsStep (acc, cl) p =
      some (if n.gScore = 1 then acc else acc ++ [p], cl.set p { n with position := p }) := by
  unfold getNeighborsStep
  simp only [NodeMatrix.getSize, hp, if_true, NodeMatrix.get, hn, isWall, NodeMatrix.deref_set,
    NodeMatrix.mMap_set, Option.map_some']
  by_cases hw : n.gScore = 1 <;> simp [hw]

theorem getNeighborsStep_oob {acc : List Vector2i} {cl : NodeMatrix} {p : Vector2i}
    (hp : ¬ inBounds cl.mSize p) : getNeighborsStep (acc, cl) p = some (acc, cl) := by
  unfold getNeighborsStep
  simp only [NodeMatrix.getSize, hp, if_false]

theorem getNeighbors_fold :
    ∀ (l acc : List Vector2i) (cl : NodeMatrix),
      (∀ k, inBounds cl.mSize k → (cl.mMap k).isSome = true) →
      ∃ cl1, l.foldlM getNeighborsStep (acc, cl) =
          some (acc ++ l.filter (fun p => decide (inBounds cl.mSize p) &&
            decide ((cl.deref p).gScore ≠ 1)), cl1) ∧
        cl1.mSize = cl.mSize ∧ ∀ k, cl1.mMap k = posWritten cl l k := by
  intro l
  induction l with
  | nil =>
    intro acc cl _
    exact ⟨cl, by simp, rfl, fun k => by simp [posWritten]⟩
  | cons p l ih =>
    intro acc cl H
    by_cases hp : inBounds cl.mSize p
    · obtain ⟨n, hn⟩ := Option.isSome_iff_exists.mp (H p hp)
      have hd : cl.deref p = n := deref_of_mMap hn
      have H1 : ∀ k, inBounds (cl.set p { n with position := p }).mSize k →
          ((cl.set p { n with position := p }).mMap k).isSome = true := by
        intro k hk
        rw [NodeMatrix.mMap_set]
        by_cases hkp : k = p
        · simp [hkp]
        · simpa [hkp] using H k hk
      have hg : ∀ q, ((cl.set p { n with position := p }).deref q).gScore = (cl.deref q).gScore := by
        intro q
        rw [NodeMatrix.deref_set]
        by_cases hq : q = p
        · simp [hq, hd]
        · simp [hq]
      have hmap : ∀ k, posWritten (cl.set p { n with position := p }) l k =
          posWritten cl (p :: l) k := by
        intro k
        unfold posWritten
        rw [NodeMatrix.mMap_set, NodeMatrix.mSize_set]
        by_cases hkp : k = p
        · subst hkp
          by_cases hkl : k ∈ l <;> simp [hkl, hp, hn]
        · simp [hkp]
      obtain ⟨cl1, h1, h2, h3⟩ :=
        ih (if n.gScore = 1 then acc else acc ++ [p]) (cl.set p { n with position := p }) H1
      refine ⟨cl1, ?_, by rw [h2]; rfl, fun k => by rw [h3 k, hmap k]⟩
      rw [List.foldlM_cons, getNeighborsStep_inb hp hn]
      simp only [Option.bind_eq_bind, Option.some_bind]
      rw [h1]
      simp only [hg, NodeMatrix.mSize_set]
      by_cases hw : n.gScore = 1
      · simp [hd, hw]
      · simp [hd, hw, hp]
    · obtain ⟨cl1, h1, h2, h3⟩ := ih acc cl H
      refine ⟨cl1, ?_, h2, fun k => ?_⟩
      · rw [List.foldlM_cons, getNeighborsStep_oob hp]
        simp only [Option.bind_eq_bind, Option.some_bind]
        rw [h1]
        simp [hp]
      · rw [h3 k]
        unfold posWritten
        by_cases hkp : k = p
        · subst hkp; simp [hp]
        · simp [hkp]

end AStar

/-! ## Preservation of the loop invariant of `AStar::run` -/

namespace AStar

theorem RChain_congr {cl cl1 : NodeMatrix} {start : Vector2i} :
    ∀ (l : List Vector2i), (∀ x ∈ l, (cl1.deref x).parent = (cl.deref x).parent) →
      RChain cl start l → RChain cl1 start l
  | [], _, h => h
  | [_], _, h => h
  | a :: b :: r, hp, h => by
    obtain ⟨h1, h2⟩ := h
    refine ⟨?_, RChain_congr (b :: r) (fun x hx => hp x (List.mem_cons_of_mem a hx)) h2⟩
    rw [hp a (List.mem_cons_self a _)]
    exact h1

theorem Touched_perm {cl : NodeMatrix} {l1 l2 : List Vector2i} (hperm : l1.Perm l2)
    (k : Vector2i) : Touched cl l1 k ↔ Touched cl l2 k := by
  unfold Touched
  rw [hperm.mem_iff]

theorem Inv.perm {nb : Vector2i → List Vector2i} {map : Matrix} {start endp : Vector2i}
    {exc : List Vector2i} {cl : NodeMatrix} {l1 l2 : List Vector2i}
    (h : Inv nb map start endp exc cl l1) (hperm : l2.Perm l1) :
    Inv nb map start endp exc cl l2 where
  size := h.size
  store := h.store
  open_nodup := (hperm.nodup_iff).mpr h.open_nodup
  open_unvisited := fun k hk => h.open_unvisited k (hperm.mem_iff.mp hk)
  touched_inb := fun k hk => h.touched_inb k ((Touched_perm hperm k).mp hk)
  touched_pos := fun k hk => h.touched_pos k ((Touched_perm hperm k).mp hk)
  touched_nonwall := fun k hk => h.touched_nonwall k ((Touched_perm hperm k).mp hk)
  visited_ne_end := h.visited_ne_end
  start_root := h.start_root
  start_state := by
    rcases h.start_state with hs | hs
    · exact Or.inl hs
    · right
      rw [hs] at hperm
      exact List.perm_singleton.mp hperm
  untouched := fun k hk => h.untouched k (fun ht => hk ((Touched_perm hperm k).mpr ht))
  link := h.link
  chain := fun k hk => h.chain k ((Touched_perm hperm k).mp hk)
  closure := fun u hu hx v hv hb hw => (Touched_perm hperm v).mpr (h.closure u hu hx v hv hb hw)
  fscore := fun k hk => h.fscore k (hperm.mem_iff.mp hk)

theorem SameButPos.score {cl cl1 : NodeMatrix} (h : SameButPos cl cl1) (k : Vector2i) :
    (cl1.deref k).score = (cl.deref k).score := by
  obtain ⟨pos, h1, _⟩ := h k; rw [h1]

theorem SameButPos.gScore {cl cl1 : NodeMatrix} (h : SameButPos cl cl1) (k : Vector2i) :
    (cl1.deref k).gScore = (cl.deref k).gScore := by
  obtain ⟨pos, h1, _⟩ := h k; rw [h1]

theorem SameButPos.fScore {cl cl1 : NodeMatrix} (h : SameButPos cl cl1) (k : Vector2i) :
    (cl1.deref k).fScore = (cl.deref k).fScore := by
  obtain ⟨pos, h1, _⟩ := h k; rw [h1]

theorem SameButPos.parent {cl cl1 : NodeMatrix} (h : SameButPos cl cl1) (k : Vector2i) :
    (cl1.deref k).parent = (cl.deref k).parent := by
  obtain ⟨pos, h1, _⟩ := h k; rw [h1]

theorem SameButPos.visited {cl cl1 : NodeMatrix} (h : SameButPos cl cl1) (k : Vector2i) :
    (cl1.deref k).visited = (cl.deref k).visited := by
  obtain ⟨pos, h1, _⟩ := h k; rw [h1]

theorem SameButPos.position {cl cl1 : NodeMatrix} (h : SameButPos cl cl1) (k : Vector2i)
    (hk : (cl.deref k).position = k) : (cl1.deref k).position = k := by
  obtain ⟨pos, h1, h2⟩ := h k
  rw [h1]
  rcases h2 with h2 | h2
  · simpa [h2] using hk
  · simpa using h2

theorem SameButPos.touched {cl cl1 : NodeMatrix} (h : SameButPos cl cl1) (l : List Vector2i)
    (k : Vector2i) : Touched cl1 l k ↔ Touched cl l k := by
  unfold Touched
  rw [h.visited k]

theorem posWritten_sameButPos {cl cl1 : NodeMatrix} {l : List Vector2i}
    (hs : ∀ k, cl1.mMap k = posWritten cl l k) : SameButPos cl cl1 := by
  intro k
  unfold NodeMatrix.deref
  rw [hs k]
  unfold posWritten
  by_cases hk : k ∈ l ∧ inBounds cl.mSize k
  · rw [if_pos hk]
    cases hm : cl.mMap k with
    | none => exact ⟨Vector2i.zero, by simp [Node.mk2], Or.inl (by simp [Node.mk2])⟩
    | some n => exact ⟨k, by simp, Or.inr rfl⟩
  · rw [if_neg hk]
    exact ⟨((cl.mMap k).getD (Node.mk2 0 0)).position, rfl, Or.inl rfl⟩

theorem posWritten_position {cl cl1 : NodeMatrix} {l : List Vector2i}
    (hs : ∀ k, cl1.mMap k = posWritten cl l k) {k : Vector2i} (hk : k ∈ l)
    (hb : inBounds cl.mSize k) (hsome : (cl.mMap k).isSome = true) :
    (cl1.deref k).position = k := by
  obtain ⟨n, hn⟩ := Option.isSome_iff_exists.mp hsome
  unfold NodeMatrix.deref
  rw [hs k]
  unfold posWritten
  rw [if_pos ⟨hk, hb⟩, hn]
  simp

theorem Inv.sameButPos {nb : Vector2i → List Vector2i} {map : Matrix} {start endp : Vector2i}
    {exc : List Vector2i} {cl cl1 : NodeMatrix} {l : List Vector2i}
    (h : Inv nb map start endp exc cl l) (hs : SameButPos cl cl1)
    (hsize : cl1.mSize = cl.mSize)
    (hstore : ∀ k, inBounds map.mSize k → ∃ n, cl1.mMap k = some n ∧ map.get k = some n.score) :
    Inv nb map start endp exc cl1 l where
  size := by rw [hsize]; exact h.size
  store := hstore
  open_nodup := h.open_nodup
  open_unvisited := fun k hk => by rw [hs.visited]; exact h.open_unvisited k hk
  touched_inb := fun k hk => h.touched_inb k ((hs.touched l k).mp hk)
  touched_pos := fun k hk => hs.position k (h.touched_pos k ((hs.touched l k).mp hk))
  touched_nonwall := fun k hk => h.touched_nonwall k ((hs.touched l k).mp hk)
  visited_ne_end := fun k hk => h.visited_ne_end k (by rw [← hs.visited]; exact hk)
  start_root := by
    rw [hs.parent, hs.gScore]; exact h.start_root
  start_state := by
    rw [hs.visited]; exact h.start_state
  untouched := fun k hk => by
    rw [hs.gScore, hs.score, hs.parent]
    exact h.untouched k (fun ht => hk ((hs.touched l k).mpr ht))
  link := fun k p hp => by
    rw [hs.parent] at hp
    rw [hs.visited, hs.gScore, hs.gScore, hs.score]
    exact h.link k p hp
  chain := fun k hk => by
    obtain ⟨r, h1, h2, h3⟩ := h.chain k ((hs.touched l k).mp hk)
    exact ⟨r, RChain_congr _ (fun x _ => hs.parent x) h1, h2,
      fun x hx => by rw [hs.visited]; exact h3 x hx⟩
  closure := fun u hu hx v hv hb hw =>
    (hs.touched l v).mpr (h.closure u (by rw [← hs.visited]; exact hu) hx v hv hb hw)
  fscore := fun k hk => by
    rw [hs.fScore, hs.gScore]; exact h.fscore k hk

end AStar

namespace AStar

theorem isInOpenList_eq_false {v : Vector2i} {l : List Vector2i} :
    isInOpenList v l = false ↔ v ∉ l := by
  unfold isInOpenList
  simp

/-- The two outcomes of one relaxation: nothing happens, or the neighbour is
rewritten from `current` and is in the open list afterwards. -/
theorem relax_cases (endp current : Vector2i) (st : NodeMatrix × List Vector2i) (v : Vector2i) :
    (relax endp current st v = st ∧
      ((st.1.deref v).visited = true ∨
        (v ∈ st.2 ∧ (st.1.deref v).gScore ≤
          (st.1.deref current).gScore + (st.1.deref current).score))) ∨
    ((st.1.deref v).visited = false ∧
      (v ∉ st.2 ∨ (st.1.deref current).gScore + (st.1.deref current).score <
        (st.1.deref v).gScore) ∧
      relax endp current st v =
        (st.1.set v (relaxed endp current st.1 v), if v ∈ st.2 then st.2 else v :: st.2)) := by
  unfold relax
  dsimp only
  by_cases hv : (st.1.deref v).visited = false
  · rw [if_pos hv]
    by_cases hc : isInOpenList v st.2 = false ∨
        (st.1.deref current).gScore + (st.1.deref current).score < (st.1.deref v).gScore
    · right
      rw [if_pos hc]
      refine ⟨hv, ?_, ?_⟩
      · rcases hc with hc | hc
        · exact Or.inl (isInOpenList_eq_false.mp hc)
        · exact Or.inr hc
      · by_cases hin : v ∈ st.2
        · have : ¬ isInOpenList v st.2 = false := fun h => isInOpenList_eq_false.mp h hin
          rw [if_neg this, if_pos hin]
          rfl
        · have : isInOpenList v st.2 = false := isInOpenList_eq_false.mpr hin
          rw [if_pos this, if_neg hin]
          rfl
    · left
      rw [if_neg hc]
      refine ⟨rfl, Or.inr ?_⟩
      rw [not_or] at hc
      refine ⟨?_, not_lt.mp hc.2⟩
      by_contra hin
      exact hc.1 (isInOpenList_eq_false.mpr hin)
  · left
    rw [if_neg hv]
    exact ⟨rfl, Or.inl (by simpa using hv)⟩

end AStar

namespace AStar

section visit

variable {nb : Vector2i → List Vector2i} {map : Matrix} {start endp : Vector2i}
variable {cl : NodeMatrix} {current : Vector2i} {rest : List Vector2i}

theorem visit_visited (cl : NodeMatrix) (current k : Vector2i) :
    ((cl.set current { cl.deref current with visited := true }).deref k).visited = true ↔
      k = current ∨ (cl.deref k).visited = true := by
  rw [NodeMatrix.deref_set]
  by_cases hk : k = current
  · simp [hk]
  · simp [hk]

theorem visit_other (cl : NodeMatrix) (current k : Vector2i) (hk : k ≠ current) :
    (cl.set current { cl.deref current with visited := true }).deref k = cl.deref k := by
  rw [NodeMatrix.deref_set, if_neg hk]

theorem visit_fields (cl : NodeMatrix) (current k : Vector2i) :
    ((cl.set current { cl.deref current with visited := true }).deref k).score =
        (cl.deref k).score ∧
    ((cl.set current { cl.deref current with visited := true }).deref k).gScore =
        (cl.deref k).gScore ∧
    ((cl.set current { cl.deref current with visited := true }).deref k).fScore =
        (cl.deref k).fScore ∧
    ((cl.set current { cl.deref current with visited := true }).deref k).position =
        (cl.deref k).position ∧
    ((cl.set current { cl.deref current with visited := true }).deref k).parent =
        (cl.deref k).parent := by
  rw [NodeMatrix.deref_set]
  by_cases hk : k = current
  · subst hk; simp
  · simp [hk]

theorem visit_touched (cl : NodeMatrix) (current : Vector2i) (rest : List Vector2i)
    (k : Vector2i) :
    Touched (cl.set current { cl.deref current with visited := true }) rest k ↔
      Touched cl (current :: rest) k := by
  unfold Touched
  rw [visit_visited, List.mem_cons]
  tauto

/-- Closing the node taken from the front of the open list keeps the invariant,
its own neighbours being still to relax. -/
theorem Inv.visit (h : Inv nb map start endp [] cl (current :: rest)) (hne : current ≠ endp) :
    Inv nb map start endp [current]
      (cl.set current { cl.deref current with visited := true }) rest where
  size := h.size
  store := fun k hk => by
    obtain ⟨n, h1, h2⟩ := h.store k hk
    rw [NodeMatrix.mMap_set]
    by_cases hkc : k = current
    · subst hkc
      rw [if_pos rfl, deref_of_mMap h1]
      exact ⟨_, rfl, h2⟩
    · rw [if_neg hkc]
      exact ⟨n, h1, h2⟩
  open_nodup := (List.nodup_cons.mp h.open_nodup).2
  open_unvisited := fun k hk => by
    have hkc : k ≠ current := fun e => (List.nodup_cons.mp h.open_nodup).1 (e ▸ hk)
    rw [visit_other cl current k hkc]
    exact h.open_unvisited k (List.mem_cons_of_mem _ hk)
  touched_inb := fun k hk => h.touched_inb k ((visit_touched cl current rest k).mp hk)
  touched_pos := fun k hk => by
    rw [(visit_fields cl current k).2.2.2.1]
    exact h.touched_pos k ((visit_touched cl current rest k).mp hk)
  touched_nonwall := fun k hk => h.touched_nonwall k ((visit_touched cl current rest k).mp hk)
  visited_ne_end := fun k hk => by
    rcases (visit_visited cl current k).mp hk with hk | hk
    · rw [hk]; exact hne
    · exact h.visited_ne_end k hk
  start_root := by
    rw [(visit_fields cl current start).2.2.2.2, (visit_fields cl current start).2.1]
    exact h.start_root
  start_state := by
    left
    rw [visit_visited]
    rcases h.start_state with hs | hs
    · exact Or.inr hs
    · left
      exact ((List.cons.injEq _ _ _ _ ▸ hs : current = start ∧ rest = []).1).symm
  untouched := fun k hk => by
    rw [(visit_fields cl current k).2.1, (visit_fields cl current k).1,
      (visit_fields cl current k).2.2.2.2]
    exact h.untouched k (fun ht => hk ((visit_touched cl current rest k).mpr ht))
  link := fun k p hp => by
    rw [(visit_fields cl current k).2.2.2.2] at hp
    obtain ⟨h1, h2, h3⟩ := h.link k p hp
    rw [(visit_fields cl current k).2.1, (visit_fields cl current p).2.1,
      (visit_fields cl current p).1, visit_visited]
    exact ⟨Or.inr h1, h2, h3⟩
  chain := fun k hk => by
    obtain ⟨r, h1, h2, h3⟩ := h.chain k ((visit_touched cl current rest k).mp hk)
    exact ⟨r, RChain_congr _ (fun x _ => (visit_fields cl current x).2.2.2.2) h1, h2,
      fun x hx => (visit_visited cl current x).mpr (Or.inr (h3 x hx))⟩
  closure := fun u hu hx v hv hb hw => by
    rw [visit_touched]
    rcases (visit_visited cl current u).mp hu with hu | hu
    · exact absurd (hu ▸ List.mem_singleton_self current : u ∈ [current]) hx
    · exact h.closure u hu (List.not_mem_nil u) v hv hb hw
  fscore := fun k hk => by
    rw [(visit_fields cl current k).2.2.1, (visit_fields cl current k).2.1]
    exact h.fscore k (List.mem_cons_of_mem _ hk)

end visit

end AStar

namespace AStar

section relaxation

variable {nb : Vector2i → List Vector2i} {map : Matrix} {start endp : Vector2i}
variable {cl : NodeMatrix} {current v : Vector2i} {openList : List Vector2i}

theorem relaxed_fields (endp current : Vector2i) (cl : NodeMatrix) (v k : Vector2i) :
    ((cl.set v (relaxed endp current cl v)).deref k).score = (cl.deref k).score ∧
    ((cl.set v (relaxed endp current cl v)).deref k).position = (cl.deref k).position ∧
    ((cl.set v (relaxed endp current cl v)).deref k).visited = (cl.deref k).visited := by
  rw [NodeMatrix.deref_set]
  by_cases hk : k = v
  · subst hk; simp [relaxed]
  · simp [hk]

theorem relaxed_other (endp current : Vector2i) (cl : NodeMatrix) {v k : Vector2i}
    (hk : k ≠ v) : (cl.set v (relaxed endp current cl v)).deref k = cl.deref k := by
  rw [NodeMatrix.deref_set, if_neg hk]

theorem relaxed_self (endp current : Vector2i) (cl : NodeMatrix) (v : Vector2i) :
    (cl.set v (relaxed endp current cl v)).deref v = relaxed endp current cl v := by
  rw [NodeMatrix.deref_set, if_pos rfl]

theorem mem_pushed (v k : Vector2i) (l : List Vector2i) :
    k ∈ (if v ∈ l then l else v :: l) ↔ k ∈ l ∨ k = v := by
  by_cases hv : v ∈ l
  · rw [if_pos hv]
    constructor
    · exact Or.inl
    · rintro (h | h)
      · exact h
      · rw [h]; exact hv
  · rw [if_neg hv, List.mem_cons]
    tauto

theorem relaxed_touched (endp current : Vector2i) (cl : NodeMatrix) (v k : Vector2i)
    (l : List Vector2i) :
    Touched (cl.set v (relaxed endp current cl v)) (if v ∈ l then l else v :: l) k ↔
      Touched cl l k ∨ k = v := by
  unfold Touched
  rw [(relaxed_fields endp current cl v k).2.2, mem_pushed]
  tauto

/-- A relaxation that rewrites the neighbour keeps the invariant. -/
theorem Inv.relaxed (h : Inv nb map start endp [current] cl openList)
    (hcur : (cl.deref current).visited = true) (hstart : (cl.deref start).visited = true)
    (hv : (cl.deref v).visited = false)
    (hvn : v ∈ nb current) (hvb : inBounds map.mSize v) (hvw : map.get v ≠ some WALL_COST)
    (hvp : (cl.deref v).position = v) :
    Inv nb map start endp [current] (cl.set v (relaxed endp current cl v))
      (if v ∈ openList then openList else v :: openList) where
  size := h.size
  store := fun k hk => by
    obtain ⟨n, h1, h2⟩ := h.store k hk
    rw [NodeMatrix.mMap_set]
    by_cases hkv : k = v
    · subst hkv
      rw [if_pos rfl]
      refine ⟨_, rfl, ?_⟩
      rw [h2, ← deref_of_mMap h1]
      rfl
    · rw [if_neg hkv]
      exact ⟨n, h1, h2⟩
  open_nodup := by
    by_cases hin : v ∈ openList
    · rw [if_pos hin]; exact h.open_nodup
    · rw [if_neg hin]; exact List.nodup_cons.mpr ⟨hin, h.open_nodup⟩
  open_unvisited := fun k hk => by
    rw [(relaxed_fields endp current cl v k).2.2]
    rcases (mem_pushed v k openList).mp hk with hk | hk
    · exact h.open_unvisited k hk
    · rw [hk]; exact hv
  touched_inb := fun k hk => by
    rcases (relaxed_touched endp current cl v k openList).mp hk with hk | hk
    · exact h.touched_inb k hk
    · rw [hk]; exact hvb
  touched_pos := fun k hk => by
    rw [(relaxed_fields endp current cl v k).2.1]
    rcases (relaxed_touched endp current cl v k openList).mp hk with hk | hk
    · exact h.touched_pos k hk
    · rw [hk]; exact hvp
  touched_nonwall := fun k hk => by
    rcases (relaxed_touched endp current cl v k openList).mp hk with hk | hk
    · exact h.touched_nonwall k hk
    · rw [hk]; exact hvw
  visited_ne_end := fun k hk => by
    rw [(relaxed_fields endp current cl v k).2.2] at hk
    exact h.visited_ne_end k hk
  start_root := by
    have hsv : start ≠ v := fun e => by rw [e, hv] at hstart; exact Bool.false_ne_true hstart
    rw [relaxed_other endp current cl hsv]
    exact h.start_root
  start_state := by
    left
    rw [(relaxed_fields endp current cl v start).2.2]
    exact hstart
  untouched := fun k hk => by
    have hk1 : ¬ Touched cl openList k ∧ k ≠ v := by
      constructor
      · exact fun ht => hk ((relaxed_touched endp current cl v k openList).mpr (Or.inl ht))
      · exact fun e => hk ((relaxed_touched endp current cl v k openList).mpr (Or.inr e))
    rw [relaxed_other endp current cl hk1.2]
    exact h.untouched k hk1.1
  link := fun k p hp => by
    have hcv : current ≠ v := fun e => by rw [e, hv] at hcur; exact Bool.false_ne_true hcur
    by_cases hkv : k = v
    · subst hkv
      rw [relaxed_self] at hp
      have hpc : p = current := by
        simp only [AStar.relaxed, Option.some.injEq] at hp
        exact hp.symm
      subst hpc
      rw [relaxed_self, relaxed_other endp p cl hcv]
      exact ⟨hcur, hvn, rfl⟩
    · rw [relaxed_other endp current cl hkv] at hp
      obtain ⟨h1, h2, h3⟩ := h.link k p hp
      have hpv : p ≠ v := fun e => by rw [e, hv] at h1; exact Bool.false_ne_true h1
      rw [relaxed_other endp current cl hkv, relaxed_other endp current cl hpv]
      exact ⟨h1, h2, h3⟩
  chain := fun k hk => by
    have hne_of_vis : ∀ x, (cl.deref x).visited = true → x ≠ v := fun x hx e => by
      rw [e, hv] at hx; exact Bool.false_ne_true hx
    have hvis : ∀ x, (cl.deref x).visited = true →
        ((cl.set v (AStar.relaxed endp current cl v)).deref x).visited = true := fun x hx => by
      rw [(relaxed_fields endp current cl v x).2.2]; exact hx
    by_cases hkv : k = v
    · subst hkv
      obtain ⟨r, h1, h2, h3⟩ := h.chain current (Or.inl hcur)
      have hall : ∀ x ∈ current :: r, (cl.deref x).visited = true := by
        intro x hx
        rcases List.mem_cons.mp hx with hx | hx
        · rw [hx]; exact hcur
        · exact h3 x hx
      refine ⟨current :: r, ⟨?_, ?_⟩, ?_, ?_⟩
      · rw [relaxed_self]; rfl
      · exact RChain_congr _
          (fun x hx => by rw [relaxed_other endp current cl (hne_of_vis x (hall x hx))]) h1
      · refine List.nodup_cons.mpr ⟨fun hin => ?_, h2⟩
        exact hne_of_vis k (hall k hin) rfl
      · exact fun x hx => hvis x (hall x hx)
    · have hk1 : Touched cl openList k := by
        rcases (relaxed_touched endp current cl v k openList).mp hk with hk | hk
        · exact hk
        · exact absurd hk hkv
      obtain ⟨r, h1, h2, h3⟩ := h.chain k hk1
      refine ⟨r, RChain_congr _ (fun x hx => ?_) h1, h2, fun x hx => hvis x (h3 x hx)⟩
      rcases List.mem_cons.mp hx with hx | hx
      · rw [hx, relaxed_other endp current cl hkv]
      · rw [relaxed_other endp current cl (hne_of_vis x (h3 x hx))]
  closure := fun u hu hx w hw hb hnw => by
    rw [(relaxed_fields endp current cl v u).2.2] at hu
    exact (relaxed_touched endp current cl v w openList).mpr
      (Or.inl (h.closure u hu hx w hw hb hnw))
  fscore := fun k hk => by
    by_cases hkv : k = v
    · subst hkv
      rw [relaxed_self]
      simp only [AStar.relaxed, hvp]
    · rw [relaxed_other endp current cl hkv]
      rcases (mem_pushed v k openList).mp hk with hk | hk
      · exact h.fscore k hk
      · exact absurd hk hkv

end relaxation

end AStar

namespace AStar

section step

variable {nb : Vector2i → List Vector2i} {map : Matrix} {start endp : Vector2i}
variable {current : Vector2i}

/-- One relaxation keeps the invariant, the `visited` flags and the positions;
afterwards the neighbour is touched. -/
theorem relax_step {st : NodeMatrix × List Vector2i} {v : Vector2i}
    (h : Inv nb map start endp [current] st.1 st.2)
    (hcur : (st.1.deref current).visited = true) (hstart : (st.1.deref start).visited = true)
    (hvn : v ∈ nb current) (hvb : inBounds map.mSize v) (hvw : map.get v ≠ some WALL_COST)
    (hvp : (st.1.deref v).position = v) :
    Inv nb map start endp [current] (relax endp current st v).1 (relax endp current st v).2 ∧
    (∀ k, ((relax endp current st v).1.deref k).visited = (st.1.deref k).visited) ∧
    (∀ k, ((relax endp current st v).1.deref k).position = (st.1.deref k).position) ∧
    (∀ k, Touched st.1 st.2 k →
      Touched (relax endp current st v).1 (relax endp current st v).2 k) ∧
    Touched (relax endp current st v).1 (relax endp current st v).2 v ∧
    (relax endp current st v).1.mSize = st.1.mSize := by
  rcases relax_cases endp current st v with ⟨he, hc⟩ | ⟨hv, _, he⟩
  · rw [he]
    refine ⟨h, fun _ => rfl, fun _ => rfl, fun _ hk => hk, ?_, rfl⟩
    rcases hc with hc | hc
    · exact Or.inl hc
    · exact Or.inr hc.1
  · rw [he]
    refine ⟨h.relaxed hcur hstart hv hvn hvb hvw hvp,
      fun k => (relaxed_fields endp current st.1 v k).2.2,
      fun k => (relaxed_fields endp current st.1 v k).2.1,
      fun k hk => (relaxed_touched endp current st.1 v k st.2).mpr (Or.inl hk),
      (relaxed_touched endp current st.1 v v st.2).mpr (Or.inr rfl), rfl⟩

/-- The whole inner loop keeps the invariant and touches every neighbour. -/
theorem relax_fold :
    ∀ (neighbors : List Vector2i) (st : NodeMatrix × List Vector2i),
      Inv nb map start endp [current] st.1 st.2 →
      (st.1.deref current).visited = true → (st.1.deref start).visited = true →
      (∀ v ∈ neighbors, v ∈ nb current ∧ inBounds map.mSize v ∧ map.get v ≠ some WALL_COST ∧
        (st.1.deref v).position = v) →
      Inv nb map start endp [current] (neighbors.foldl (relax endp current) st).1
          (neighbors.foldl (relax endp current) st).2 ∧
        (∀ k, ((neighbors.foldl (relax endp current) st).1.deref k).visited =
          (st.1.deref k).visited) ∧
        (∀ k, Touched st.1 st.2 k → Touched (neighbors.foldl (relax endp current) st).1
          (neighbors.foldl (relax endp current) st).2 k) ∧
        (∀ v ∈ neighbors, Touched (neighbors.foldl (relax endp current) st).1
          (neighbors.foldl (relax endp current) st).2 v) ∧
        (neighbors.foldl (relax endp current) st).1.mSize = st.1.mSize := by
  intro neighbors
  induction neighbors with
  | nil =>
    intro st h _ _ _
    exact ⟨h, fun _ => rfl, fun _ hk => hk, fun _ hv => absurd hv (List.not_mem_nil _), rfl⟩
  | cons v l ih =>
    intro st h hcur hstart hN
    obtain ⟨hv1, hv2, hv3, hv4⟩ := hN v (List.mem_cons_self v l)
    obtain ⟨a1, a2, a3, a4, a5, a6⟩ := relax_step h hcur hstart hv1 hv2 hv3 hv4
    obtain ⟨b1, b2, b3, b4, b5⟩ := ih (relax endp current st v) a1
      (by rw [a2]; exact hcur) (by rw [a2]; exact hstart)
      (fun w hw => by
        obtain ⟨w1, w2, w3, w4⟩ := hN w (List.mem_cons_of_mem v hw)
        exact ⟨w1, w2, w3, by rw [a3]; exact w4⟩)
    rw [List.foldl_cons]
    refine ⟨b1, fun k => by rw [b2, a2], fun k hk => b3 k (a4 k hk), fun w hw => ?_,
      by rw [b5, a6]⟩
    rcases List.mem_cons.mp hw with hw | hw
    · rw [hw]; exact b3 v a5
    · exact b4 w hw

theorem Inv.close {cl : NodeMatrix} {openList : List Vector2i}
    (h : Inv nb map start endp [current] cl openList)
    (hc : ∀ v ∈ nb current, inBounds map.mSize v → map.get v ≠ some WALL_COST →
      Touched cl openList v) :
    Inv nb map start endp [] cl openList :=
  { h with
    closure := fun u hu _ v hv hb hw => by
      by_cases huc : u = current
      · subst huc; exact hc v hv hb hw
      · exact h.closure u hu (by simpa using huc) v hv hb hw }

theorem countP_lt_of_imp {α : Type} (p q : α → Bool) :
    ∀ (l : List α), (∀ x ∈ l, q x = true → p x = true) →
      (∃ a ∈ l, p a = true ∧ q a = false) → l.countP q < l.countP p := by
  intro l
  induction l with
  | nil => intro _ h; obtain ⟨a, ha, _⟩ := h; cases ha
  | cons b l ih =>
    intro himp hex
    have hle : l.countP q ≤ l.countP p :=
      List.countP_mono_left (fun x hx => himp x (List.mem_cons_of_mem b hx))
    by_cases hqb : q b = true
    · have hpb : p b = true := himp b (List.mem_cons_self b l) hqb
      rw [List.countP_cons_of_pos _ _ hqb, List.countP_cons_of_pos _ _ hpb]
      have : l.countP q < l.countP p := by
        apply ih (fun x hx => himp x (List.mem_cons_of_mem b hx))
        obtain ⟨a, ha, h1, h2⟩ := hex
        rcases List.mem_cons.mp ha with hab | hal
        · rw [hab, hqb] at h2; cases h2
        · exact ⟨a, hal, h1, h2⟩
      omega
    · rw [List.countP_cons_of_neg _ _ hqb]
      by_cases hpb : p b = true
      · rw [List.countP_cons_of_pos _ _ hpb]; omega
      · rw [List.countP_cons_of_neg _ _ hpb]
        apply ih (fun x hx => himp x (List.mem_cons_of_mem b hx))
        obtain ⟨a, ha, h1, h2⟩ := hex
        rcases List.mem_cons.mp ha with hab | hal
        · rw [hab] at h1; exact absurd h1 hpb
        · exact ⟨a, hal, h1, h2⟩

theorem sortOpen_perm (cl : NodeMatrix) (l : List Vector2i) : (sortOpen cl l).Perm l :=
  List.perm_insertionSort _ l

/-- `getNeighbors` under the invariant: it succeeds, returns the in-bounds
candidates whose `gScore` is not `1`, and only writes positions. -/
theorem getNeighbors_spec {cl : NodeMatrix} {openList : List Vector2i}
    (h : Inv nb map start endp [] cl openList) (hcur : current ∈ openList) :
    ∃ cl1, getNeighbors nb [] current cl =
        some ((nb current).filter (fun p => decide (inBounds map.mSize p) &&
          decide ((cl.deref p).gScore ≠ 1)), cl1) ∧
      SameButPos cl cl1 ∧ cl1.mSize = cl.mSize ∧
      (∀ k, inBounds map.mSize k → ∃ n, cl1.mMap k = some n ∧ map.get k = some n.score) ∧
      (∀ v ∈ nb current, inBounds map.mSize v → (cl1.deref v).position = v) := by
  have hsome : ∀ k, inBounds cl.mSize k → (cl.mMap k).isSome = true := by
    intro k hk
    rw [h.size] at hk
    obtain ⟨n, hn, _⟩ := h.store k hk
    rw [hn]; rfl
  obtain ⟨cl1, h1, h2, h3⟩ := getNeighbors_fold (nb current) [] cl hsome
  refine ⟨cl1, ?_, posWritten_sameButPos h3, h2, ?_, ?_⟩
  · unfold getNeighbors
    rw [h.touched_pos current (Or.inr hcur), h1, h.size]
    rfl
  · intro k hk
    obtain ⟨n, hn, hc⟩ := h.store k hk
    rw [h3 k]
    unfold posWritten
    by_cases hkl : k ∈ nb current ∧ inBounds cl.mSize k
    · rw [if_pos hkl, hn]
      exact ⟨_, rfl, hc⟩
    · rw [if_neg hkl]
      exact ⟨n, hn, hc⟩
  · intro v hv hb
    exact posWritten_position h3 hv (by rw [h.size]; exact hb)
      (hsome v (by rw [h.size]; exact hb))

end step

end AStar

namespace AStar

section step

variable {nb : Vector2i → List Vector2i} {map : Matrix} {start endp : Vector2i}
variable {current : Vector2i}

theorem unvisitedCount_lt {cl cl' : NodeMatrix} (hsize : cl'.mSize = cl.mSize)
    (hmono : ∀ k, (cl.deref k).visited = true → (cl'.deref k).visited = true)
    (hb : inBounds cl.mSize current) (h0 : (cl.deref current).visited = false)
    (h1 : (cl'.deref current).visited = true) :
    unvisitedCount cl' < unvisitedCount cl := by
  unfold unvisitedCount
  rw [hsize]
  apply countP_lt_of_imp
  · intro x _ hx
    simp only [decide_eq_true_eq] at hx ⊢
    cases hv : (cl.deref x).visited with
    | false => rfl
    | true => rw [hmono x hv] at hx; exact absurd hx (by decide)
  · exact ⟨current, (mem_cells _ _).mpr hb, by simpa using h0, by simpa using h1⟩

/-- One full iteration of the main loop that does not reach the end keeps the
invariant and closes one more cell. -/
theorem Inv.step {cl : NodeMatrix} {openList rest : List Vector2i}
    (h : Inv nb map start endp [] cl openList)
    (hsort : sortOpen cl openList = current :: rest)
    (hpos : (cl.deref current).position ≠ endp) :
    ∃ st, expand nb endp cl current rest = some st ∧
      Inv nb map start endp [] st.1 st.2 ∧ unvisitedCount st.1 < unvisitedCount cl := by
  have hperm : (current :: rest).Perm openList := hsort ▸ sortOpen_perm cl openList
  have hcur : current ∈ openList := hperm.mem_iff.mp (List.mem_cons_self _ _)
  have hcpos : (cl.deref current).position = current := h.touched_pos current (Or.inr hcur)
  have hne : current ≠ endp := fun e => hpos (by rw [hcpos]; exact e)
  obtain ⟨cl1, hg, hsame, hsize, hstore, hposn⟩ := getNeighbors_spec h hcur
  have h1 : Inv nb map start endp [] cl1 (current :: rest) :=
    (h.perm hperm).sameButPos hsame hsize hstore
  have h2 := h1.visit hne
  have hvc : ((cl1.set current { cl1.deref current with visited := true }).deref current).visited
      = true := (visit_visited cl1 current current).mpr (Or.inl rfl)
  have hvs : ((cl1.set current { cl1.deref current with visited := true }).deref start).visited
      = true := by
    rcases h2.start_state with hs | hs
    · exact hs
    · exact absurd (hs ▸ List.mem_singleton_self start : start ∈ rest)
        (fun hin => by
          have := h2.open_unvisited start hin
          rcases h1.start_state with hs1 | hs1
          · rw [(visit_visited cl1 current start).mpr (Or.inr hs1)] at this
            exact Bool.noConfusion this
          · have hcs : current = start := (List.cons.inj hs1).1
            rw [hcs] at hvc
            rw [hcs, hvc] at this
            exact Bool.noConfusion this)
  have hN : ∀ v ∈ (nb current).filter (fun p => decide (inBounds map.mSize p) &&
      decide ((cl.deref p).gScore ≠ 1)),
      v ∈ nb current ∧ inBounds map.mSize v ∧ map.get v ≠ some WALL_COST ∧
        ((cl1.set current { cl1.deref current with visited := true }).deref v).position = v := by
    intro v hv
    rw [List.mem_filter] at hv
    obtain ⟨hv1, hv2⟩ := hv
    simp only [Bool.and_eq_true, decide_eq_true_eq] at hv2
    refine ⟨hv1, hv2.1, ?_, ?_⟩
    · by_cases ht : Touched cl openList v
      · exact h.touched_nonwall v ht
      · obtain ⟨n, hn, hc⟩ := h.store v hv2.1
        rw [hc]
        have hg := (h.untouched v ht).1
        rw [deref_of_mMap hn] at hg hv2
        intro e
        have e1 : n.score = 1 := Option.some.inj e
        exact hv2.2 (by rw [hg, e1])
    · rw [(visit_fields cl1 current v).2.2.2.1]
      exact hposn v hv1 hv2.1
  obtain ⟨b1, b2, b3, b4, b5⟩ := @relax_fold nb map start endp current _
    (cl1.set current { cl1.deref current with visited := true }, rest) h2 hvc hvs hN
  generalize hst : List.foldl (relax endp current)
    (cl1.set current { cl1.deref current with visited := true }, rest)
    ((nb current).filter (fun p => decide (inBounds map.mSize p) &&
      decide ((cl.deref p).gScore ≠ 1))) = st at b1 b2 b3 b4 b5
  refine ⟨st, ?_, ?_, ?_⟩
  · unfold expand
    rw [hg]
    simp only
    rw [hst]
  · apply b1.close
    intro v hv hb hw
    by_cases hgs : (cl.deref v).gScore = 1
    · have ht : Touched cl openList v := by
        by_contra ht
        obtain ⟨n, hn, hc⟩ := h.store v hb
        have hg := (h.untouched v ht).1
        rw [deref_of_mMap hn] at hg hgs
        exact hw (by rw [hc, ← hg, hgs]; rfl)
      apply b3
      exact (visit_touched cl1 current rest v).mpr
        ((hsame.touched _ v).mpr ((Touched_perm hperm v).mpr ht))
    · apply b4
      rw [List.mem_filter]
      exact ⟨hv, by simp [hb, hgs]⟩
  · apply @unvisitedCount_lt current
    · rw [b5]; exact hsize
    · intro k hk
      rw [b2, visit_visited]
      right
      rw [hsame.visited]; exact hk
    · rw [h.size]; exact h.touched_inb current (Or.inr hcur)
    · exact h.open_unvisited current hcur
    · rw [b2]; exact hvc

end step

end AStar

/-! ## The main loop and the whole run -/

namespace AStar

section loop

variable {nb : Vector2i → List Vector2i} {map : Matrix} {start endp : Vector2i}

theorem reconstruct_chain {cl : NodeMatrix} (hroot : (cl.deref start).parent = none) :
    ∀ (l : List Vector2i) (k : Vector2i) (acc : List Vector2i) (fuel : Nat),
      RChain cl start (k :: l) → (∀ x ∈ k :: l, (cl.deref x).position = x) →
      l.length + 2 ≤ fuel →
      ∃ path, reconstruct cl fuel (some k) acc = some (path ++ acc) ∧
        start :: path = (k :: l).reverse := by
  intro l
  induction l with
  | nil =>
    intro k acc fuel hc _ hf
    have hk : k = start := hc
    subst hk
    obtain ⟨f, rfl⟩ : ∃ f, fuel = f + 2 := ⟨fuel - 2, by simp at hf; omega⟩
    exact ⟨[], by simp [reconstruct, hroot], rfl⟩
  | cons b r ih =>
    intro k acc fuel hc hp hf
    obtain ⟨hkb, hc1⟩ := hc
    obtain ⟨f, rfl⟩ : ∃ f, fuel = f + 1 := ⟨fuel - 1, by simp at hf; omega⟩
    obtain ⟨path, h1, h2⟩ := ih b (k :: acc) f hc1
      (fun x hx => hp x (List.mem_cons_of_mem k hx)) (by simp at hf ⊢; omega)
    refine ⟨path ++ [k], ?_, ?_⟩
    · simp only [reconstruct, hkb, hp k (List.mem_cons_self k _)]
      rw [h1]
      simp
    · rw [List.reverse_cons, ← h2]
      rfl

theorem length_le_cells {size : Vector2i} {l : List Vector2i} (hn : l.Nodup)
    (hb : ∀ x ∈ l, inBounds size x) : l.length ≤ (cells size).length :=
  (List.subperm_of_subset hn (fun x hx => (mem_cells size x).mpr (hb x hx))).length_le

/-- Total correctness of the main loop: with more fuel than unvisited cells it
returns, either on the end node or on an empty open list, and the invariant
(together with any further step invariant `Q`) holds in the final state. -/
theorem loop_spec (Q : NodeMatrix → List Vector2i → Prop)
    (hQ : StepInvariant nb map start endp Q) :
    ∀ (fuel : Nat) (cl : NodeMatrix) (openList : List Vector2i),
      Inv nb map start endp [] cl openList → Q cl openList → unvisitedCount cl < fuel →
      ∃ path cl1, loop nb endp [] fuel cl openList = some (path, cl1) ∧
        (Reached nb map start endp Q cl1 path ∨ Exhausted nb map start endp Q cl1 path) := by
  intro fuel
  induction fuel with
  | zero => intro cl openList _ _ hf; exact absurd hf (Nat.not_lt_zero _)
  | succ fuel ih =>
    intro cl openList h hq hf
    cases hsort : sortOpen cl openList with
    | nil =>
      have hnil : openList = [] := by
        have hp := sortOpen_perm cl openList
        rw [hsort] at hp
        exact hp.symm.eq_nil
      subst hnil
      exact ⟨[], cl, by simp only [loop, List.isEmpty_nil, if_true], Or.inr ⟨rfl, h, hq⟩⟩
    | cons current rest =>
      have hperm : (current :: rest).Perm openList := hsort ▸ sortOpen_perm cl openList
      have hcur : current ∈ openList := hperm.mem_iff.mp (List.mem_cons_self _ _)
      have hne : openList.isEmpty = false := by
        cases openList with
        | nil => exact absurd hcur (List.not_mem_nil _)
        | cons a t => rfl
      by_cases hpos : (cl.deref current).position = endp
      · have hce : current = endp := by
          rw [← hpos]; exact (h.touched_pos current (Or.inr hcur)).symm
        subst hce
        obtain ⟨n, hn, _⟩ := h.store current (h.touched_inb current (Or.inr hcur))
        obtain ⟨r, hr1, hr2, hr3⟩ := h.chain current (Or.inr hcur)
        have hlen : (current :: r).length ≤ (cells cl.mSize).length := by
          apply length_le_cells hr2
          intro x hx
          rw [h.size]
          rcases List.mem_cons.mp hx with hx | hx
          · rw [hx]; exact h.touched_inb current (Or.inr hcur)
          · exact h.touched_inb x (Or.inl (hr3 x hx))
        obtain ⟨path, hp1, hp2⟩ := reconstruct_chain h.start_root.1 r current []
          ((cells cl.getSize).length + 1) hr1
          (by
            intro x hx
            rcases List.mem_cons.mp hx with hx | hx
            · rw [hx]; exact h.touched_pos current (Or.inr hcur)
            · exact h.touched_pos x (Or.inl (hr3 x hx)))
          (by simp only [NodeMatrix.getSize, List.length_cons] at hlen ⊢; omega)
        refine ⟨path, cl, ?_, Or.inl ⟨openList, rest, r, h, hq, hsort, hr1, hr2, hr3, hp2⟩⟩
        simp only [loop, hne, hsort, hpos, if_true, NodeMatrix.get, hn, hp1, List.append_nil,
          Option.map_some', Bool.false_eq_true, if_false]
      · obtain ⟨st, hst, hinv, hcount⟩ := h.step hsort hpos
        obtain ⟨path, cl1, hl, hres⟩ := ih st.1 st.2 hinv
          (hQ cl openList current rest st h hq hsort hpos hst) (by omega)
        refine ⟨path, cl1, ?_, hres⟩
        simp only [loop, hne, hsort, hpos, if_false, hst, Bool.false_eq_true]
        exact hl

end loop

end AStar

namespace AStar

section run

variable {nb : Vector2i → List Vector2i} {map : Matrix} {start endp : Vector2i}

theorem get_of_complete (hmap : map.Complete) {p : Vector2i} (hp : inBounds map.mSize p) :
    ∃ c, map.get p = some c :=
  Option.isSome_iff_exists.mp (hmap p ((mem_cells _ _).mpr hp))

/-- The invariant holds when the main loop is entered. -/
theorem init_inv {cl0 : NodeMatrix} {c : Int} (hsize : cl0.mSize = map.mSize)
    (hcl : ∀ p, cl0.mMap p =
      if inBounds map.mSize p then (map.get p).map (fun c => Node.mk2 c 0) else none)
    (hmap : map.Complete) (hs : inBounds map.mSize start) (hc : map.get start = some c)
    (hsw : c ≠ 1) :
    Inv nb map start endp []
      (cl0.set start { Node.mk2 c 0 with
        position := start, gScore := 0, fScore := 0 + heuristic start endp }) [start] ∧
    ∀ k, ((cl0.set start { Node.mk2 c 0 with
        position := start, gScore := 0, fScore := 0 + heuristic start endp }).deref k).visited
        = false := by
  have hd0 : ∀ k, (cl0.deref k).visited = false ∧ (cl0.deref k).parent = none ∧
      (cl0.deref k).gScore = (cl0.deref k).score := by
    intro k
    unfold NodeMatrix.deref
    rw [hcl k]
    by_cases hk : inBounds map.mSize k
    · obtain ⟨ck, hck⟩ := get_of_complete hmap hk
      simp [hk, hck, Node.mk2]
    · simp [hk, Node.mk2]
  have hvis : ∀ k, ((cl0.set start { Node.mk2 c 0 with
      position := start, gScore := 0, fScore := 0 + heuristic start endp }).deref k).visited
      = false := by
    intro k
    rw [NodeMatrix.deref_set]
    by_cases hk : k = start
    · simp [hk, Node.mk2]
    · simp [hk, (hd0 k).1]
  have hpar : ∀ k, ((cl0.set start { Node.mk2 c 0 with
      position := start, gScore := 0, fScore := 0 + heuristic start endp }).deref k).parent
      = none := by
    intro k
    rw [NodeMatrix.deref_set]
    by_cases hk : k = start
    · simp [hk, Node.mk2]
    · simp [hk, (hd0 k).2.1]
  have htouched : ∀ k, Touched (cl0.set start { Node.mk2 c 0 with
      position := start, gScore := 0, fScore := 0 + heuristic start endp }) [start] k →
      k = start := by
    intro k hk
    rcases hk with hk | hk
    · rw [hvis k] at hk; exact Bool.noConfusion hk
    · exact List.mem_singleton.mp hk
  refine ⟨?_, hvis⟩
  exact
    { size := hsize
      store := fun k hk => by
        rw [NodeMatrix.mMap_set]
        by_cases hks : k = start
        · subst hks
          rw [if_pos rfl]
          exact ⟨_, rfl, hc⟩
        · rw [if_neg hks, hcl k, if_pos hk]
          obtain ⟨ck, hck⟩ := get_of_complete hmap hk
          rw [hck]
          exact ⟨_, rfl, rfl⟩
      open_nodup := List.nodup_singleton start
      open_unvisited := fun k _ => hvis k
      touched_inb := fun k hk => by rw [htouched k hk]; exact hs
      touched_pos := fun k hk => by
        rw [htouched k hk, NodeMatrix.deref_set, if_pos rfl]
      touched_nonwall := fun k hk => by
        rw [htouched k hk, hc]
        exact fun e => hsw (Option.some.inj e)
      visited_ne_end := fun k hk => by rw [hvis k] at hk; exact Bool.noConfusion hk
      start_root := by
        rw [NodeMatrix.deref_set, if_pos rfl]
        exact ⟨rfl, rfl⟩
      start_state := Or.inr rfl
      untouched := fun k hk => by
        have hks : k ≠ start := fun e => hk (Or.inr (by rw [e]; exact List.mem_singleton_self _))
        rw [NodeMatrix.deref_set, if_neg hks]
        exact ⟨(hd0 k).2.2, (hd0 k).2.1⟩
      link := fun k p hp => by rw [hpar k] at hp; exact Option.noConfusion hp
      chain := fun k hk => by
        rw [htouched k hk]
        exact ⟨[], rfl, List.nodup_singleton start,
          fun x hx => absurd hx (List.not_mem_nil x)⟩
      closure := fun u hu => by rw [hvis u] at hu; exact Bool.noConfusion hu
      fscore := fun k hk => by
        rw [List.mem_singleton.mp hk, NodeMatrix.deref_set, if_pos rfl] }

/-- Total correctness of `AStar::run` on a query that passes the `VERIF` test. -/
theorem runState_spec (Q : NodeMatrix → List Vector2i → Prop)
    (hQ : StepInvariant nb map start endp Q)
    (hQ0 : ∀ cl, Inv nb map start endp [] cl [start] →
      (∀ k, (cl.deref k).visited = false) → Q cl [start])
    (path0 : List Vector2i) (hmap : map.Complete)
    (hs : inBounds map.getSize start) (he : inBounds map.getSize endp) (hne : start ≠ endp)
    (hsw : map.get start ≠ some WALL_COST) (hew : map.get endp ≠ some WALL_COST) :
    ∃ path cl1, runState nb path0 start endp map = some (path, cl1) ∧
      (Reached nb map start endp Q cl1 path ∨ Exhausted nb map start endp Q cl1 path) := by
  obtain ⟨cl0, hr, hsize, hcl⟩ := reset_spec map hmap
  change inBounds map.mSize start at hs
  change inBounds map.mSize endp at he
  obtain ⟨cs, hcs⟩ := get_of_complete hmap hs
  obtain ⟨ce, hce⟩ := get_of_complete hmap he
  have hcs1 : cs ≠ 1 := fun e => hsw (by rw [hcs, e]; rfl)
  have hce1 : ce ≠ 1 := fun e => hew (by rw [hce, e]; rfl)
  have hgs : cl0.get start = some (Node.mk2 cs 0) := by
    unfold NodeMatrix.get
    rw [hcl start, if_pos hs, hcs]; rfl
  have hge : cl0.get endp = some (Node.mk2 ce 0) := by
    unfold NodeMatrix.get
    rw [hcl endp, if_pos he, hce]; rfl
  obtain ⟨hinv, hvis⟩ := @init_inv nb map start endp cl0 cs hsize hcl hmap hs hcs hcs1
  have hcount : unvisitedCount (cl0.set start { Node.mk2 cs 0 with
      position := start, gScore := 0, fScore := 0 + heuristic start endp }) <
      (cells map.getSize).length + 1 := by
    unfold unvisitedCount
    rw [NodeMatrix.mSize_set, hsize]
    exact Nat.lt_succ_of_le (List.countP_le_length _)
  obtain ⟨path, cl1, hl, hres⟩ := loop_spec Q hQ _ _ _ hinv (hQ0 _ hinv hvis) hcount
  refine ⟨path, cl1, ?_, hres⟩
  unfold runState
  simp only [hr, if_neg hne, isWall, hgs, hge, Option.map_some', Node.mk2, hcs1, hce1,
    decide_False, listClear]
  exact hl

end run

end AStar

namespace AStar

section facts

variable {nb : Vector2i → List Vector2i} {map : Matrix} {start endp : Vector2i}
variable {cl : NodeMatrix} {openList : List Vector2i}

/-- The trivial rejections of the `VERIF` test. -/
theorem runState_reject (nb : Vector2i → List Vector2i) (path0 : List Vector2i)
    (hmap : map.Complete)
    (hs : inBounds map.getSize start) (he : inBounds map.getSize endp)
    (h : start = endp ∨ map.get start = some WALL_COST ∨ map.get endp = some WALL_COST) :
    ∃ cl, runState nb path0 start endp map = some ([], cl) := by
  obtain ⟨cl0, hr, _, hcl⟩ := reset_spec map hmap
  change inBounds map.mSize start at hs
  change inBounds map.mSize endp at he
  obtain ⟨cs, hcs⟩ := get_of_complete hmap hs
  obtain ⟨ce, hce⟩ := get_of_complete hmap he
  have hgs : cl0.get start = some (Node.mk2 cs 0) := by
    unfold NodeMatrix.get
    rw [hcl start, if_pos hs, hcs]; rfl
  have hge : cl0.get endp = some (Node.mk2 ce 0) := by
    unfold NodeMatrix.get
    rw [hcl endp, if_pos he, hce]; rfl
  refine ⟨cl0, ?_⟩
  unfold runState
  by_cases hse : start = endp
  · simp only [hr, if_pos hse, listClear]
  · by_cases hcs1 : cs = 1
    · simp only [hr, if_neg hse, isWall, hgs, Option.map_some', Node.mk2, hcs1, decide_True,
        if_true, listClear]
    · have hce1 : ce = 1 := by
        rcases h with h | h | h
        · exact absurd h hse
        · rw [hcs] at h; exact absurd (Option.some.inj h) hcs1
        · rw [hce] at h; exact Option.some.inj h
      simp only [hr, if_neg hse, isWall, hgs, hge, Option.map_some', Node.mk2, hcs1, hce1,
        decide_False, decide_True, if_true, listClear]
      rfl

theorem RChain_steps (h : Inv nb map start endp [] cl openList) :
    ∀ (l : List Vector2i), RChain cl start l → (∀ x ∈ l, Touched cl openList x) →
      List.Chain' (fun a b => Step nb map b a) l
  | [], _, _ => List.chain'_nil
  | [_], _, _ => List.chain'_singleton _
  | a :: b :: r, hc, ht => by
    obtain ⟨hab, hc1⟩ := hc
    refine List.Chain'.cons ⟨(h.link a b hab).2.1, h.touched_inb a (ht a (List.mem_cons_self _ _)),
      h.touched_nonwall a (ht a (List.mem_cons_self _ _))⟩
      (RChain_steps h (b :: r) hc1 (fun x hx => ht x (List.mem_cons_of_mem a hx)))

theorem RChain_gScore (h : Inv nb map start endp [] cl openList) :
    ∀ (r : List Vector2i) (k : Vector2i), RChain cl start (k :: r) →
      (cl.deref k).gScore = (r.map fun x => (cl.deref x).score).sum
  | [], k, hc => by
    have hk : k = start := hc
    rw [hk, h.start_root.2]; rfl
  | b :: r, k, hc => by
    obtain ⟨hkb, hc1⟩ := hc
    rw [(h.link k b hkb).2.2, RChain_gScore h r b hc1, List.map_cons, List.sum_cons]
    ring

theorem score_eq_cost (h : Inv nb map start endp [] cl openList) {k : Vector2i}
    (hk : inBounds map.mSize k) : (cl.deref k).score = cost map k := by
  obtain ⟨n, h1, h2⟩ := h.store k hk
  rw [deref_of_mMap h1, cost, h2]; rfl

/-- What a run that stopped on the end node returns. -/
theorem reached_facts {Q : NodeMatrix → List Vector2i → Prop} {path : List Vector2i}
    (h : Reached nb map start endp Q cl path) (hne : start ≠ endp) :
    IsWalk nb map start endp path ∧ path ≠ [] ∧ path.getLast? = some endp ∧
      (start :: path).Nodup ∧ (cl.deref endp).gScore = walkCost map start path := by
  obtain ⟨openList, rest, r, hinv, _, hsort, hr1, hr2, hr3, hrev⟩ := h
  have hperm : (endp :: rest).Perm openList := hsort ▸ sortOpen_perm cl openList
  have hend : endp ∈ openList := hperm.mem_iff.mp (List.mem_cons_self _ _)
  have htouched : ∀ x ∈ endp :: r, Touched cl openList x := by
    intro x hx
    rcases List.mem_cons.mp hx with hx | hx
    · rw [hx]; exact Or.inr hend
    · exact Or.inl (hr3 x hx)
  have hsteps := RChain_steps hinv (endp :: r) hr1 htouched
  have hchain : List.Chain' (Step nb map) (start :: path) := by
    rw [hrev]
    exact List.chain'_reverse.mpr hsteps
  have hlast : (start :: path).getLast? = some endp := by
    rw [hrev, List.getLast?_reverse]; rfl
  have hpne : path ≠ [] := by
    intro e
    rw [e] at hlast
    exact hne (Option.some.inj hlast)
  have hplast : path.getLast? = some endp := by
    cases path with
    | nil => exact absurd rfl hpne
    | cons a t => rw [← hlast]; rfl
  refine ⟨⟨hchain, hlast⟩, hpne, hplast, ?_, ?_⟩
  · rw [hrev]; exact List.nodup_reverse.mpr hr2
  · rw [RChain_gScore hinv r endp hr1, walkCost, hrev, List.reverse_cons, List.dropLast_concat,
      List.map_reverse, List.sum_reverse]
    congr 1
    apply List.map_congr_left
    intro x hx
    exact score_eq_cost hinv (hinv.touched_inb x (Or.inl (hr3 x hx)))

theorem visited_of_chain (h : Inv nb map start endp [] cl []) :
    ∀ (w : List Vector2i) (a : Vector2i), (cl.deref a).visited = true →
      List.Chain (Step nb map) a w → ∀ x ∈ w, (cl.deref x).visited = true
  | [], _, _, _ => fun x hx => absurd hx (List.not_mem_nil x)
  | b :: w, a, ha, hc => by
    rw [List.chain_cons] at hc
    obtain ⟨hab, hc1⟩ := hc
    have hb : (cl.deref b).visited = true := by
      rcases h.closure a ha (List.not_mem_nil a) b hab.1 hab.2.1 hab.2.2 with hb | hb
      · exact hb
      · exact absurd hb (List.not_mem_nil b)
    intro x hx
    rcases List.mem_cons.mp hx with hx | hx
    · rw [hx]; exact hb
    · exact visited_of_chain h w b hb hc1 x hx

/-- A run that stopped on an empty open list has closed every cell that a
valid walk from `start` reaches; the end node is not among them. -/
theorem exhausted_facts {Q : NodeMatrix → List Vector2i → Prop} {path : List Vector2i}
    (h : Exhausted nb map start endp Q cl path) (hne : start ≠ endp) :
    path = [] ∧ ∀ w, ¬ IsWalk nb map start endp w := by
  obtain ⟨hp, hinv, _⟩ := h
  refine ⟨hp, fun w hw => ?_⟩
  have hsv : (cl.deref start).visited = true := by
    rcases hinv.start_state with hs | hs
    · exact hs
    · exact List.noConfusion hs
  have hall := visited_of_chain hinv w start hsv hw.1
  have hmem : endp ∈ start :: w := List.mem_of_getLast?_eq_some hw.2
  rcases List.mem_cons.mp hmem with he | he
  · exact hne he.symm
  · exact hinv.visited_ne_end endp (hall endp he) rfl

end facts

end AStar

namespace AStar

section outcome

variable {nb : Vector2i → List Vector2i} {map : Matrix} {start endp : Vector2i}

theorem chain_step_mem :
    ∀ (w : List Vector2i) (a : Vector2i), List.Chain (Step nb map) a w →
      ∀ x ∈ w, inBounds map.getSize x ∧ map.get x ≠ some WALL_COST
  | [], _, _ => fun x hx => absurd hx (List.not_mem_nil x)
  | b :: w, a, hc => by
    rw [List.chain_cons] at hc
    intro x hx
    rcases List.mem_cons.mp hx with hx | hx
    · rw [hx]; exact hc.1.2
    · exact chain_step_mem w b hc.2 x hx

/-- Outcome of a query that passes the `VERIF` test: the run returns, and either
the path is a valid walk to the end without repetition whose accumulated cost
is the `gScore` of the end node, or it is empty and no valid walk exists. -/
theorem run_outcome (nb : Vector2i → List Vector2i) (path0 : List Vector2i)
    (hmap : map.Complete)
    (hs : inBounds map.getSize start) (he : inBounds map.getSize endp) (hne : start ≠ endp)
    (hsw : map.get start ≠ some WALL_COST) (hew : map.get endp ≠ some WALL_COST) :
    ∃ path cl, runState nb path0 start endp map = some (path, cl) ∧
      ((IsWalk nb map start endp path ∧ path ≠ [] ∧ path.getLast? = some endp ∧
          (start :: path).Nodup ∧ (cl.deref endp).gScore = walkCost map start path) ∨
        (path = [] ∧ ∀ w, ¬ IsWalk nb map start endp w)) := by
  obtain ⟨path, cl, hrun, hres⟩ := @runState_spec nb map start endp (fun _ _ => True)
    (fun _ _ _ _ _ _ _ _ _ _ => trivial) (fun _ _ _ => trivial) path0 hmap hs he hne hsw hew
  refine ⟨path, cl, hrun, ?_⟩
  rcases hres with hres | hres
  · exact Or.inl (reached_facts hres hne)
  · exact Or.inr (exhausted_facts hres hne)

theorem run_eq_of_runState {path0 path : List Vector2i} {cl : NodeMatrix}
    (h : runState nb path0 start endp map = some (path, cl)) :
    run nb path0 start endp map = some path := by
  unfold run
  rw [h]; rfl

/-- Every query on a complete map with in-bounds end points returns, and a
non-empty result is a valid walk from `start` to `endp` without repetition. -/
theorem run_shape (nb : Vector2i → List Vector2i) (path0 : List Vector2i)
    (hmap : map.Complete)
    (hs : inBounds map.getSize start) (he : inBounds map.getSize endp) :
    ∃ path, run nb path0 start endp map = some path ∧
      (path ≠ [] → IsWalk nb map start endp path ∧ path.getLast? = some endp ∧
        (start :: path).Nodup) := by
  by_cases htriv : start = endp ∨ map.get start = some WALL_COST ∨
      map.get endp = some WALL_COST
  · obtain ⟨cl, hcl⟩ := runState_reject nb path0 hmap hs he htriv
    exact ⟨[], run_eq_of_runState hcl, fun h => absurd rfl h⟩
  · simp only [not_or] at htriv
    obtain ⟨path, cl, hrun, hres⟩ := run_outcome nb path0 hmap hs he htriv.1 htriv.2.1 htriv.2.2
    refine ⟨path, run_eq_of_runState hrun, fun hp => ?_⟩
    rcases hres with ⟨h1, _, h3, h4, _⟩ | ⟨h1, _⟩
    · exact ⟨h1, h3, h4⟩
    · exact absurd h1 hp

end outcome

end AStar

/-! ## Facts about `Distance::run` -/

namespace Distance

section basic

variable {nb : Vector2i → List Vector2i} {map : Matrix}

/-- A fold in `Option` fails as soon as one of its elements makes the step fail. -/
theorem foldlM_none_of_mem {σ α : Type} (f : σ → α → Option σ) :
    ∀ (l : List α) (s : σ) (a : α), a ∈ l → (∀ s, f s a = none) → l.foldlM f s = none := by
  intro l
  induction l with
  | nil => intro _ a ha _; exact absurd ha (List.not_mem_nil a)
  | cons b l ih =>
    intro s a ha hf
    rw [List.foldlM_cons]
    cases hb : f s b with
    | none => rfl
    | some s1 =>
      rcases List.mem_cons.mp ha with hab | hal
      · rw [← hab, hf s] at hb; exact Option.noConfusion hb
      · exact ih s1 a hal hf

theorem neighborStep_none {p : Vector2i} (hp : map.get p = none)
    (st : List Vector2i × List Vector2i) : neighborStep map st p = none := by
  unfold neighborStep
  rw [hp]

/-- The first layer fails when a candidate neighbour of `start` has no cost. -/
theorem iterate_none_of_lookup {start p : Vector2i} (hp : p ∈ nb start)
    (hq : map.get p = none) (n : Nat) (r : List Vector2i) :
    iterate nb map (n + 1) (r, [start]) = none := by
  have h1 : checkStep nb map (r, []) start = none :=
    foldlM_none_of_mem (neighborStep map) (nb start) (r, []) p hp (neighborStep_none hq)
  have h2 : layer nb map (r, [start]) = none := by
    unfold layer
    simp only [List.foldlM_cons, h1, Option.bind_eq_bind, Option.none_bind]
  simp only [iterate, h2]

/-- The missing bounds test of `Distance::run`: whenever a candidate neighbour
of a passable `start` has no cost in the map, the run performs the undefined
lookup. -/
theorem run_lookup_fails (r0 : List Vector2i) {start p : Vector2i} {c : Int} (length : Nat)
    (hl : length ≠ 0) (hc : map.get start = some c) (hc1 : c ≠ 1) (hp : p ∈ nb start)
    (hq : map.get p = none) : run nb r0 start length map = none := by
  obtain ⟨n, rfl⟩ : ∃ n, length = n + 1 := ⟨length - 1, by omega⟩
  unfold run
  simp only [if_neg hl, hc, if_neg hc1, iterate_none_of_lookup hp hq, Option.map_none']

end basic

end Distance

namespace Distance

section prefixes

variable {nb : Vector2i → List Vector2i} {map : Matrix}

theorem foldlM_extends {α : Type} (f : List Vector2i × List Vector2i → α →
      Option (List Vector2i × List Vector2i))
    (hf : ∀ s a s1, f s a = some s1 → s.1 <+: s1.1) :
    ∀ (l : List α) (s s1 : List Vector2i × List Vector2i),
      l.foldlM f s = some s1 → s.1 <+: s1.1 := by
  intro l
  induction l with
  | nil =>
    intro s s1 h
    simp only [List.foldlM_nil, Option.pure_def, Option.some.injEq] at h
    rw [h]
  | cons a l ih =>
    intro s s1 h
    rw [List.foldlM_cons] at h
    cases ha : f s a with
    | none => rw [ha] at h; exact Option.noConfusion h
    | some s2 =>
      rw [ha] at h
      exact (hf s a s2 ha).trans (ih s2 s1 h)

theorem neighborStep_extends (s : List Vector2i × List Vector2i) (p : Vector2i)
    (s1 : List Vector2i × List Vector2i) (h : neighborStep map s p = some s1) :
    s.1 <+: s1.1 := by
  unfold neighborStep at h
  cases hp : map.get p with
  | none => rw [hp] at h; exact Option.noConfusion h
  | some c =>
    rw [hp] at h
    simp only at h
    by_cases hc : c ≠ 1 ∧ has p s.1 = false
    · rw [if_pos hc] at h
      rw [← Option.some.inj h]
      exact List.prefix_append _ _
    · rw [if_neg hc] at h
      rw [← Option.some.inj h]

theorem checkStep_extends (s : List Vector2i × List Vector2i) (u : Vector2i)
    (s1 : List Vector2i × List Vector2i) (h : checkStep nb map s u = some s1) :
    s.1 <+: s1.1 :=
  foldlM_extends (neighborStep map) neighborStep_extends (nb u) s s1 h

theorem layer_extends (s s1 : List Vector2i × List Vector2i)
    (h : layer nb map s = some s1) : s.1 <+: s1.1 :=
  foldlM_extends (checkStep nb map) checkStep_extends s.2 (s.1, []) s1 h

/-- Running one more iteration of the outer loop is running one more layer at
the end. -/
theorem iterate_succ (nb : Vector2i → List Vector2i) (map : Matrix) :
    ∀ (n : Nat) (s : List Vector2i × List Vector2i),
      iterate nb map (n + 1) s = (iterate nb map n s).bind (layer nb map) := by
  intro n
  induction n with
  | zero =>
    intro s
    cases h : layer nb map s <;> simp [iterate, h]
  | succ n ih =>
    intro s
    cases h : layer nb map s with
    | none => simp [iterate, h]
    | some s1 =>
      have h1 : iterate nb map (n + 1 + 1) s = iterate nb map (n + 1) s1 := by
        conv_lhs => unfold iterate
        simp only [h]
      have h2 : iterate nb map (n + 1) s = iterate nb map n s1 := by
        conv_lhs => unfold iterate
        simp only [h]
      rw [h1, ih s1, h2]

/-- The result for budget `b` is a prefix of the result for budget `b + 1`. -/
theorem run_succ_extends (nb : Vector2i → List Vector2i) (r0 : List Vector2i)
    (start : Vector2i) (b : Nat) (map : Matrix) (l1 : List Vector2i)
    (h : run nb r0 start (b + 1) map = some l1) :
    ∃ l, run nb r0 start b map = some l ∧ l <+: l1 := by
  unfold run at h ⊢
  simp only [Nat.succ_ne_zero, if_false, listClear, List.nil_append] at h ⊢
  cases hs : map.get start with
  | none => rw [hs] at h; exact Option.noConfusion h
  | some c =>
    rw [hs] at h
    simp only at h ⊢
    by_cases hb : b = 0
    · rw [if_pos hb]
      exact ⟨[], rfl, List.nil_prefix⟩
    · rw [if_neg hb]
      by_cases hc : c = 1
      · rw [if_pos hc] at h ⊢
        exact ⟨[], rfl, by rw [← Option.some.inj h]⟩
      · rw [if_neg hc] at h ⊢
        rw [iterate_succ] at h
        cases hi : iterate nb map b ([start], [start]) with
        | none => rw [hi] at h; exact Option.noConfusion h
        | some s =>
          rw [hi] at h
          simp only [Option.some_bind] at h
          cases hl : layer nb map s with
          | none => rw [hl] at h; exact Option.noConfusion h
          | some s1 =>
            rw [hl] at h
            refine ⟨s.1, rfl, ?_⟩
            have := layer_extends s s1 hl
            rw [← Option.some.inj h]
            exact this

end prefixes

end Distance

namespace Distance

section ball

variable {nb : Vector2i → List Vector2i} {map : Matrix} {start : Vector2i}

theorem has_eq_true {v : Vector2i} {l : List Vector2i} : has v l = true ↔ v ∈ l := by
  unfold has
  rw [List.any_eq_true]
  constructor
  · rintro ⟨x, hx, hd⟩
    rw [of_decide_eq_true hd]
    exact hx
  · intro h
    exact ⟨v, h, decide_eq_true rfl⟩

theorem has_eq_false {v : Vector2i} {l : List Vector2i} : has v l = false ↔ v ∉ l := by
  rw [← has_eq_true]
  cases has v l <;> simp

theorem hop_zero {c : Vector2i} (h : Hop nb map start 0 c) : c = start := by
  cases h
  rfl

theorem within_zero {c : Vector2i} (h : Within nb map start 0 c) : c = start := by
  obtain ⟨k, hk, hh⟩ := h
  have : k = 0 := by omega
  subst this
  exact hop_zero hh

theorem Within.mono_budget {c : Vector2i} {i j : Nat} (h : Within nb map start i c) (hij : i ≤ j) :
    Within nb map start j c := by
  obtain ⟨k, hk, hh⟩ := h
  exact ⟨k, by omega, hh⟩

theorem within_succ {c : Vector2i} {i : Nat} (h : Within nb map start (i + 1) c) :
    Within nb map start i c ∨ Hop nb map start (i + 1) c := by
  obtain ⟨k, hk, hh⟩ := h
  by_cases hki : k ≤ i
  · exact Or.inl ⟨k, hki, hh⟩
  · have : k = i + 1 := by omega
    subst this
    exact Or.inr hh

/-- The loop over the candidates `l` of one frontier cell `u`. -/
theorem neighbors_fold {i : Nat} {R : List Vector2i} {u : Vector2i}
    (hu : Hop nb map start i u) :
    ∀ (l : List Vector2i) (st : List Vector2i × List Vector2i),
      LBase nb map start i R st → (∀ v ∈ l, v ∈ nb u) →
      (∀ v ∈ l, (map.get v).isSome = true) →
      ∃ st1, l.foldlM (neighborStep map) st = some st1 ∧ LBase nb map start i R st1 ∧
        (∀ x ∈ st.1, x ∈ st1.1) ∧ (∀ v ∈ l, map.get v ≠ some WALL_COST → v ∈ st1.1) := by
  intro l
  induction l with
  | nil =>
    intro st h _ _
    exact ⟨st, rfl, h, fun _ hx => hx, fun v hv => absurd hv (List.not_mem_nil v)⟩
  | cons v l ih =>
    intro st h hnb hsome
    obtain ⟨c, hc⟩ := Option.isSome_iff_exists.mp (hsome v (List.mem_cons_self v l))
    by_cases hcond : c ≠ 1 ∧ has v st.1 = false
    · have hstep : neighborStep map st v = some (st.1 ++ [v], st.2 ++ [v]) := by
        unfold neighborStep
        rw [hc]
        simp only [if_pos hcond]
      have hvn : v ∉ st.1 := has_eq_false.mp hcond.2
      have hvw : map.get v ≠ some WALL_COST := by
        rw [hc]; exact fun e => hcond.1 (Option.some.inj e)
      have h1 : LBase nb map start i R (st.1 ++ [v], st.2 ++ [v]) :=
        { split := by
            show st.1 ++ [v] = R ++ (st.2 ++ [v])
            rw [← List.append_assoc, ← h.split]
          nodup := by
            show (st.1 ++ [v]).Nodup
            rw [List.nodup_append]
            refine ⟨h.nodup, List.nodup_singleton v, ?_⟩
            intro a ha hav
            rw [List.mem_singleton.mp hav] at ha
            exact hvn ha
          fresh := by
            intro x hx
            rcases List.mem_append.mp hx with hx | hx
            · exact h.fresh x hx
            · rw [List.mem_singleton.mp hx]
              exact ⟨Hop.succ hu (hnb v (List.mem_cons_self v l)) hvw, hvw⟩ }
      obtain ⟨st1, f1, f2, f3, f4⟩ := ih (st.1 ++ [v], st.2 ++ [v]) h1
        (fun w hw => hnb w (List.mem_cons_of_mem v hw))
        (fun w hw => hsome w (List.mem_cons_of_mem v hw))
      refine ⟨st1, ?_, f2, fun x hx => f3 x (List.mem_append_left _ hx), fun w hw hww => ?_⟩
      · rw [List.foldlM_cons, hstep]
        exact f1
      · rcases List.mem_cons.mp hw with hw | hw
        · rw [hw]; exact f3 v (List.mem_append_right _ (List.mem_singleton_self v))
        · exact f4 w hw hww
    · have hstep : neighborStep map st v = some st := by
        unfold neighborStep
        rw [hc]
        simp only [if_neg hcond]
      obtain ⟨st1, f1, f2, f3, f4⟩ := ih st h
        (fun w hw => hnb w (List.mem_cons_of_mem v hw))
        (fun w hw => hsome w (List.mem_cons_of_mem v hw))
      refine ⟨st1, ?_, f2, f3, fun w hw hww => ?_⟩
      · rw [List.foldlM_cons, hstep]
        exact f1
      · rcases List.mem_cons.mp hw with hw | hw
        · subst hw
          apply f3
          by_contra hin
          apply hcond
          refine ⟨fun e => hww (by rw [hc, e]; rfl), has_eq_false.mpr hin⟩
        · exact f4 w hw hww

/-- The loop over the frontier cells `cs`. -/
theorem checks_fold {i : Nat} {R : List Vector2i} :
    ∀ (cs : List Vector2i) (st : List Vector2i × List Vector2i),
      LBase nb map start i R st → (∀ u ∈ cs, Hop nb map start i u) →
      (∀ u ∈ cs, ∀ v ∈ nb u, (map.get v).isSome = true) →
      ∃ st1, cs.foldlM (checkStep nb map) st = some st1 ∧ LBase nb map start i R st1 ∧
        (∀ x ∈ st.1, x ∈ st1.1) ∧
        (∀ u ∈ cs, ∀ v ∈ nb u, map.get v ≠ some WALL_COST → v ∈ st1.1) := by
  intro cs
  induction cs with
  | nil =>
    intro st h _ _
    exact ⟨st, rfl, h, fun _ hx => hx, fun u hu => absurd hu (List.not_mem_nil u)⟩
  | cons u cs ih =>
    intro st h hhop hsome
    obtain ⟨st1, a1, a2, a3, a4⟩ := neighbors_fold (hhop u (List.mem_cons_self u cs)) (nb u) st h
      (fun _ hv => hv) (hsome u (List.mem_cons_self u cs))
    obtain ⟨st2, b1, b2, b3, b4⟩ := ih st1 a2
      (fun w hw => hhop w (List.mem_cons_of_mem u hw))
      (fun w hw => hsome w (List.mem_cons_of_mem u hw))
    refine ⟨st2, ?_, b2, fun x hx => b3 x (a3 x hx), fun w hw v hv hvw => ?_⟩
    · rw [List.foldlM_cons]
      show (checkStep nb map st u).bind _ = _
      unfold checkStep
      rw [a1]
      exact b1
    · rcases List.mem_cons.mp hw with hw | hw
      · subst hw; exact b3 v (a4 v hv hvw)
      · exact b4 w hw v hv hvw

end ball

end Distance

namespace Distance

section layers

variable {nb : Vector2i → List Vector2i} {map : Matrix} {start : Vector2i}

/-- One iteration of the outer loop takes the invariant from `i` to `i + 1`,
provided every candidate it enumerates has a cost. -/
theorem layer_spec {i : Nat} {st : List Vector2i × List Vector2i}
    (h : BInv nb map start i st)
    (hsome : ∀ u ∈ st.2, ∀ v ∈ nb u, (map.get v).isSome = true) :
    ∃ st1, layer nb map st = some st1 ∧ BInv nb map start (i + 1) st1 := by
  have h0 : LBase nb map start i st.1 (st.1, []) :=
    { split := (List.append_nil _).symm
      nodup := h.nodup
      fresh := fun c hc => absurd hc (List.not_mem_nil c) }
  obtain ⟨st1, a1, a2, a3, a4⟩ := checks_fold st.2 (st.1, []) h0 h.checks_hop hsome
  refine ⟨st1, a1, ?_⟩
  have hsplit : st1.1 = st.1 ++ st1.2 := a2.split
  have hdisj : ∀ c ∈ st1.2, c ∉ st.1 := by
    intro c hc hin
    have hnd := a2.nodup
    rw [hsplit, List.nodup_append] at hnd
    exact hnd.2.2 hin hc
  have hfar : ∀ c ∈ st1.2, ∀ k, Within nb map start k c → i + 1 ≤ k := by
    intro c hc k hk
    by_contra hlt
    exact hdisj c hc (h.complete c (hk.mono_budget (by omega)))
  exact
    { nodup := a2.nodup
      checks_sub := fun c hc => by
        rw [hsplit]; exact List.mem_append_right _ hc
      checks_hop := fun c hc => (a2.fresh c hc).1
      sound := fun c hc => by
        rw [hsplit] at hc
        rcases List.mem_append.mp hc with hc | hc
        · exact (h.sound c hc).mono_budget (Nat.le_succ i)
        · exact ⟨i + 1, le_refl _, (a2.fresh c hc).1⟩
      complete := fun c hc => by
        rcases within_succ hc with hc | hc
        · exact a3 c (h.complete c hc)
        · cases hc with
          | succ hu hv hw =>
            rename_i u
            have hur : u ∈ st.1 := h.complete u ⟨i, le_refl _, hu⟩
            by_cases huc : u ∈ st.2
            · exact a4 u huc c hv hw
            · exact a3 c (h.closed u hur huc c hv hw)
      closed := fun u hu hun v hv hw => by
        rw [hsplit] at hu
        rcases List.mem_append.mp hu with hu | hu
        · by_cases huc : u ∈ st.2
          · exact a4 u huc v hv hw
          · exact a3 v (h.closed u hu huc v hv hw)
        · exact absurd hu hun
      head := by
        rw [hsplit]
        have hh := h.head
        cases hst : st.1 with
        | nil => rw [hst] at hh; exact Option.noConfusion hh
        | cons a t => rw [hst] at hh; exact hh
      ordered := by
        rw [hsplit, List.pairwise_append]
        refine ⟨h.ordered, ?_, ?_⟩
        · rw [List.pairwise_iff_forall_sublist]
          intro a c hac k hk
          have hc : c ∈ st1.2 := hac.subset (List.mem_cons_of_mem a (List.mem_singleton_self c))
          have ha : a ∈ st1.2 := hac.subset (List.mem_cons_self a _)
          exact Within.mono_budget ⟨i + 1, le_refl _, (a2.fresh a ha).1⟩ (hfar c hc k hk)
        · intro a ha c hc k hk
          exact (h.sound a ha).mono_budget (by have := hfar c hc k hk; omega)
      nonwall := fun c hc => by
        rw [hsplit] at hc
        rcases List.mem_append.mp hc with hc | hc
        · exact h.nonwall c hc
        · exact (a2.fresh c hc).2 }

/-- `n` iterations of the outer loop take the invariant from `i` to `i + n`. -/
theorem iterate_spec :
    ∀ (n i : Nat) (st : List Vector2i × List Vector2i), BInv nb map start i st →
      (∀ u, Within nb map start (i + n - 1) u → ∀ v ∈ nb u, (map.get v).isSome = true) →
      ∃ st1, iterate nb map n st = some st1 ∧ BInv nb map start (i + n) st1 := by
  intro n
  induction n with
  | zero => intro i st h _; exact ⟨st, rfl, h⟩
  | succ n ih =>
    intro i st h hsome
    obtain ⟨st1, a1, a2⟩ := layer_spec h
      (fun u hu v hv => hsome u ⟨i, by omega, h.checks_hop u hu⟩ v hv)
    obtain ⟨st2, b1, b2⟩ := ih (i + 1) st1 a2
      (fun u hu v hv => hsome u (hu.mono_budget (by omega)) v hv)
    refine ⟨st2, ?_, by rw [← Nat.add_assoc i n 1, Nat.add_right_comm]; exact b2⟩
    simp only [iterate, a1]
    exact b1

theorem init_binv (hsw : map.get start ≠ some WALL_COST) :
    BInv nb map start 0 ([start], [start]) where
  nodup := List.nodup_singleton start
  checks_sub := fun _ hc => hc
  checks_hop := fun c hc => by rw [List.mem_singleton.mp hc]; exact Hop.zero
  sound := fun c hc => by
    rw [List.mem_singleton.mp hc]; exact ⟨0, le_refl _, Hop.zero⟩
  complete := fun c hc => by rw [within_zero hc]; exact List.mem_singleton_self start
  closed := fun u hu hun => absurd hu hun
  head := rfl
  ordered := List.pairwise_singleton _ _
  nonwall := fun c hc => by rw [List.mem_singleton.mp hc]; exact hsw

end layers

end Distance

/-! ## Optimality of `AStar::run` under a consistent heuristic -/

namespace AStar

section relaxfacts

variable {endp current : Vector2i}

theorem RelaxFacts.refl (g : Int) (st : NodeMatrix × List Vector2i) : RelaxFacts g st st where
  vis := fun _ => rfl
  score := fun _ => rfl
  keep := fun _ _ => rfl
  grow := fun _ hk => hk
  le := fun _ _ => le_refl _
  new := fun _ hk hn => absurd hk hn
  val := fun _ => Or.inl rfl

theorem RelaxFacts.trans {g : Int} {st0 st1 st2 : NodeMatrix × List Vector2i}
    (h1 : RelaxFacts g st0 st1) (h2 : RelaxFacts g st1 st2) : RelaxFacts g st0 st2 where
  vis := fun k => by rw [h2.vis, h1.vis]
  score := fun k => by rw [h2.score, h1.score]
  keep := fun k hk => by
    rw [h2.keep k (by rw [h1.vis]; exact hk), h1.keep k hk]
  grow := fun k hk => h2.grow k (h1.grow k hk)
  le := fun k hk => le_trans (h2.le k (h1.grow k hk)) (h1.le k hk)
  new := fun k hk hn => by
    by_cases hk1 : k ∈ st1.2
    · rcases h2.val k with hv | hv
      · rw [hv]; exact h1.new k hk1 hn
      · exact hv
    · exact h2.new k hk hk1
  val := fun k => by
    rcases h2.val k with hv | hv
    · rw [hv]; exact h1.val k
    · exact Or.inr hv

/-- One relaxation, seen on the path costs. -/
theorem relax_facts (st : NodeMatrix × List Vector2i) (v : Vector2i) :
    RelaxFacts ((st.1.deref current).gScore + (st.1.deref current).score) st
        (relax endp current st v) ∧
      ((st.1.deref v).visited = false →
        v ∈ (relax endp current st v).2 ∧
        ((relax endp current st v).1.deref v).gScore ≤
          (st.1.deref current).gScore + (st.1.deref current).score) := by
  rcases relax_cases endp current st v with ⟨he, hc⟩ | ⟨hv, hc, he⟩
  · rw [he]
    refine ⟨RelaxFacts.refl _ st, fun hv => ?_⟩
    rcases hc with hc | hc
    · rw [hv] at hc; exact Bool.noConfusion hc
    · exact hc
  · rw [he]
    have hself : ((st.1.set v (relaxed endp current st.1 v)).deref v).gScore =
        (st.1.deref current).gScore + (st.1.deref current).score := by
      rw [relaxed_self]; rfl
    refine ⟨?_, fun _ => ⟨(mem_pushed v v st.2).mpr (Or.inr rfl), le_of_eq hself⟩⟩
    exact
      { vis := fun k => (relaxed_fields endp current st.1 v k).2.2
        score := fun k => (relaxed_fields endp current st.1 v k).1
        keep := fun k hk => by
          have hkv : k ≠ v := fun e => by rw [e, hv] at hk; exact Bool.noConfusion hk
          rw [relaxed_other endp current st.1 hkv]
        grow := fun k hk => (mem_pushed v k st.2).mpr (Or.inl hk)
        le := fun k hk => by
          by_cases hkv : k = v
          · subst hkv
            rw [hself]
            rcases hc with hc | hc
            · exact absurd hk hc
            · exact le_of_lt hc
          · rw [relaxed_other endp current st.1 hkv]
        new := fun k hk hn => by
          rcases (mem_pushed v k st.2).mp hk with hk | hk
          · exact absurd hk hn
          · rw [hk]; exact hself
        val := fun k => by
          by_cases hkv : k = v
          · subst hkv; exact Or.inr hself
          · rw [relaxed_other endp current st.1 hkv]; exact Or.inl rfl }

/-- The whole inner loop, seen on the path costs. -/
theorem relax_fold_facts :
    ∀ (neighbors : List Vector2i) (st : NodeMatrix × List Vector2i),
      (st.1.deref current).visited = true →
      RelaxFacts ((st.1.deref current).gScore + (st.1.deref current).score) st
          (neighbors.foldl (relax endp current) st) ∧
        ∀ v ∈ neighbors, (st.1.deref v).visited = false →
          v ∈ (neighbors.foldl (relax endp current) st).2 ∧
          ((neighbors.foldl (relax endp current) st).1.deref v).gScore ≤
            (st.1.deref current).gScore + (st.1.deref current).score := by
  intro neighbors
  induction neighbors with
  | nil =>
    intro st _
    exact ⟨RelaxFacts.refl _ st, fun v hv => absurd hv (List.not_mem_nil v)⟩
  | cons v l ih =>
    intro st hcur
    obtain ⟨a1, a2⟩ := @relax_facts endp current st v
    have hcur1 : ((relax endp current st v).1.deref current).visited = true := by
      rw [a1.vis]; exact hcur
    have hg : ((relax endp current st v).1.deref current).gScore +
        ((relax endp current st v).1.deref current).score =
        (st.1.deref current).gScore + (st.1.deref current).score := by
      rw [a1.keep current hcur, a1.score]
    obtain ⟨b1, b2⟩ := ih (relax endp current st v) hcur1
    rw [hg] at b1 b2
    rw [List.foldl_cons]
    refine ⟨a1.trans b1, fun w hw hwv => ?_⟩
    rcases List.mem_cons.mp hw with hw | hw
    · subst hw
      obtain ⟨c1, c2⟩ := a2 hwv
      exact ⟨b1.grow w c1, le_trans (b1.le w c1) c2⟩
    · exact b2 w hw (by rw [a1.vis]; exact hwv)

end relaxfacts

end AStar

namespace AStar

section expandfacts

variable {nb : Vector2i → List Vector2i} {map : Matrix} {start endp : Vector2i}
variable {cl : NodeMatrix} {openList rest : List Vector2i} {current : Vector2i}

/-- What one iteration of the main loop does to the `visited` flags, the open
list and the path costs. -/
theorem expand_facts {st : NodeMatrix × List Vector2i}
    (h : Inv nb map start endp [] cl openList)
    (hsort : sortOpen cl openList = current :: rest)
    (hst : expand nb endp cl current rest = some st) :
    (∀ k, (st.1.deref k).visited = true ↔ k = current ∨ (cl.deref k).visited = true) ∧
    (∀ k, (st.1.deref k).score = (cl.deref k).score) ∧
    (∀ k, k = current ∨ (cl.deref k).visited = true →
      (st.1.deref k).gScore = (cl.deref k).gScore) ∧
    (∀ k ∈ rest, k ∈ st.2 ∧ (st.1.deref k).gScore ≤ (cl.deref k).gScore) ∧
    (∀ k ∈ st.2, k ∉ rest →
      (st.1.deref k).gScore = (cl.deref current).gScore + (cl.deref current).score) ∧
    (∀ k, (st.1.deref k).gScore = (cl.deref k).gScore ∨
      (st.1.deref k).gScore = (cl.deref current).gScore + (cl.deref current).score) ∧
    (∀ v ∈ nb current, inBounds map.mSize v → (cl.deref v).gScore ≠ 1 →
      (cl.deref v).visited = false → v ≠ current →
      v ∈ st.2 ∧
        (st.1.deref v).gScore ≤ (cl.deref current).gScore + (cl.deref current).score) := by
  have hperm : (current :: rest).Perm openList := hsort ▸ sortOpen_perm cl openList
  have hcur : current ∈ openList := hperm.mem_iff.mp (List.mem_cons_self _ _)
  obtain ⟨cl1, hg, hsame, _, _, _⟩ := getNeighbors_spec h hcur
  unfold expand at hst
  rw [hg] at hst
  simp only [Option.some.injEq] at hst
  have hvc : ((cl1.set current { cl1.deref current with visited := true }).deref current).visited
      = true := (visit_visited cl1 current current).mpr (Or.inl rfl)
  obtain ⟨f1, f2⟩ := @relax_fold_facts endp current
    ((nb current).filter (fun p => decide (inBounds map.mSize p) &&
      decide ((cl.deref p).gScore ≠ 1)))
    (cl1.set current { cl1.deref current with visited := true }, rest) hvc
  rw [hst] at f1 f2
  have hgs : ∀ k, ((cl1.set current { cl1.deref current with visited := true }).deref k).gScore
      = (cl.deref k).gScore := fun k => by
    rw [(visit_fields cl1 current k).2.1, hsame.gScore]
  have hsc : ∀ k, ((cl1.set current { cl1.deref current with visited := true }).deref k).score
      = (cl.deref k).score := fun k => by
    rw [(visit_fields cl1 current k).1, hsame.score]
  have hvis : ∀ k, ((cl1.set current { cl1.deref current with visited := true }).deref k).visited
      = true ↔ k = current ∨ (cl.deref k).visited = true := fun k => by
    rw [visit_visited, hsame.visited]
  simp only [hgs, hsc] at f1 f2
  refine ⟨fun k => ?_, fun k => ?_, fun k hk => ?_, fun k hk => ?_, fun k hk hn => ?_,
    fun k => ?_, fun v hv hb hg1 hvv hvc1 => ?_⟩
  · rw [f1.vis]; exact hvis k
  · rw [f1.score]; exact hsc k
  · rw [f1.keep k ((hvis k).mpr hk)]; exact hgs k
  · exact ⟨f1.grow k hk, by have := f1.le k hk; rw [hgs] at this; exact this⟩
  · exact f1.new k hk hn
  · have := f1.val k
    rw [hgs] at this
    exact this
  · apply f2 v
    · rw [List.mem_filter]
      exact ⟨hv, by simp [hb, hg1]⟩
    · cases hx : ((cl1.set current { cl1.deref current with visited := true }).deref v).visited
        with
      | false => rfl
      | true =>
        rcases (hvis v).mp hx with hx1 | hx1
        · exact absurd hx1 hvc1
        · rw [hvv] at hx1; exact Bool.noConfusion hx1

end expandfacts

end AStar

namespace AStar

section walks

variable {nb : Vector2i → List Vector2i} {map : Matrix} {start endp : Vector2i}
variable {cl : NodeMatrix} {openList : List Vector2i}

theorem walkCost_nil (map : Matrix) (a : Vector2i) : walkCost map a [] = 0 := rfl

theorem walkCost_cons (map : Matrix) (a b : Vector2i) (w : List Vector2i) :
    walkCost map a (b :: w) = cost map a + walkCost map b w := by
  unfold walkCost
  rw [List.dropLast_cons₂, List.map_cons, List.sum_cons]

theorem walkCost_concat (map : Matrix) :
    ∀ (w : List Vector2i) (s a b : Vector2i), (s :: w).getLast? = some a →
      walkCost map s (w ++ [b]) = walkCost map s w + cost map a
  | [], s, a, b, h => by
    have : s = a := by simpa using h
    subst this
    simp [walkCost]
  | c :: w, s, a, b, h => by
    have h1 : (c :: w).getLast? = some a := by
      rw [← h]; rfl
    rw [List.cons_append, walkCost_cons, walkCost_cons, walkCost_concat map w c a b h1]
    ring

theorem chain_concat {R : Vector2i → Vector2i → Prop} :
    ∀ (w : List Vector2i) (s a b : Vector2i), List.Chain R s w →
      (s :: w).getLast? = some a → R a b → List.Chain R s (w ++ [b])
  | [], s, a, b, _, h, hab => by
    have : s = a := by simpa using h
    subst this
    exact List.Chain.cons hab List.Chain.nil
  | c :: w, s, a, b, hc, h, hab => by
    rw [List.chain_cons] at hc
    have h1 : (c :: w).getLast? = some a := by
      rw [← h]; rfl
    exact List.Chain.cons hc.1 (chain_concat w c a b hc.2 h1 hab)

theorem isWalk_concat {w : List Vector2i} {s a b : Vector2i} (h : IsWalk nb map s a w)
    (hab : Step nb map a b) : IsWalk nb map s b (w ++ [b]) := by
  refine ⟨chain_concat w s a b h.1 h.2 hab, ?_⟩
  rw [← List.cons_append, List.getLast?_append]
  rfl

end walks

end AStar

namespace AStar

section headopt

variable {nb : Vector2i → List Vector2i} {map : Matrix} {start endp : Vector2i}
variable {cl : NodeMatrix} {openList rest : List Vector2i} {current : Vector2i}

theorem RChain_getLast : ∀ (l : List Vector2i), RChain cl start l → l.getLast? = some start
  | [], hc => absurd hc (by simp [RChain])
  | [a], hc => by
    have : a = start := hc
    rw [this]; rfl
  | a :: b :: t, hc => by
    rw [List.getLast?_cons_cons]
    exact RChain_getLast (b :: t) hc.2

/-- The path cost of a touched node is the cost of a valid walk from `start`:
the one along its parent chain. -/
theorem touched_walk (h : Inv nb map start endp [] cl openList) {k : Vector2i}
    (hk : Touched cl openList k) :
    ∃ w, IsWalk nb map start k w ∧ walkCost map start w = (cl.deref k).gScore := by
  obtain ⟨r, hr1, _, hr3⟩ := h.chain k hk
  have htouched : ∀ x ∈ k :: r, Touched cl openList x := by
    intro x hx
    rcases List.mem_cons.mp hx with hx | hx
    · rw [hx]; exact hk
    · exact Or.inl (hr3 x hx)
  have hsteps := RChain_steps h (k :: r) hr1 htouched
  have hhead : ∃ path, start :: path = (k :: r).reverse := by
    have h1 := RChain_getLast (k :: r) hr1
    cases hrev : (k :: r).reverse with
    | nil => simp at hrev
    | cons a t =>
      have h2 : (k :: r).reverse.head? = some start := by
        rw [List.head?_reverse]; exact h1
      rw [hrev] at h2
      exact ⟨t, by rw [← Option.some.inj h2]⟩
  obtain ⟨path, hrev⟩ := hhead
  refine ⟨path, ⟨?_, ?_⟩, ?_⟩
  · show List.Chain' (Step nb map) (start :: path)
    rw [hrev]
    exact List.chain'_reverse.mpr hsteps
  · rw [hrev, List.getLast?_reverse]; rfl
  · rw [RChain_gScore h r k hr1, walkCost, hrev, List.reverse_cons, List.dropLast_concat,
      List.map_reverse, List.sum_reverse]
    congr 1
    apply List.map_congr_left
    intro x hx
    exact (score_eq_cost h (h.touched_inb x (Or.inl (hr3 x hx)))).symm

theorem walkCost_nonneg (hnn : NonNeg map) :
    ∀ (w : List Vector2i) (a : Vector2i), inBounds map.getSize a →
      map.get a ≠ some WALL_COST → List.Chain (Step nb map) a w → 0 ≤ walkCost map a w
  | [], _, _, _, _ => le_refl _
  | b :: w, a, ha, haw, hc => by
    rw [List.chain_cons] at hc
    rw [walkCost_cons]
    have h1 := hnn a ((mem_cells _ _).mpr ha) haw
    have h2 := walkCost_nonneg hnn w b hc.1.2.1 hc.1.2.2 hc.2
    omega

/-- A consistent heuristic drops along a valid walk by at most the cost of the walk. -/
theorem heuristic_walk (hcons : Consistent nb map endp) :
    ∀ (w : List Vector2i) (b c : Vector2i), inBounds map.getSize b →
      map.get b ≠ some WALL_COST → List.Chain (Step nb map) b w →
      (b :: w).getLast? = some c → heuristic b endp ≤ walkCost map b w + heuristic c endp
  | [], b, c, _, _, _, hl => by
    have : b = c := by simpa using hl
    rw [this, walkCost_nil]; omega
  | v :: w, b, c, hb, hbw, hc, hl => by
    rw [List.chain_cons] at hc
    have hl1 : (v :: w).getLast? = some c := by
      rw [← hl]; rfl
    have h1 := hcons b ((mem_cells _ _).mpr hb) hbw v hc.1.1 hc.1.2.1 hc.1.2.2
    have h2 := heuristic_walk hcons w v c hc.1.2.1 hc.1.2.2 hc.2 hl1
    rw [walkCost_cons]
    omega

/-- The node at the front of the sorted open list has the least `fScore`. -/
theorem sortOpen_head_le (hsort : sortOpen cl openList = current :: rest) :
    ∀ k ∈ openList, (cl.deref current).fScore ≤ (cl.deref k).fScore := by
  have htot : IsTotal Vector2i (fun a b => compareNode cl b a = false) :=
    ⟨fun a b => by
      simp only [compareNode, decide_eq_false_iff_not, not_lt]
      exact le_total _ _⟩
  have htrans : IsTrans Vector2i (fun a b => compareNode cl b a = false) :=
    ⟨fun a b c hab hbc => by
      simp only [compareNode, decide_eq_false_iff_not, not_lt] at hab hbc ⊢
      exact le_trans hab hbc⟩
  have hsorted := List.sorted_insertionSort (fun a b => compareNode cl b a = false) openList
  have hperm : (current :: rest).Perm openList := hsort ▸ sortOpen_perm cl openList
  unfold sortOpen at hsort
  rw [hsort] at hsorted
  intro k hk
  rcases List.mem_cons.mp (hperm.mem_iff.mpr hk) with hk | hk
  · rw [hk]
  · have := List.rel_of_sorted_cons hsorted k hk
    simpa [compareNode] using this

/-- Under a consistent heuristic and non-negative costs, the path cost of the
node at the front of the sorted open list is minimal among the valid walks
from `start` to it. -/
theorem head_optimal (hnn : NonNeg map) (hcons : Consistent nb map endp)
    (h : Inv nb map start endp [] cl openList) (ho : OptInv nb map start cl openList)
    (hsort : sortOpen cl openList = current :: rest) :
    ∀ w, IsWalk nb map start current w → (cl.deref current).gScore ≤ walkCost map start w := by
  have hperm : (current :: rest).Perm openList := hsort ▸ sortOpen_perm cl openList
  have hcur : current ∈ openList := hperm.mem_iff.mp (List.mem_cons_self _ _)
  have hmin := sortOpen_head_le hsort
  have key : ∀ (w : List Vector2i) (a : Vector2i), (cl.deref a).visited = true →
      List.Chain (Step nb map) a w → (a :: w).getLast? = some current →
      (cl.deref current).gScore ≤ (cl.deref a).gScore + walkCost map a w := by
    intro w
    induction w with
    | nil =>
      intro a ha _ hl
      have : a = current := by simpa using hl
      rw [this, h.open_unvisited current hcur] at ha
      exact Bool.noConfusion ha
    | cons b w ih =>
      intro a ha hc hl
      rw [List.chain_cons] at hc
      have hl1 : (b :: w).getLast? = some current := by
        rw [← hl]; rfl
      have hsa : (cl.deref a).score = cost map a :=
        score_eq_cost h (h.touched_inb a (Or.inl ha))
      rw [walkCost_cons]
      rcases h.closure a ha (List.not_mem_nil a) b hc.1.1 hc.1.2.1 hc.1.2.2 with hb | hb
      · obtain ⟨wa, hwa1, hwa2⟩ := touched_walk h (Or.inl ha)
        have h1 := ho.opt_visited b hb (wa ++ [b]) (isWalk_concat hwa1 hc.1)
        rw [walkCost_concat map wa start a b hwa1.2, hwa2] at h1
        have h2 := ih b hb hc.2 hl1
        omega
      · have h1 := ho.opt_open a ha b hb hc.1
        have h2 := hmin b hb
        rw [h.fscore current hcur, h.fscore b hb] at h2
        have h3 := heuristic_walk hcons w b current hc.1.2.1 hc.1.2.2 hc.2 hl1
        omega
  intro w hw
  rcases h.start_state with hs | hs
  · have := key w start hs hw.1 hw.2
    rw [h.start_root.2] at this
    omega
  · have hcs : current = start := by
      rw [hs] at hcur
      exact List.mem_singleton.mp hcur
    rw [hcs, h.start_root.2]
    have hst : Touched cl openList start := Or.inr (by rw [hs]; exact List.mem_singleton_self _)
    exact walkCost_nonneg hnn w start (h.touched_inb start hst) (h.touched_nonwall start hst) hw.1

end headopt

end AStar

namespace AStar

section optstep

variable {nb : Vector2i → List Vector2i} {map : Matrix} {start endp : Vector2i}

/-- The optimality invariant is kept by every iteration of the main loop. -/
theorem optInv_step (hnn : NonNeg map) (hcons : Consistent nb map endp) :
    StepInvariant nb map start endp (OptInv nb map start) := by
  intro cl openList current rest st h ho hsort hpos hst
  have hperm : (current :: rest).Perm openList := hsort ▸ sortOpen_perm cl openList
  have hcur : current ∈ openList := hperm.mem_iff.mp (List.mem_cons_self _ _)
  obtain ⟨st1, hst1, hinv, _⟩ := h.step hsort hpos
  rw [hst] at hst1
  have hst2 : st1 = st := (Option.some.inj hst1).symm
  subst hst2
  obtain ⟨f1, f2, f3, f4, f5, f6, f7⟩ := expand_facts h hsort hst
  have hcb : inBounds map.mSize current := h.touched_inb current (Or.inr hcur)
  have hcw : map.get current ≠ some WALL_COST := h.touched_nonwall current (Or.inr hcur)
  have hsc : (cl.deref current).score = cost map current := score_eq_cost h hcb
  have hg : 0 ≤ (cl.deref current).gScore + (cl.deref current).score ∧
      (cl.deref current).gScore + (cl.deref current).score ≠ 1 := by
    obtain ⟨g1, g2⟩ := ho.gs_ok current (Or.inr hcur)
    have c1 : 0 ≤ cost map current := hnn current ((mem_cells _ _).mpr hcb) hcw
    have c2 : cost map current ≠ 1 := by
      obtain ⟨n, hn1, hn2⟩ := h.store current hcb
      intro e
      apply hcw
      rw [hn2]
      have : n.score = 1 := by rw [← e, cost, hn2]; rfl
      rw [this]; rfl
    rw [hsc]
    constructor <;> omega
  have hunv : ∀ v ∈ st1.2, v ≠ current ∧ (cl.deref v).visited = false := by
    intro v hv
    have hv1 := hinv.open_unvisited v hv
    constructor
    · intro e
      rw [(f1 v).mpr (Or.inl e)] at hv1
      exact Bool.noConfusion hv1
    · cases hx : (cl.deref v).visited with
      | false => rfl
      | true =>
        rw [(f1 v).mpr (Or.inr hx)] at hv1
        exact Bool.noConfusion hv1
  exact
    { gs_ok := fun k hk => by
        have hcase : Touched cl openList k ∨ (st1.1.deref k).gScore =
            (cl.deref current).gScore + (cl.deref current).score := by
          rcases hk with hk | hk
          · left
            rcases (f1 k).mp hk with hk | hk
            · rw [hk]; exact Or.inr hcur
            · exact Or.inl hk
          · by_cases hkr : k ∈ rest
            · exact Or.inl (Or.inr (hperm.mem_iff.mp (List.mem_cons_of_mem _ hkr)))
            · exact Or.inr (f5 k hk hkr)
        rcases hcase with ht | hv
        · rcases f6 k with hv | hv
          · rw [hv]; exact ho.gs_ok k ht
          · rw [hv]; exact hg
        · rw [hv]; exact hg
      opt_visited := fun u hu w hw => by
        rw [f3 u ((f1 u).mp hu)]
        rcases (f1 u).mp hu with hu1 | hu1
        · rw [hu1] at hw ⊢
          exact head_optimal hnn hcons h ho hsort w hw
        · exact ho.opt_visited u hu1 w hw
      opt_open := fun u hu v hv huv => by
        rw [f3 u ((f1 u).mp hu), f2 u]
        obtain ⟨hvc, hvv⟩ := hunv v hv
        by_cases hvr : v ∈ rest
        · have hvo : v ∈ openList := hperm.mem_iff.mp (List.mem_cons_of_mem _ hvr)
          rcases (f1 u).mp hu with hu1 | hu1
          · subst hu1
            have hg1 : (cl.deref v).gScore ≠ 1 := (ho.gs_ok v (Or.inr hvo)).2
            exact (f7 v huv.1 huv.2.1 hg1 hvv hvc).2
          · exact le_trans (f4 v hvr).2 (ho.opt_open u hu1 v hvo huv)
        · have hvo : v ∉ openList := fun hin => by
            rcases List.mem_cons.mp (hperm.mem_iff.mpr hin) with e | e
            · exact hvc e
            · exact hvr e
          have hnt : ¬ Touched cl openList v := fun ht => by
            rcases ht with ht | ht
            · rw [hvv] at ht; exact Bool.noConfusion ht
            · exact hvo ht
          rcases (f1 u).mp hu with hu1 | hu1
          · subst hu1
            have hg1 : (cl.deref v).gScore ≠ 1 := by
              obtain ⟨n, hn1, hn2⟩ := h.store v huv.2.1
              have hgs := (h.untouched v hnt).1
              rw [hgs, deref_of_mMap hn1]
              intro e
              apply huv.2.2
              rw [hn2, e]; rfl
            exact (f7 v huv.1 huv.2.1 hg1 hvv hvc).2
          · exact absurd (h.closure u hu1 (List.not_mem_nil u) v huv.1 huv.2.1 huv.2.2) hnt }

end optstep

end AStar

namespace AStar

section optrun

variable {nb : Vector2i → List Vector2i} {map : Matrix} {start endp : Vector2i}

theorem optInv_init (cl : NodeMatrix) (h : Inv nb map start endp [] cl [start])
    (hvis : ∀ k, (cl.deref k).visited = false) : OptInv nb map start cl [start] where
  gs_ok := fun k hk => by
    rcases hk with hk | hk
    · rw [hvis k] at hk; exact Bool.noConfusion hk
    · rw [List.mem_singleton.mp hk, h.start_root.2]
      exact ⟨le_refl _, by decide⟩
  opt_visited := fun u hu => by rw [hvis u] at hu; exact Bool.noConfusion hu
  opt_open := fun u hu => by rw [hvis u] at hu; exact Bool.noConfusion hu

/-- Under non-negative costs and a consistent heuristic, a query that passes
the `VERIF` test returns a cheapest valid walk, or the empty path when there is
no valid walk. -/
theorem run_outcome_optimal (nb : Vector2i → List Vector2i) (path0 : List Vector2i)
    (hmap : map.Complete)
    (hs : inBounds map.getSize start) (he : inBounds map.getSize endp) (hne : start ≠ endp)
    (hsw : map.get start ≠ some WALL_COST) (hew : map.get endp ≠ some WALL_COST)
    (hnn : NonNeg map) (hcons : Consistent nb map endp) :
    ∃ path cl, runState nb path0 start endp map = some (path, cl) ∧
      ((IsWalk nb map start endp path ∧ path ≠ [] ∧
          ∀ w, IsWalk nb map start endp w → walkCost map start path ≤ walkCost map start w) ∨
        (path = [] ∧ ∀ w, ¬ IsWalk nb map start endp w)) := by
  obtain ⟨path, cl, hrun, hres⟩ := @runState_spec nb map start endp (OptInv nb map start)
    (optInv_step hnn hcons) optInv_init path0 hmap hs he hne hsw hew
  refine ⟨path, cl, hrun, ?_⟩
  rcases hres with hres | hres
  · left
    obtain ⟨h1, h2, _, _, h5⟩ := reached_facts hres hne
    refine ⟨h1, h2, fun w hw => ?_⟩
    obtain ⟨openList, rest, r, hinv, hq, hsort, _⟩ := hres
    rw [← h5]
    exact head_optimal hnn hcons hinv hq hsort w hw
  · exact Or.inr (exhausted_facts hres hne)

theorem detour_bound :
    ∀ (w : List Vector2i) (c : Vector2i), List.Chain (Step detourNb detourMap) c w →
      (c :: w).getLast? = some ⟨0, 0⟩ →
      detourBound c ≤ walkCost detourMap c w ∧ heuristic c ⟨0, 0⟩ ≤ detourBound c
  | [], c, _, hl => by
    have : c = ⟨0, 0⟩ := by simpa using hl
    subst this
    exact ⟨by decide, by decide⟩
  | v :: w, c, hc, hl => by
    rw [List.chain_cons] at hc
    have hl1 : (v :: w).getLast? = some ⟨0, 0⟩ := by
      rw [← hl]; rfl
    have ih := (detour_bound w v hc.2 hl1).1
    have hv := hc.1.1
    rw [walkCost_cons]
    by_cases h1 : c = ⟨5, 1⟩
    · subst h1
      have hv' : v = ⟨5, 0⟩ ∨ v = ⟨0, 1⟩ := by simpa [detourNb] using hv
      have hcost : cost detourMap ⟨5, 1⟩ = 2 := by decide
      rw [hcost]
      refine ⟨?_, by decide⟩
      rcases hv' with e | e
      · subst e
        have : detourBound ⟨5, 0⟩ = 7 := by decide
        have : detourBound ⟨5, 1⟩ = 9 := by decide
        omega
      · subst e
        have : detourBound ⟨0, 1⟩ = 8 := by decide
        have : detourBound ⟨5, 1⟩ = 9 := by decide
        omega
    · by_cases h2 : c = ⟨5, 0⟩
      · subst h2
        have hv' : v = ⟨1, 0⟩ := by simpa [detourNb] using hv
        subst hv'
        have hcost : cost detourMap ⟨5, 0⟩ = 2 := by decide
        have : detourBound ⟨1, 0⟩ = 5 := by decide
        have : detourBound ⟨5, 0⟩ = 7 := by decide
        rw [hcost]
        exact ⟨by omega, by decide⟩
      · by_cases h3 : c = ⟨0, 1⟩
        · subst h3
          have hv' : v = ⟨1, 0⟩ := by simpa [detourNb] using hv
          subst hv'
          have hcost : cost detourMap ⟨0, 1⟩ = 3 := by decide
          have : detourBound ⟨1, 0⟩ = 5 := by decide
          have : detourBound ⟨0, 1⟩ = 8 := by decide
          rw [hcost]
          exact ⟨by omega, by decide⟩
        · by_cases h4 : c = ⟨1, 0⟩
          · subst h4
            have hv' : v = ⟨0, 0⟩ := by simpa [detourNb] using hv
            subst hv'
            have hcost : cost detourMap ⟨1, 0⟩ = 5 := by decide
            have : detourBound ⟨0, 0⟩ = 0 := by decide
            have : detourBound ⟨1, 0⟩ = 5 := by decide
            rw [hcost]
            exact ⟨by omega, by decide⟩
          · have : detourNb c = [] := by simp [detourNb, h1, h2, h3, h4]
            rw [this] at hv
            exact absurd hv (List.not_mem_nil v)

/-- The truncated straight-line distance is admissible for `detourNb` on `detourMap`. -/
theorem detour_admissible : Admissible detourNb detourMap ⟨0, 0⟩ := by
  intro c w hw
  obtain ⟨h1, h2⟩ := detour_bound w c hw.1 hw.2
  exact le_trans h2 h1

end optrun

end AStar

/-! ## The cost of the end cell does not influence the search -/

namespace AStar

section endrel

variable {endp current : Vector2i} {openList : List Vector2i} {cl cl' : NodeMatrix}

theorem EndRel.deref_other (h : EndRel endp openList cl cl') {k : Vector2i} (hk : k ≠ endp) :
    cl'.deref k = cl.deref k := by
  unfold NodeMatrix.deref
  rw [h.other k hk]

theorem EndRel.all_fScore (h : EndRel endp openList cl cl') (k : Vector2i) :
    (cl'.deref k).fScore = (cl.deref k).fScore := by
  by_cases hk : k = endp
  · rw [hk]; exact h.fScore
  · rw [h.deref_other hk]

theorem EndRel.all_position (h : EndRel endp openList cl cl') (k : Vector2i) :
    (cl'.deref k).position = (cl.deref k).position := by
  by_cases hk : k = endp
  · rw [hk]; exact h.position
  · rw [h.deref_other hk]

theorem EndRel.all_parent (h : EndRel endp openList cl cl') (k : Vector2i) :
    (cl'.deref k).parent = (cl.deref k).parent := by
  by_cases hk : k = endp
  · rw [hk]; exact h.parent
  · rw [h.deref_other hk]

theorem EndRel.all_visited (h : EndRel endp openList cl cl') (k : Vector2i) :
    (cl'.deref k).visited = (cl.deref k).visited := by
  by_cases hk : k = endp
  · rw [hk]; exact h.visited
  · rw [h.deref_other hk]

theorem EndRel.all_isSome (h : EndRel endp openList cl cl') (k : Vector2i) :
    (cl'.mMap k).isSome = (cl.mMap k).isSome := by
  by_cases hk : k = endp
  · rw [hk]; exact h.isSome
  · rw [h.other k hk]

theorem EndRel.wall (h : EndRel endp openList cl cl') (k : Vector2i) :
    decide ((cl'.deref k).gScore ≠ 1) = decide ((cl.deref k).gScore ≠ 1) := by
  by_cases hk : k = endp
  · rw [hk]
    rcases h.gScore with hg | ⟨_, h1, h2⟩
    · rw [hg]
    · simp [h1, h2]
  · rw [h.deref_other hk]

theorem EndRel.open_gScore (h : EndRel endp openList cl cl') {k : Vector2i}
    (hk : k ∈ openList) : (cl'.deref k).gScore = (cl.deref k).gScore := by
  by_cases hke : k = endp
  · rw [hke] at hk ⊢
    rcases h.gScore with hg | ⟨h0, _, _⟩
    · exact hg
    · exact absurd hk h0
  · rw [h.deref_other hke]

theorem EndRel.mono_open {l2 : List Vector2i} (h : EndRel endp openList cl cl')
    (hl : endp ∈ l2 → endp ∈ openList) : EndRel endp l2 cl cl' :=
  { h with
    gScore := by
      rcases h.gScore with hg | ⟨h0, h1, h2⟩
      · exact Or.inl hg
      · exact Or.inr ⟨fun hin => h0 (hl hin), h1, h2⟩ }

theorem EndRel.compareNode_eq (h : EndRel endp openList cl cl') (a b : Vector2i) :
    compareNode cl' a b = compareNode cl a b := by
  unfold compareNode
  rw [h.all_fScore a, h.all_fScore b]

theorem EndRel.sortOpen_eq (h : EndRel endp openList cl cl') (l : List Vector2i) :
    sortOpen cl' l = sortOpen cl l := by
  unfold sortOpen
  simp only [h.compareNode_eq]

theorem EndRel.reconstruct_eq (h : EndRel endp openList cl cl') :
    ∀ (fuel : Nat) (x : Option Vector2i) (acc : List Vector2i),
      reconstruct cl' fuel x acc = reconstruct cl fuel x acc := by
  intro fuel
  induction fuel with
  | zero => intro x acc; rfl
  | succ fuel ih =>
    intro x acc
    cases x with
    | none => rfl
    | some k =>
      simp only [reconstruct, h.all_parent k, h.all_position k]
      cases (cl.deref k).parent with
      | none => exact ih none acc
      | some p => exact ih (some p) _

end endrel

end AStar

namespace AStar

section endsteps

variable {endp current : Vector2i} {openList : List Vector2i} {cl cl' : NodeMatrix}

theorem posWritten_deref {cl cl1 : NodeMatrix} {l : List Vector2i}
    (hs : ∀ k, cl1.mMap k = posWritten cl l k) (k : Vector2i) :
    cl1.deref k =
      if (k ∈ l ∧ inBounds cl.mSize k) ∧ (cl.mMap k).isSome = true then
        { cl.deref k with position := k }
      else cl.deref k := by
  unfold NodeMatrix.deref
  rw [hs k]
  unfold posWritten
  by_cases hk : k ∈ l ∧ inBounds cl.mSize k
  · cases hm : cl.mMap k with
    | none => simp [hk]
    | some n => simp [hk]
  · simp [hk]

theorem EndRel.posWritten_rel (h : EndRel endp openList cl cl') {cl1 cl1' : NodeMatrix}
    {l : List Vector2i} (hsize : cl1.mSize = cl.mSize) (hsize' : cl1'.mSize = cl'.mSize)
    (hs : ∀ k, cl1.mMap k = posWritten cl l k) (hs' : ∀ k, cl1'.mMap k = posWritten cl' l k) :
    EndRel endp openList cl1 cl1' := by
  have hcond : ((endp ∈ l ∧ inBounds cl'.mSize endp) ∧ (cl'.mMap endp).isSome = true) ↔
      ((endp ∈ l ∧ inBounds cl.mSize endp) ∧ (cl.mMap endp).isSome = true) := by
    rw [h.size, h.isSome]
  have hd := posWritten_deref hs endp
  have hd' := posWritten_deref hs' endp
  refine
    { size := by rw [hsize, hsize', h.size]
      other := fun k hk => by
        rw [hs k, hs' k]
        unfold posWritten
        rw [h.other k hk, h.size]
      isSome := by
        rw [hs endp, hs' endp]
        unfold posWritten
        rw [h.size]
        by_cases hc : endp ∈ l ∧ inBounds cl.mSize endp
        · simp only [if_pos hc, Option.isSome_map']
          exact h.isSome
        · simp only [if_neg hc]
          exact h.isSome
      fScore := ?_
      position := ?_
      parent := ?_
      visited := ?_
      gScore := ?_ }
  all_goals
    rw [hd, hd']
    by_cases hc : (endp ∈ l ∧ inBounds cl.mSize endp) ∧ (cl.mMap endp).isSome = true
    · rw [if_pos hc, if_pos (hcond.mpr hc)]
      try first
        | exact h.fScore
        | exact h.parent
        | exact h.visited
        | exact h.gScore
    · rw [if_neg hc, if_neg (fun hx => hc (hcond.mp hx))]
      first
        | exact h.fScore
        | exact h.position
        | exact h.parent
        | exact h.visited
        | exact h.gScore

theorem EndRel.set_other (h : EndRel endp openList cl cl') {k : Vector2i} (hk : k ≠ endp)
    (n : Node) : EndRel endp openList (cl.set k n) (cl'.set k n) := by
  have hek : endp ≠ k := fun e => hk e.symm
  exact
    { size := h.size
      other := fun q hq => by
        rw [NodeMatrix.mMap_set, NodeMatrix.mMap_set, h.other q hq]
      isSome := by
        rw [NodeMatrix.mMap_set, NodeMatrix.mMap_set, if_neg hek, if_neg hek]
        exact h.isSome
      fScore := by
        rw [NodeMatrix.deref_set, NodeMatrix.deref_set, if_neg hek, if_neg hek]
        exact h.fScore
      position := by
        rw [NodeMatrix.deref_set, NodeMatrix.deref_set, if_neg hek, if_neg hek]
        exact h.position
      parent := by
        rw [NodeMatrix.deref_set, NodeMatrix.deref_set, if_neg hek, if_neg hek]
        exact h.parent
      visited := by
        rw [NodeMatrix.deref_set, NodeMatrix.deref_set, if_neg hek, if_neg hek]
        exact h.visited
      gScore := by
        rw [NodeMatrix.deref_set, NodeMatrix.deref_set, if_neg hek, if_neg hek]
        exact h.gScore }

/-- One relaxation on two related stores: the same decision, the same open
list, related stores. -/
theorem EndRel.relax_rel (h : EndRel endp openList cl cl') (hc : current ≠ endp) (v : Vector2i) :
    (relax endp current (cl', openList) v).2 = (relax endp current (cl, openList) v).2 ∧
      EndRel endp (relax endp current (cl, openList) v).2
        (relax endp current (cl, openList) v).1 (relax endp current (cl', openList) v).1 := by
  have hcur : cl'.deref current = cl.deref current := h.deref_other hc
  have hvis : (cl'.deref v).visited = (cl.deref v).visited := h.all_visited v
  rcases relax_cases endp current (cl, openList) v with ⟨e1, c1⟩ | ⟨v1, c1, e1⟩ <;>
    rcases relax_cases endp current (cl', openList) v with ⟨e2, c2⟩ | ⟨v2, c2, e2⟩
  · rw [e1, e2]
    exact ⟨rfl, h⟩
  · exfalso
    simp only at c1 c2 v2
    rw [hvis] at v2
    rw [hcur] at c2
    rcases c1 with c1 | ⟨c1, c3⟩
    · rw [v2] at c1; exact Bool.noConfusion c1
    · rcases c2 with c2 | c2
      · exact c2 c1
      · rw [h.open_gScore c1] at c2
        omega
  · exfalso
    simp only at c1 c2 v1
    rw [hcur] at c2
    rcases c2 with c2 | ⟨c2, c3⟩
    · rw [hvis, v1] at c2; exact Bool.noConfusion c2
    · rcases c1 with c1 | c1
      · exact c1 c2
      · rw [h.open_gScore c2] at c3
        omega
  · rw [e1, e2]
    refine ⟨rfl, ?_⟩
    simp only
    by_cases hve : v = endp
    · subst hve
      exact
        { size := h.size
          other := fun q hq => by
            rw [NodeMatrix.mMap_set, NodeMatrix.mMap_set, if_neg hq, if_neg hq, h.other q hq]
          isSome := by
            rw [NodeMatrix.mMap_set, NodeMatrix.mMap_set, if_pos rfl, if_pos rfl]
            rfl
          fScore := by
            rw [relaxed_self, relaxed_self]
            simp only [relaxed, hcur, h.position]
          position := by
            rw [relaxed_self, relaxed_self]
            simp only [relaxed, h.position]
          parent := by
            rw [relaxed_self, relaxed_self]
            simp only [relaxed]
          visited := by
            rw [relaxed_self, relaxed_self]
            simp only [relaxed, h.visited]
          gScore := by
            left
            rw [relaxed_self, relaxed_self]
            simp only [relaxed, hcur] }
    · have hrel : relaxed endp current cl' v = relaxed endp current cl v := by
        unfold relaxed
        rw [hcur, h.deref_other hve]
      rw [hrel]
      apply (h.set_other hve _).mono_open
      intro hin
      rcases (mem_pushed v endp openList).mp hin with hin | hin
      · exact hin
      · exact absurd hin.symm hve

/-- The inner loop on two related stores. -/
theorem EndRel.relax_fold_rel (hc : current ≠ endp) :
    ∀ (neighbors : List Vector2i) (openList : List Vector2i) (cl cl' : NodeMatrix),
      EndRel endp openList cl cl' →
      (neighbors.foldl (relax endp current) (cl', openList)).2 =
          (neighbors.foldl (relax endp current) (cl, openList)).2 ∧
        EndRel endp (neighbors.foldl (relax endp current) (cl, openList)).2
          (neighbors.foldl (relax endp current) (cl, openList)).1
          (neighbors.foldl (relax endp current) (cl', openList)).1 := by
  intro neighbors
  induction neighbors with
  | nil => intro openList cl cl' h; exact ⟨rfl, h⟩
  | cons v l ih =>
    intro openList cl cl' h
    obtain ⟨a1, a2⟩ := h.relax_rel hc v
    have e' : relax endp current (cl', openList) v =
        ((relax endp current (cl', openList) v).1,
          (relax endp current (cl, openList) v).2) := by
      rw [← a1]
    have e : relax endp current (cl, openList) v =
        ((relax endp current (cl, openList) v).1,
          (relax endp current (cl, openList) v).2) := rfl
    rw [List.foldl_cons, List.foldl_cons, e', e]
    exact ih _ _ _ a2

end endsteps

end AStar

namespace AStar

section endloop

variable {nb : Vector2i → List Vector2i} {map : Matrix} {start endp : Vector2i}

/-- One iteration of the main loop on two related stores. -/
theorem EndRel.expand_rel {cl cl' : NodeMatrix} {openList rest : List Vector2i}
    {current : Vector2i} {st : NodeMatrix × List Vector2i}
    (h : Inv nb map start endp [] cl openList) (hr : EndRel endp openList cl cl')
    (hsort : sortOpen cl openList = current :: rest)
    (hpos : (cl.deref current).position ≠ endp)
    (hst : expand nb endp cl current rest = some st) :
    ∃ st', expand nb endp cl' current rest = some st' ∧ st'.2 = st.2 ∧
      EndRel endp st.2 st.1 st'.1 := by
  have hperm : (current :: rest).Perm openList := hsort ▸ sortOpen_perm cl openList
  have hcur : current ∈ openList := hperm.mem_iff.mp (List.mem_cons_self _ _)
  have hcpos : (cl.deref current).position = current := h.touched_pos current (Or.inr hcur)
  have hne : current ≠ endp := fun e => hpos (by rw [hcpos]; exact e)
  have hsome : ∀ k, inBounds cl.mSize k → (cl.mMap k).isSome = true := by
    intro k hk
    rw [h.size] at hk
    obtain ⟨n, hn, _⟩ := h.store k hk
    rw [hn]; rfl
  have hsome' : ∀ k, inBounds cl'.mSize k → (cl'.mMap k).isSome = true := by
    intro k hk
    rw [hr.size] at hk
    rw [hr.all_isSome]
    exact hsome k hk
  obtain ⟨cl1, a1, a2, a3⟩ := getNeighbors_fold (nb (cl.deref current).position) [] cl hsome
  obtain ⟨cl1', b1, b2, b3⟩ := getNeighbors_fold (nb (cl.deref current).position) [] cl' hsome'
  have hfilter : (fun p => decide (inBounds cl'.mSize p) && decide ((cl'.deref p).gScore ≠ 1)) =
      (fun p => decide (inBounds cl.mSize p) && decide ((cl.deref p).gScore ≠ 1)) := by
    funext p
    rw [hr.size, hr.wall p]
  rw [hfilter] at b1
  have hr1 : EndRel endp rest cl1 cl1' :=
    (hr.posWritten_rel a2 b2 a3 b3).mono_open
      (fun hin => hperm.mem_iff.mp (List.mem_cons_of_mem _ hin))
  have hd1 : cl1'.deref current = cl1.deref current := hr1.deref_other hne
  have hr2 := hr1.set_other hne { cl1.deref current with visited := true }
  obtain ⟨c1, c2⟩ := EndRel.relax_fold_rel hne
    ((nb (cl.deref current).position).filter
      (fun p => decide (inBounds cl.mSize p) && decide ((cl.deref p).gScore ≠ 1)))
    rest _ _ hr2
  unfold expand at hst ⊢
  unfold getNeighbors at hst ⊢
  rw [a1] at hst
  rw [hr.all_position current, b1]
  simp only [List.nil_append, Option.some.injEq] at hst ⊢
  rw [hd1, ← hst]
  exact ⟨_, rfl, c1, c2⟩

/-- The main loop on two related stores returns the same path, and the same
path cost of the end node when the path is not empty. -/
theorem EndRel.loop_rel :
    ∀ (fuel : Nat) (cl cl' : NodeMatrix) (openList : List Vector2i) (path : List Vector2i)
      (clf : NodeMatrix),
      Inv nb map start endp [] cl openList → EndRel endp openList cl cl' →
      loop nb endp [] fuel cl openList = some (path, clf) →
      ∃ clf', loop nb endp [] fuel cl' openList = some (path, clf') ∧
        (path ≠ [] → (clf'.deref endp).gScore = (clf.deref endp).gScore) := by
  intro fuel
  induction fuel with
  | zero => intro cl cl' openList path clf _ _ hl; exact Option.noConfusion hl
  | succ fuel ih =>
    intro cl cl' openList path clf h hr hl
    cases hsort : sortOpen cl openList with
    | nil =>
      have hnil : openList = [] := by
        have hp := sortOpen_perm cl openList
        rw [hsort] at hp
        exact hp.symm.eq_nil
      subst hnil
      simp only [loop, List.isEmpty_nil, if_true, Option.some.injEq, Prod.mk.injEq] at hl
      obtain ⟨rfl, rfl⟩ := hl
      refine ⟨cl', ?_, fun hp => absurd rfl hp⟩
      simp only [loop, List.isEmpty_nil, if_true]
    | cons current rest =>
      have hperm : (current :: rest).Perm openList := hsort ▸ sortOpen_perm cl openList
      have hcur : current ∈ openList := hperm.mem_iff.mp (List.mem_cons_self _ _)
      have hemp : openList.isEmpty = false := by
        cases openList with
        | nil => exact absurd hcur (List.not_mem_nil _)
        | cons a t => rfl
      by_cases hpos : (cl.deref current).position = endp
      · have hce : current = endp := by
          rw [← hpos]; exact (h.touched_pos current (Or.inr hcur)).symm
        subst hce
        obtain ⟨n, hn, _⟩ := h.store current (h.touched_inb current (Or.inr hcur))
        have hn' : ∃ n', cl'.mMap current = some n' := by
          apply Option.isSome_iff_exists.mp
          rw [hr.isSome, hn]; rfl
        obtain ⟨n', hn'⟩ := hn'
        simp only [loop, hemp, hsort, hpos, if_true, NodeMatrix.get, hn, Bool.false_eq_true, if_false] at hl
        cases hrec : reconstruct cl ((cells cl.getSize).length + 1) (some current) [] with
        | none => rw [hrec] at hl; exact Option.noConfusion hl
        | some p =>
          rw [hrec] at hl
          simp only [Option.map_some', Option.some.injEq, Prod.mk.injEq] at hl
          refine ⟨cl', ?_, fun _ => ?_⟩
          · have hsz : cl'.getSize = cl.getSize := hr.size
            simp only [loop, hemp, hr.sortOpen_eq, hsort, hr.all_position, hpos, if_true,
              NodeMatrix.get, hn', hsz, hr.reconstruct_eq, hrec, Option.map_some', hl.1,
              Bool.false_eq_true, if_false]
          · rw [← hl.2]
            exact hr.open_gScore hcur
      · obtain ⟨st, hst, hinv, _⟩ := h.step hsort hpos
        obtain ⟨st', hst', e1, hr'⟩ := hr.expand_rel h hsort hpos hst
        simp only [loop, hemp, hsort, hpos, if_false, hst, Bool.false_eq_true] at hl
        have hr2 : EndRel endp st.2 st.1 st'.1 := hr'
        obtain ⟨clf', g1, g2⟩ := ih st.1 st'.1 st.2 path clf hinv hr2 hl
        refine ⟨clf', ?_, g2⟩
        simp only [loop, hemp, hr.sortOpen_eq, hsort, hr.all_position, hpos, if_false, hst', e1,
          Bool.false_eq_true]
        exact g1

end endloop

end AStar

namespace AStar

section endrun

variable {nb : Vector2i → List Vector2i} {map : Matrix} {start endp : Vector2i}

/-- A query that passes the `VERIF` test is the main loop started on the store
built by `RESET` and `FIRST NODE`. -/
theorem runState_search (nb : Vector2i → List Vector2i) (path0 : List Vector2i)
    (hmap : map.Complete) (hs : inBounds map.getSize start) (he : inBounds map.getSize endp)
    (hne : start ≠ endp) (hsw : map.get start ≠ some WALL_COST)
    (hew : map.get endp ≠ some WALL_COST) :
    ∃ (cl0 : NodeMatrix) (cs : Int), cl0.mSize = map.mSize ∧
      (∀ p, cl0.mMap p =
        if inBounds map.mSize p then (map.get p).map (fun c => Node.mk2 c 0) else none) ∧
      map.get start = some cs ∧ cs ≠ 1 ∧
      runState nb path0 start endp map =
        loop nb endp [] ((cells map.getSize).length + 1)
          (cl0.set start { Node.mk2 cs 0 with
            position := start, gScore := 0, fScore := 0 + heuristic start endp }) [start] := by
  obtain ⟨cl0, hr, hsize, hcl⟩ := reset_spec map hmap
  change inBounds map.mSize start at hs
  change inBounds map.mSize endp at he
  obtain ⟨cs, hcs⟩ := get_of_complete hmap hs
  obtain ⟨ce, hce⟩ := get_of_complete hmap he
  have hcs1 : cs ≠ 1 := fun e => hsw (by rw [hcs, e]; rfl)
  have hce1 : ce ≠ 1 := fun e => hew (by rw [hce, e]; rfl)
  have hgs : cl0.get start = some (Node.mk2 cs 0) := by
    unfold NodeMatrix.get
    rw [hcl start, if_pos hs, hcs]; rfl
  have hge : cl0.get endp = some (Node.mk2 ce 0) := by
    unfold NodeMatrix.get
    rw [hcl endp, if_pos he, hce]; rfl
  refine ⟨cl0, cs, hsize, hcl, hcs, hcs1, ?_⟩
  unfold runState
  simp only [hr, if_neg hne, isWall, hgs, hge, Option.map_some', Node.mk2, hcs1, hce1,
    decide_False, listClear]
  rfl

theorem complete_set (hmap : map.Complete) (p : Vector2i) (v : Int) :
    (map.set p v).Complete := by
  intro q hq
  have := hmap q hq
  unfold Matrix.get Matrix.set at *
  by_cases hqp : q = p
  · simp [hqp]
  · simpa [hqp] using this

theorem get_set_other (p q : Vector2i) (v : Int) (hq : q ≠ p) :
    (map.set p v).get q = map.get q := by
  unfold Matrix.get Matrix.set
  simp [hq]

theorem get_set_self (p : Vector2i) (v : Int) : (map.set p v).get p = some v := by
  unfold Matrix.get Matrix.set
  simp

/-- Replacing the map cost of the end cell by another non-wall value changes
neither the returned path nor, when the path is not empty, the path cost
accumulated for the end node. -/
theorem runState_end_cost (nb : Vector2i → List Vector2i) (path0 : List Vector2i)
    (hmap : map.Complete) (hs : inBounds map.getSize start) (he : inBounds map.getSize endp)
    (hne : start ≠ endp) (hsw : map.get start ≠ some WALL_COST)
    (hew : map.get endp ≠ some WALL_COST) (v : Int) (hv : v ≠ WALL_COST)
    {path : List Vector2i} {clf : NodeMatrix}
    (hrun : runState nb path0 start endp map = some (path, clf)) :
    ∃ clf', runState nb path0 start endp (map.set endp v) = some (path, clf') ∧
      (path ≠ [] → (clf'.deref endp).gScore = (clf.deref endp).gScore) := by
  have hsw' : (map.set endp v).get start ≠ some WALL_COST := by
    rw [get_set_other endp start v hne]; exact hsw
  have hew' : (map.set endp v).get endp ≠ some WALL_COST := by
    rw [get_set_self]
    exact fun e => hv (Option.some.inj e)
  obtain ⟨cl0, cs, a1, a2, a3, a4, a5⟩ := runState_search nb path0 hmap hs he hne hsw hew
  obtain ⟨cl0', cs', b1, b2, b3, _, b5⟩ := runState_search nb path0
    (complete_set hmap endp v) hs he hne hsw' hew'
  have hcs : cs = cs' := by
    rw [get_set_other endp start v hne, a3] at b3
    exact Option.some.inj b3
  subst hcs
  change inBounds map.mSize endp at he
  obtain ⟨ce, hce⟩ := get_of_complete hmap he
  have hce1 : ce ≠ 1 := fun e => hew (by rw [hce, e]; rfl)
  have hd : cl0.deref endp = Node.mk2 ce 0 := by
    unfold NodeMatrix.deref
    rw [a2 endp, if_pos he, hce]; rfl
  have hd' : cl0'.deref endp = Node.mk2 v 0 := by
    unfold NodeMatrix.deref
    rw [b2 endp]
    have : inBounds (map.set endp v).mSize endp := he
    rw [if_pos this, get_set_self]; rfl
  have hrel0 : EndRel endp [start] cl0 cl0' :=
    { size := by rw [a1, b1]; rfl
      other := fun k hk => by
        rw [a2 k, b2 k, get_set_other endp k v hk]
        rfl
      isSome := by
        rw [a2 endp, b2 endp]
        have : inBounds (map.set endp v).mSize endp := he
        rw [if_pos he, if_pos this, get_set_self, hce]
        rfl
      fScore := by rw [hd, hd']; rfl
      position := by rw [hd, hd']; rfl
      parent := by rw [hd, hd']; rfl
      visited := by rw [hd, hd']; rfl
      gScore := by
        right
        rw [hd, hd']
        refine ⟨?_, hce1, hv⟩
        intro hin
        exact hne (List.mem_singleton.mp hin).symm }
  have hrel := hrel0.set_other hne { Node.mk2 cs 0 with
    position := start, gScore := 0, fScore := 0 + heuristic start endp }
  obtain ⟨hinv, _⟩ := @init_inv nb map start endp cl0 cs a1 a2 hmap hs a3 a4
  rw [a5] at hrun
  obtain ⟨clf', g1, g2⟩ := hrel.loop_rel _ _ _ _ _ _ hinv hrun
  refine ⟨clf', ?_, g2⟩
  rw [b5]
  exact g1

/-- A query that returns a non-empty path passed the `VERIF` test. -/
theorem nontrivial_of_path (nb : Vector2i → List Vector2i) (path0 : List Vector2i)
    (hmap : map.Complete) (hs : inBounds map.getSize start) (he : inBounds map.getSize endp)
    {path : List Vector2i} {clf : NodeMatrix}
    (hrun : runState nb path0 start endp map = some (path, clf)) (hp : path ≠ []) :
    start ≠ endp ∧ map.get start ≠ some WALL_COST ∧ map.get endp ≠ some WALL_COST := by
  by_contra hcon
  have htriv : start = endp ∨ map.get start = some WALL_COST ∨
      map.get endp = some WALL_COST := by
    by_contra hx
    simp only [not_or] at hx
    exact hcon ⟨hx.1, hx.2.1, hx.2.2⟩
  obtain ⟨cl, hcl⟩ := runState_reject nb path0 hmap hs he htriv
  rw [hcl] at hrun
  simp only [Option.some.injEq, Prod.mk.injEq] at hrun
  exact hp hrun.1.symm

end endrun

end AStar

/-! ## The course of the search: termination and the wall test -/

namespace AStar

section scan

theorem mem_scanl_ind {σ α : Type} (f : σ → α → σ) (P : σ → Prop) :
    ∀ (l : List α) (s0 : σ), P s0 → (∀ s v, P s → v ∈ l → P (f s v)) →
      ∀ s ∈ l.scanl f s0, P s := by
  intro l
  induction l with
  | nil =>
    intro s0 h0 _ s hs
    rw [List.scanl, List.mem_singleton] at hs
    rw [hs]; exact h0
  | cons a l ih =>
    intro s0 h0 hstep s hs
    rw [List.scanl, List.mem_cons] at hs
    rcases hs with hs | hs
    · rw [hs]; exact h0
    · exact ih (f s0 a) (hstep s0 a h0 (List.mem_cons_self a l))
        (fun s1 v h1 hv => hstep s1 v h1 (List.mem_cons_of_mem a hv)) s hs

theorem foldl_mem_scanl {σ α : Type} (f : σ → α → σ) :
    ∀ (l : List α) (s0 : σ), l.foldl f s0 ∈ l.scanl f s0 := by
  intro l
  induction l with
  | nil => intro s0; exact List.mem_singleton_self s0
  | cons a l ih =>
    intro s0
    rw [List.scanl, List.foldl_cons]
    exact List.mem_cons_of_mem _ (ih (f s0 a))

end scan

section pop

variable {endp : Vector2i} {cl : NodeMatrix} {openList rest : List Vector2i}
variable {current : Vector2i}

theorem popped_some (h : popped endp cl openList = some (current, rest)) :
    openList.isEmpty = false ∧ sortOpen cl openList = current :: rest ∧
      (cl.deref current).position ≠ endp := by
  unfold popped at h
  cases he : openList.isEmpty with
  | true => rw [he] at h; exact Option.noConfusion h
  | false =>
    rw [he] at h
    simp only [Bool.false_eq_true, if_false] at h
    cases hs : sortOpen cl openList with
    | nil => rw [hs] at h; exact Option.noConfusion h
    | cons c r =>
      rw [hs] at h
      simp only at h
      by_cases hp : (cl.deref c).position = endp
      · rw [if_pos hp] at h; exact Option.noConfusion h
      · rw [if_neg hp] at h
        simp only [Option.some.injEq, Prod.mk.injEq] at h
        obtain ⟨rfl, rfl⟩ := h
        exact ⟨rfl, rfl, hp⟩

theorem popped_of_sort (he : openList.isEmpty = false)
    (hs : sortOpen cl openList = current :: rest)
    (hp : (cl.deref current).position ≠ endp) :
    popped endp cl openList = some (current, rest) := by
  unfold popped
  simp only [he, Bool.false_eq_true, if_false, hs, if_neg hp]

theorem popped_end (hs : sortOpen cl openList = current :: rest)
    (hp : (cl.deref current).position = endp) : popped endp cl openList = none := by
  unfold popped
  by_cases he : openList.isEmpty = true
  · simp only [he, if_true]
  · simp only [he, if_false, hs, if_pos hp, ite_self]

theorem popped_nil : popped endp cl [] = none := by
  unfold popped
  simp only [List.isEmpty_nil, if_true]

end pop

section mid

variable {nb : Vector2i → List Vector2i} {map : Matrix} {start endp : Vector2i}
variable {current : Vector2i}

theorem score_cost {exc : List Vector2i} {cl : NodeMatrix} {openList : List Vector2i}
    (h : Inv nb map start endp exc cl openList) {k : Vector2i}
    (hk : inBounds map.mSize k) : (cl.deref k).score = cost map k := by
  obtain ⟨n, h1, h2⟩ := h.store k hk
  rw [deref_of_mMap h1, cost, h2]; rfl

/-- The candidate cost through a touched node is neither negative nor `1`. -/
theorem candidate_ok {exc : List Vector2i} {cl : NodeMatrix} {openList : List Vector2i}
    (h : Inv nb map start endp exc cl openList) (hnn : NonNeg map) (hg : GsOk cl openList)
    {k : Vector2i} (hk : Touched cl openList k) :
    0 ≤ (cl.deref k).gScore + (cl.deref k).score ∧
      (cl.deref k).gScore + (cl.deref k).score ≠ 1 := by
  have hkb := h.touched_inb k hk
  have hkw := h.touched_nonwall k hk
  obtain ⟨g1, g2⟩ := hg k hk
  have c1 : 0 ≤ cost map k := hnn k ((mem_cells _ _).mpr hkb) hkw
  have c2 : cost map k ≠ 1 := by
    obtain ⟨n, _, hn2⟩ := h.store k hkb
    intro e
    apply hkw
    rw [hn2]
    have : n.score = 1 := by rw [← e, cost, hn2]; rfl
    rw [this]; rfl
  rw [score_cost h hkb]
  constructor <;> omega

/-- One relaxation keeps the path costs of the touched nodes away from `1`. -/
theorem gsOk_relax {st : NodeMatrix × List Vector2i} (v : Vector2i)
    (h : Inv nb map start endp [current] st.1 st.2)
    (hcur : (st.1.deref current).visited = true) (hnn : NonNeg map)
    (hg : GsOk st.1 st.2) :
    GsOk (relax endp current st v).1 (relax endp current st v).2 := by
  have hgc := candidate_ok h hnn hg (Or.inl hcur)
  rcases relax_cases endp current st v with ⟨he, _⟩ | ⟨_, _, he⟩
  · rw [he]; exact hg
  · rw [he]
    intro k hk
    by_cases hkv : k = v
    · subst hkv
      rw [relaxed_self]
      exact hgc
    · rw [relaxed_other endp current st.1 hkv]
      rcases (relaxed_touched endp current st.1 v k st.2).mp hk with ht | ht
      · exact hg k ht
      · exact absurd ht hkv

theorem gsOk_perm {cl : NodeMatrix} {l1 l2 : List Vector2i} (hg : GsOk cl l1)
    (hperm : l2.Perm l1) : GsOk cl l2 :=
  fun k hk => hg k ((Touched_perm hperm k).mp hk)

theorem gsOk_sameButPos {cl cl1 : NodeMatrix} {l : List Vector2i} (hg : GsOk cl l)
    (hs : SameButPos cl cl1) : GsOk cl1 l := fun k hk => by
  rw [hs.gScore]
  exact hg k ((hs.touched l k).mp hk)

theorem gsOk_visit {cl : NodeMatrix} {rest : List Vector2i} (hg : GsOk cl (current :: rest)) :
    GsOk (cl.set current { cl.deref current with visited := true }) rest := fun k hk => by
  rw [(visit_fields cl current k).2.1]
  exact hg k ((visit_touched cl current rest k).mp hk)

end mid

end AStar

namespace AStar

section iteration

variable {nb : Vector2i → List Vector2i} {map : Matrix} {start endp : Vector2i}
variable {cl : NodeMatrix} {openList rest : List Vector2i} {current : Vector2i}

/-- The first half of an iteration of the main loop: `getNeighbors` succeeds
and returns passable in-bounds neighbours, and closing `current` gives a state
in which its neighbours are still to relax. -/
theorem iter_setup (h : Inv nb map start endp [] cl openList)
    (hsort : sortOpen cl openList = current :: rest)
    (hpos : (cl.deref current).position ≠ endp) :
    ∃ cl1, getNeighbors nb [] current cl =
        some ((nb current).filter (fun p => decide (inBounds map.mSize p) &&
          decide ((cl.deref p).gScore ≠ 1)), cl1) ∧
      SameButPos cl cl1 ∧ Inv nb map start endp [] cl1 (current :: rest) ∧
      Inv nb map start endp [current]
        (cl1.set current { cl1.deref current with visited := true }) rest ∧
      ((cl1.set current { cl1.deref current with visited := true }).deref current).visited
        = true ∧
      ((cl1.set current { cl1.deref current with visited := true }).deref start).visited
        = true ∧
      ∀ v ∈ (nb current).filter (fun p => decide (inBounds map.mSize p) &&
          decide ((cl.deref p).gScore ≠ 1)),
        v ∈ nb current ∧ inBounds map.mSize v ∧ map.get v ≠ some WALL_COST ∧
          ((cl1.set current { cl1.deref current with visited := true }).deref v).position
            = v := by
  have hperm : (current :: rest).Perm openList := hsort ▸ sortOpen_perm cl openList
  have hcur : current ∈ openList := hperm.mem_iff.mp (List.mem_cons_self _ _)
  have hcpos : (cl.deref current).position = current := h.touched_pos current (Or.inr hcur)
  have hne : current ≠ endp := fun e => hpos (by rw [hcpos]; exact e)
  obtain ⟨cl1, hg, hsame, hsize, hstore, hposn⟩ := getNeighbors_spec h hcur
  have h1 : Inv nb map start endp [] cl1 (current :: rest) :=
    (h.perm hperm).sameButPos hsame hsize hstore
  have h2 := h1.visit hne
  have hvc : ((cl1.set current { cl1.deref current with visited := true }).deref current).visited
      = true := (visit_visited cl1 current current).mpr (Or.inl rfl)
  have hvs : ((cl1.set current { cl1.deref current with visited := true }).deref start).visited
      = true := by
    rw [visit_visited]
    rcases h1.start_state with hs1 | hs1
    · exact Or.inr hs1
    · exact Or.inl (List.cons.inj hs1).1.symm
  refine ⟨cl1, hg, hsame, h1, h2, hvc, hvs, ?_⟩
  intro v hv
  rw [List.mem_filter] at hv
  obtain ⟨hv1, hv2⟩ := hv
  simp only [Bool.and_eq_true, decide_eq_true_eq] at hv2
  refine ⟨hv1, hv2.1, ?_, ?_⟩
  · by_cases ht : Touched cl openList v
    · exact h.touched_nonwall v ht
    · obtain ⟨n, hn, hc⟩ := h.store v hv2.1
      rw [hc]
      have hg := (h.untouched v ht).1
      rw [deref_of_mMap hn] at hg hv2
      intro e
      have e1 : n.score = 1 := Option.some.inj e
      exact hv2.2 (by rw [hg, e1])
  · rw [(visit_fields cl1 current v).2.2.2.1]
    exact hposn v hv1 hv2.1

/-- Every state of one iteration of the main loop is sane. -/
theorem iter_sane (h : Inv nb map start endp [] cl openList)
    (hg : NonNeg map → GsOk cl openList) :
    ∀ st ∈ iterStates nb endp cl openList, Sane nb map start endp st := by
  have hp0 := sortOpen_perm cl openList
  intro st hst
  unfold iterStates at hst
  rw [List.mem_cons, List.mem_cons] at hst
  rcases hst with hst | hst | hst
  · rw [hst]; exact ⟨[], h, hg⟩
  · rw [hst]; exact ⟨[], h.perm hp0, fun hnn => gsOk_perm (hg hnn) hp0⟩
  · cases hpop : popped endp cl openList with
    | none => rw [hpop] at hst; exact absurd hst (List.not_mem_nil st)
    | some pr =>
      obtain ⟨current, rest⟩ := pr
      rw [hpop] at hst
      obtain ⟨_, hsort, hpos⟩ := popped_some hpop
      have hperm : (current :: rest).Perm openList := hsort ▸ sortOpen_perm cl openList
      obtain ⟨cl1, e1, hsame, h1, h2, hvc, hvs, hN⟩ := iter_setup h hsort hpos
      simp only [e1] at hst
      rw [List.mem_cons] at hst
      have hg1 : NonNeg map → GsOk cl1 (current :: rest) := fun hnn =>
        gsOk_sameButPos (gsOk_perm (hg hnn) hperm) hsame
      rcases hst with hst | hst
      · rw [hst]; exact ⟨[], h1, hg1⟩
      · have key := mem_scanl_ind (relax endp current)
          (fun s => Inv nb map start endp [current] s.1 s.2 ∧
            (s.1.deref current).visited = true ∧ (s.1.deref start).visited = true ∧
            (∀ v ∈ (nb current).filter (fun p => decide (inBounds map.mSize p) &&
                decide ((cl.deref p).gScore ≠ 1)), (s.1.deref v).position = v) ∧
            (NonNeg map → GsOk s.1 s.2))
          ((nb current).filter (fun p => decide (inBounds map.mSize p) &&
            decide ((cl.deref p).gScore ≠ 1)))
          (cl1.set current { cl1.deref current with visited := true }, rest)
          ⟨h2, hvc, hvs, fun v hv => (hN v hv).2.2.2, fun hnn => gsOk_visit (hg1 hnn)⟩
          (fun s v hs hv => by
            obtain ⟨s1, s2, s3, s4, s5⟩ := hs
            obtain ⟨n1, n2, n3, _⟩ := hN v hv
            obtain ⟨a1, a2, a3, _, _, _⟩ := relax_step s1 s2 s3 n1 n2 n3 (s4 v hv)
            exact ⟨a1, by rw [a2]; exact s2, by rw [a2]; exact s3,
              fun w hw => by rw [a3]; exact s4 w hw,
              fun hnn => gsOk_relax v s1 s2 hnn (s5 hnn)⟩)
          st hst
        exact ⟨[current], key.1, key.2.2.2.2⟩

/-- The state at the head of the next iteration satisfies the loop invariant
again, with one more closed cell. -/
theorem next_inv (h : Inv nb map start endp [] cl openList)
    (hg : NonNeg map → GsOk cl openList) {st : NodeMatrix × List Vector2i}
    (hn : next nb endp cl openList = some st) :
    Inv nb map start endp [] st.1 st.2 ∧ (NonNeg map → GsOk st.1 st.2) ∧
      unvisitedCount st.1 < unvisitedCount cl := by
  unfold next at hn
  cases hpop : popped endp cl openList with
  | none => rw [hpop] at hn; exact Option.noConfusion hn
  | some pr =>
    obtain ⟨current, rest⟩ := pr
    rw [hpop] at hn
    simp only at hn
    obtain ⟨_, hsort, hpos⟩ := popped_some hpop
    obtain ⟨st1, hst1, hinv, hcount⟩ := h.step hsort hpos
    rw [hn] at hst1
    have hst2 : st1 = st := (Option.some.inj hst1).symm
    subst hst2
    refine ⟨hinv, fun hnn => ?_, hcount⟩
    obtain ⟨cl1, e1, _, _, _, _, _, _⟩ := iter_setup h hsort hpos
    have hmem : st1 ∈ iterStates nb endp cl openList := by
      unfold iterStates
      simp only [hpop, e1]
      apply List.mem_cons_of_mem
      apply List.mem_cons_of_mem
      apply List.mem_cons_of_mem
      unfold expand at hn
      rw [e1] at hn
      simp only [Option.some.injEq] at hn
      rw [← hn]
      exact foldl_mem_scanl _ _ _
    obtain ⟨exc, _, hgs⟩ := iter_sane h hg st1 hmem
    exact hgs hnn

/-- Every state of the main loop is sane. -/
theorem states_sane :
    ∀ (fuel : Nat) (cl : NodeMatrix) (openList : List Vector2i),
      Inv nb map start endp [] cl openList → (NonNeg map → GsOk cl openList) →
      ∀ st ∈ states nb endp fuel cl openList, Sane nb map start endp st := by
  intro fuel
  induction fuel with
  | zero => intro cl openList _ _ st hst; exact absurd hst (List.not_mem_nil st)
  | succ fuel ih =>
    intro cl openList h hg st hst
    unfold states at hst
    rw [List.mem_append] at hst
    rcases hst with hst | hst
    · exact iter_sane h hg st hst
    · cases hn : next nb endp cl openList with
      | none => rw [hn] at hst; exact absurd hst (List.not_mem_nil st)
      | some st1 =>
        rw [hn] at hst
        obtain ⟨h1, hg1, _⟩ := next_inv h hg hn
        exact ih st1.1 st1.2 h1 hg1 st hst

end iteration

end AStar

namespace AStar

section popping

variable {nb : Vector2i → List Vector2i} {map : Matrix} {start endp : Vector2i}

/-- The popped nodes are pairwise distinct, not yet closed when the loop is
entered, and no more than the cells that are not closed yet. -/
theorem pops_spec :
    ∀ (fuel : Nat) (cl : NodeMatrix) (openList : List Vector2i),
      Inv nb map start endp [] cl openList →
      (pops nb endp fuel cl openList).Nodup ∧
      (∀ k ∈ pops nb endp fuel cl openList, (cl.deref k).visited = false) ∧
      (pops nb endp fuel cl openList).length ≤ unvisitedCount cl := by
  intro fuel
  induction fuel with
  | zero =>
    intro cl openList _
    exact ⟨List.nodup_nil, fun k hk => absurd hk (List.not_mem_nil k), Nat.zero_le _⟩
  | succ fuel ih =>
    intro cl openList h
    unfold pops
    cases hpop : popped endp cl openList with
    | none =>
      exact ⟨List.nodup_nil, fun k hk => absurd hk (List.not_mem_nil k), Nat.zero_le _⟩
    | some pr =>
      obtain ⟨current, rest⟩ := pr
      obtain ⟨_, hsort, hpos⟩ := popped_some hpop
      have hperm : (current :: rest).Perm openList := hsort ▸ sortOpen_perm cl openList
      have hcur : current ∈ openList := hperm.mem_iff.mp (List.mem_cons_self _ _)
      obtain ⟨st, hst, hinv, hcount⟩ := h.step hsort hpos
      obtain ⟨f1, _⟩ := expand_facts h hsort hst
      obtain ⟨i1, i2, i3⟩ := ih st.1 st.2 hinv
      simp only [hst]
      have hunv : ∀ k ∈ pops nb endp fuel st.1 st.2, (cl.deref k).visited = false ∧
          k ≠ current := by
        intro k hk
        have hk1 := i2 k hk
        constructor
        · cases hx : (cl.deref k).visited with
          | false => rfl
          | true =>
            rw [(f1 k).mpr (Or.inr hx)] at hk1
            exact Bool.noConfusion hk1
        · intro e
          rw [(f1 k).mpr (Or.inl e)] at hk1
          exact Bool.noConfusion hk1
      refine ⟨List.nodup_cons.mpr ⟨fun hin => (hunv current hin).2 rfl, i1⟩, ?_, ?_⟩
      · intro k hk
        rcases List.mem_cons.mp hk with hk | hk
        · rw [hk]; exact h.open_unvisited current hcur
        · exact (hunv k hk).1
      · rw [List.length_cons]
        omega

/-- The main loop ends after as many popping iterations as `pops` lists: with
that much fuel, and one unit for the iteration that ends the loop, it returns
what it returns with any sufficient fuel. -/
theorem loop_pops (path : List Vector2i) :
    ∀ (fuel : Nat) (cl : NodeMatrix) (openList : List Vector2i),
      Inv nb map start endp [] cl openList → unvisitedCount cl < fuel →
      loop nb endp path ((pops nb endp fuel cl openList).length + 1) cl openList =
        loop nb endp path fuel cl openList := by
  intro fuel
  induction fuel with
  | zero => intro cl openList _ hf; exact absurd hf (Nat.not_lt_zero _)
  | succ fuel ih =>
    intro cl openList h hf
    cases hpop : popped endp cl openList with
    | none =>
      have hp : pops nb endp (fuel + 1) cl openList = [] := by
        unfold pops
        simp only [hpop]
      rw [hp]
      have hloop : ∀ f, loop nb endp path (f + 1) cl openList =
          loop nb endp path (0 + 1) cl openList := by
        intro f
        unfold popped at hpop
        unfold loop
        by_cases he : openList.isEmpty = true
        · simp only [he, if_true]
        · simp only [he, if_false] at hpop ⊢
          cases hs : sortOpen cl openList with
          | nil => rfl
          | cons c r =>
            rw [hs] at hpop
            simp only at hpop ⊢
            by_cases hpos : (cl.deref c).position = endp
            · simp only [hpos, if_true]
            · rw [if_neg hpos] at hpop
              exact Option.noConfusion hpop
      rw [List.length_nil, hloop fuel]
    | some pr =>
      obtain ⟨current, rest⟩ := pr
      obtain ⟨hemp, hsort, hpos⟩ := popped_some hpop
      obtain ⟨st, hst, hinv, hcount⟩ := h.step hsort hpos
      have hp : pops nb endp (fuel + 1) cl openList =
          current :: pops nb endp fuel st.1 st.2 := by
        conv_lhs => unfold pops
        simp only [hpop, hst]
      have hstep : ∀ f, loop nb endp path (f + 1) cl openList =
          loop nb endp path f st.1 st.2 := by
        intro f
        conv_lhs => unfold loop
        simp only [hemp, Bool.false_eq_true, if_false, hsort, hpos, hst]
      rw [hp, List.length_cons, hstep, hstep]
      exact ih st.1 st.2 hinv (by omega)

theorem cells_length (size : Vector2i) :
    (cells size).length = size.x.toNat * size.y.toNat := by
  unfold cells
  generalize size.x.toNat = a
  induction a with
  | zero => simp
  | succ n ih =>
    rw [List.range_succ, List.flatMap_append, List.length_append, ih]
    simp [Nat.succ_mul]

/-- The `VERIF` test: a rejected query does not enter the main loop. -/
theorem entry_reject (hmap : map.Complete)
    (hs : inBounds map.getSize start) (he : inBounds map.getSize endp)
    (h : start = endp ∨ map.get start = some WALL_COST ∨ map.get endp = some WALL_COST) :
    entry start endp map = none := by
  obtain ⟨cl0, hr, _, hcl⟩ := reset_spec map hmap
  change inBounds map.mSize start at hs
  change inBounds map.mSize endp at he
  obtain ⟨cs, hcs⟩ := get_of_complete hmap hs
  obtain ⟨ce, hce⟩ := get_of_complete hmap he
  have hgs : cl0.get start = some (Node.mk2 cs 0) := by
    unfold NodeMatrix.get
    rw [hcl start, if_pos hs, hcs]; rfl
  have hge : cl0.get endp = some (Node.mk2 ce 0) := by
    unfold NodeMatrix.get
    rw [hcl endp, if_pos he, hce]; rfl
  unfold entry
  by_cases hse : start = endp
  · simp only [hr, if_pos hse]
  · by_cases hcs1 : cs = 1
    · simp only [hr, if_neg hse, isWall, hgs, Option.map_some', Node.mk2, hcs1, decide_True,
        if_true]
    · have hce1 : ce = 1 := by
        rcases h with h | h | h
        · exact absurd h hse
        · rw [hcs] at h; exact absurd (Option.some.inj h) hcs1
        · rw [hce] at h; exact Option.some.inj h
      simp only [hr, if_neg hse, isWall, hgs, hge, Option.map_some', Node.mk2, hcs1, hce1,
        decide_False, decide_True, if_true]
      rfl

/-- A query that passes the `VERIF` test enters the main loop in a state that
satisfies the loop invariant, and the run is the main loop from that state. -/
theorem entry_search (nb : Vector2i → List Vector2i) (path0 : List Vector2i)
    (hmap : map.Complete) (hs : inBounds map.getSize start) (he : inBounds map.getSize endp)
    (hne : start ≠ endp) (hsw : map.get start ≠ some WALL_COST)
    (hew : map.get endp ≠ some WALL_COST) :
    ∃ st : NodeMatrix × List Vector2i, entry start endp map = some st ∧
      Inv nb map start endp [] st.1 st.2 ∧ GsOk st.1 st.2 ∧
      unvisitedCount st.1 < (cells map.getSize).length + 1 ∧
      runState nb path0 start endp map =
        loop nb endp [] ((cells map.getSize).length + 1) st.1 st.2 := by
  obtain ⟨cl0, hr, hsize, hcl⟩ := reset_spec map hmap
  change inBounds map.mSize start at hs
  change inBounds map.mSize endp at he
  obtain ⟨cs, hcs⟩ := get_of_complete hmap hs
  obtain ⟨ce, hce⟩ := get_of_complete hmap he
  have hcs1 : cs ≠ 1 := fun e => hsw (by rw [hcs, e]; rfl)
  have hce1 : ce ≠ 1 := fun e => hew (by rw [hce, e]; rfl)
  have hgs : cl0.get start = some (Node.mk2 cs 0) := by
    unfold NodeMatrix.get
    rw [hcl start, if_pos hs, hcs]; rfl
  have hge : cl0.get endp = some (Node.mk2 ce 0) := by
    unfold NodeMatrix.get
    rw [hcl endp, if_pos he, hce]; rfl
  obtain ⟨hinv, hvis⟩ := @init_inv nb map start endp cl0 cs hsize hcl hmap hs hcs hcs1
  refine ⟨(cl0.set start { Node.mk2 cs 0 with
      position := start, gScore := 0, fScore := 0 + heuristic start endp }, [start]),
    ?_, hinv, ?_, ?_, ?_⟩
  · unfold entry
    simp only [hr, if_neg hne, isWall, hgs, hge, Option.map_some', Node.mk2, hcs1, hce1,
      decide_False]
    rfl
  · intro k hk
    rcases hk with hk | hk
    · rw [hvis k] at hk; exact Bool.noConfusion hk
    · rw [List.mem_singleton.mp hk, hinv.start_root.2]
      exact ⟨le_refl _, by decide⟩
  · unfold unvisitedCount
    rw [NodeMatrix.mSize_set, hsize]
    exact Nat.lt_succ_of_le (List.countP_le_length _)
  · unfold runState
    simp only [hr, if_neg hne, isWall, hgs, hge, Option.map_some', Node.mk2, hcs1, hce1,
      decide_False, listClear]
    rfl

end popping

end AStar

namespace AStar

section runcourse

variable {nb : Vector2i → List Vector2i} {map : Matrix} {start endp : Vector2i}

/-- Every state that a run goes through is sane. -/
theorem runStates_sane (nb : Vector2i → List Vector2i) (hmap : map.Complete)
    (hs : inBounds map.getSize start) (he : inBounds map.getSize endp) :
    ∀ st ∈ runStates nb start endp map, Sane nb map start endp st := by
  intro st hst
  by_cases htriv : start = endp ∨ map.get start = some WALL_COST ∨
      map.get endp = some WALL_COST
  · unfold runStates at hst
    rw [entry_reject hmap hs he htriv] at hst
    exact absurd hst (List.not_mem_nil st)
  · simp only [not_or] at htriv
    obtain ⟨st0, h1, h2, h3, _, _⟩ :=
      entry_search nb [] hmap hs he htriv.1 htriv.2.1 htriv.2.2
    unfold runStates at hst
    rw [h1] at hst
    exact states_sane _ st0.1 st0.2 h2 (fun _ => h3) st hst

/-- A query that passes the `VERIF` test goes through at least one state. -/
theorem runStates_ne_nil (nb : Vector2i → List Vector2i) (hmap : map.Complete)
    (hs : inBounds map.getSize start) (he : inBounds map.getSize endp) (hne : start ≠ endp)
    (hsw : map.get start ≠ some WALL_COST) (hew : map.get endp ≠ some WALL_COST) :
    runStates nb start endp map ≠ [] := by
  obtain ⟨st0, h1, _, _, _, _⟩ := entry_search nb [] hmap hs he hne hsw hew
  unfold runStates
  rw [h1]
  simp only [states, iterStates]
  exact List.cons_ne_nil _ _

/-- In a sane state of a run on a map with non-negative costs, the wall test on
the mutable `gScore` agrees with the map. -/
theorem wall_iff {exc : List Vector2i} {cl : NodeMatrix} {openList : List Vector2i}
    (h : Inv nb map start endp exc cl openList) (hg : GsOk cl openList) {k : Vector2i}
    (hk : inBounds map.mSize k) :
    (cl.deref k).gScore = 1 ↔ map.get k = some WALL_COST := by
  by_cases ht : Touched cl openList k
  · constructor
    · intro e; exact absurd e (hg k ht).2
    · intro e; exact absurd e (h.touched_nonwall k ht)
  · obtain ⟨n, hn1, hn2⟩ := h.store k hk
    have hu := (h.untouched k ht).1
    rw [hu, deref_of_mMap hn1, hn2]
    constructor
    · intro e; rw [e]; rfl
    · intro e; exact Option.some.inj e

/-- In a sane state of a run on a map with non-negative costs, `getNeighbors`
of an open node returns the in-bounds candidates whose map cost is not
`WALL_COST`. -/
theorem getNeighbors_exact {exc : List Vector2i} {cl : NodeMatrix} {openList : List Vector2i}
    (h : Inv nb map start endp exc cl openList) (hg : GsOk cl openList) {node : Vector2i}
    (hnode : node ∈ openList) :
    ∃ cl1, getNeighbors nb [] node cl =
      some ((nb node).filter (fun p => decide (inBounds map.getSize p) &&
        decide (map.get p ≠ some WALL_COST)), cl1) := by
  have hsome : ∀ k, inBounds cl.mSize k → (cl.mMap k).isSome = true := by
    intro k hk
    rw [h.size] at hk
    obtain ⟨n, hn, _⟩ := h.store k hk
    rw [hn]; rfl
  obtain ⟨cl1, h1, _, _⟩ := getNeighbors_fold (nb node) [] cl hsome
  refine ⟨cl1, ?_⟩
  unfold getNeighbors
  rw [h.touched_pos node (Or.inr hnode), h1, List.nil_append]
  congr 2
  apply List.filter_congr
  intro p _
  rw [h.size]
  by_cases hp : inBounds map.mSize p
  · have hw := wall_iff h hg hp
    have hp' : inBounds map.getSize p := hp
    by_cases hc : map.get p = some WALL_COST
    · simp [hp, hp', hc, hw.mpr hc]
    · have : (cl.deref p).gScore ≠ 1 := fun e => hc (hw.mp e)
      simp [hp, hp', hc, this]
  · have hp' : ¬ inBounds map.getSize p := hp
    simp [hp, hp']

end runcourse

end AStar

/-! ## Consistency of the truncated straight-line heuristic -/

namespace AStar

theorem isqrtAux_sq (n : Nat) : ∀ k, isqrtAux n k * isqrtAux n k ≤ n := by
  intro k
  induction k with
  | zero => exact Nat.zero_le _
  | succ k ih =>
    unfold isqrtAux
    split
    · assumption
    · exact ih

theorem isqrtAux_max (n : Nat) : ∀ k j, j ≤ k → j * j ≤ n → j ≤ isqrtAux n k := by
  intro k
  induction k with
  | zero => intro j hj _; exact hj
  | succ k ih =>
    intro j hj hjn
    unfold isqrtAux
    split
    · exact hj
    · rename_i hk
      have hne : j ≠ k + 1 := fun e => hk (e ▸ hjn)
      exact ih j (by omega) hjn

theorem isqrt_sq (n : Nat) : isqrt n * isqrt n ≤ n := isqrtAux_sq n n

theorem isqrt_lt (n : Nat) : n < (isqrt n + 1) * (isqrt n + 1) := by
  by_contra hcon
  have h1 : (isqrt n + 1) * (isqrt n + 1) ≤ n := Nat.le_of_not_lt hcon
  have h2 : isqrt n + 1 ≤ n := le_trans (Nat.le_mul_self _) h1
  have h3 := isqrtAux_max n n (isqrt n + 1) h2 h1
  unfold isqrt at h3
  omega

theorem isqrt_le_of_lt {n k : Nat} (h : n < (k + 1) * (k + 1)) : isqrt n ≤ k := by
  by_contra hcon
  have h1 : k + 1 ≤ isqrt n := by omega
  have h2 : (k + 1) * (k + 1) ≤ isqrt n * isqrt n := Nat.mul_le_mul h1 h1
  have h3 := isqrt_sq n
  omega

theorem sq_step (a b t dx dy : Int) (ht : 0 ≤ t) (h : a * a + b * b < (t + 1) * (t + 1))
    (hdx : |dx| ≤ 1) (hdy : |dy| ≤ 1) :
    (a + dx) * (a + dx) + (b + dy) * (b + dy) < (t + 3) * (t + 3) := by
  have ha1 : a ≤ t := by nlinarith [mul_self_nonneg b]
  have ha2 : -t ≤ a := by nlinarith [mul_self_nonneg b]
  have hb1 : b ≤ t := by nlinarith [mul_self_nonneg a]
  have hb2 : -t ≤ b := by nlinarith [mul_self_nonneg a]
  have hx := abs_le.mp hdx
  have hy := abs_le.mp hdy
  have hx3 : dx = -1 ∨ dx = 0 ∨ dx = 1 := by omega
  have hy3 : dy = -1 ∨ dy = 0 ∨ dy = 1 := by omega
  rcases hx3 with e | e | e <;> rcases hy3 with e2 | e2 | e2 <;> subst e <;> subst e2 <;>
    nlinarith

/-- One move that changes each coordinate by at most 1 changes the heuristic by
at most 2. -/
theorem heuristic_step (u v endp : Vector2i)
    (hx : |v.x - u.x| ≤ 1) (hy : |v.y - u.y| ≤ 1) :
    heuristic u endp ≤ heuristic v endp + 2 := by
  have hm0 : 0 ≤ (v.x - endp.x) * (v.x - endp.x) + (v.y - endp.y) * (v.y - endp.y) :=
    add_nonneg (mul_self_nonneg _) (mul_self_nonneg _)
  have hu0 : 0 ≤ (u.x - endp.x) * (u.x - endp.x) + (u.y - endp.y) * (u.y - endp.y) :=
    add_nonneg (mul_self_nonneg _) (mul_self_nonneg _)
  have hs2 := isqrt_lt ((v.x - endp.x) * (v.x - endp.x) + (v.y - endp.y) * (v.y - endp.y)).toNat
  have hs2' := (Int.toNat_lt hm0).mp hs2
  push_cast at hs2'
  have hdx : |u.x - v.x| ≤ 1 := by rw [abs_sub_comm]; exact hx
  have hdy : |u.y - v.y| ≤ 1 := by rw [abs_sub_comm]; exact hy
  have hstep := sq_step (v.x - endp.x) (v.y - endp.y) _ (u.x - v.x) (u.y - v.y)
    (Int.ofNat_nonneg _) hs2' hdx hdy
  have e1 : v.x - endp.x + (u.x - v.x) = u.x - endp.x := by ring
  have e2 : v.y - endp.y + (u.y - v.y) = u.y - endp.y := by ring
  rw [e1, e2] at hstep
  have hle : isqrt ((u.x - endp.x) * (u.x - endp.x) +
      (u.y - endp.y) * (u.y - endp.y)).toNat ≤
      isqrt ((v.x - endp.x) * (v.x - endp.x) + (v.y - endp.y) * (v.y - endp.y)).toNat + 2 := by
    apply isqrt_le_of_lt
    rw [Int.toNat_lt hu0]
    push_cast
    have e3 : ((isqrt ((v.x - endp.x) * (v.x - endp.x) +
        (v.y - endp.y) * (v.y - endp.y)).toNat : Nat) : Int) + 2 + 1 =
        (isqrt ((v.x - endp.x) * (v.x - endp.x) +
        (v.y - endp.y) * (v.y - endp.y)).toNat : Nat) + 3 := by ring
    rw [e3]
    exact hstep
  have := Int.ofNat_le.mpr hle
  push_cast at this
  unfold heuristic
  exact this

/-- A provider that moves each coordinate by at most 1 makes the heuristic
consistent on every map whose non-wall costs are at least 2. -/
theorem consistent_of_local {nb : Vector2i → List Vector2i} {map : Matrix} (endp : Vector2i)
    (hcost : ∀ p ∈ cells map.getSize, map.get p ≠ some WALL_COST → 2 ≤ cost map p)
    (hloc : ∀ u v, v ∈ nb u → |v.x - u.x| ≤ 1 ∧ |v.y - u.y| ≤ 1) :
    ∀ u ∈ cells map.getSize, map.get u ≠ some WALL_COST → ∀ v ∈ nb u,
      heuristic u endp ≤ cost map u + heuristic v endp := by
  intro u hu hw v hv
  have h1 := heuristic_step u v endp (hloc u v hv).1 (hloc u v hv).2
  have h2 := hcost u hu hw
  omega

end AStar

namespace MapUtility

/-- The hexagonal provider moves each coordinate by at most 1. -/
theorem getNeighboors_local :
    ∀ u v, v ∈ getNeighboors u → |v.x - u.x| ≤ 1 ∧ |v.y - u.y| ≤ 1 := by
  intro u v hv
  unfold getNeighboors at hv
  split at hv <;>
    (simp only [List.mem_cons, List.mem_singleton, List.not_mem_nil, or_false] at hv
     rcases hv with e | e | e | e | e | e <;> subst e <;> simp only [abs_le] <;>
       constructor <;> constructor <;> omega)

end MapUtility

/-! ## Machine arithmetic: a run without overflow is the exact run -/

theorem wrapI32_of_fits {n : Int} (h : fitsI32 n = true) : wrapI32 n = n := by
  unfold fitsI32 at h
  simp only [Bool.and_eq_true, decide_eq_true_eq] at h
  unfold wrapI32
  omega

namespace AStar

section machine

variable {nb : Vector2i → List Vector2i} {endp current : Vector2i}

theorem heuristic_machine {p1 p2 : Vector2i} (h : heuristicFits p1 p2 = true) :
    Machine.heuristic p1 p2 = heuristic p1 p2 := by
  unfold heuristicFits at h
  simp only [Bool.and_eq_true] at h
  obtain ⟨⟨⟨⟨h1, h2⟩, h3⟩, h4⟩, h5⟩ := h
  have h0 : ¬ (p1.x - p2.x) * (p1.x - p2.x) + (p1.y - p2.y) * (p1.y - p2.y) < 0 :=
    not_lt.mpr (add_nonneg (mul_self_nonneg _) (mul_self_nonneg _))
  unfold Machine.heuristic heuristic
  simp only
  rw [wrapI32_of_fits h1, wrapI32_of_fits h2, wrapI32_of_fits h3, wrapI32_of_fits h4,
    wrapI32_of_fits h5, if_neg h0]

/-- One relaxation whose results fit in `I32` is the exact relaxation. -/
theorem relax_machine {st : NodeMatrix × List Vector2i} {v : Vector2i}
    (h : relaxFits endp current st v = true) :
    Machine.relax endp current st v = relax endp current st v := by
  unfold relaxFits at h
  unfold Machine.relax relax
  by_cases hv : (st.1.deref v).visited = false
  · rw [if_pos hv] at h
    rw [if_pos hv, if_pos hv]
    simp only [Bool.and_eq_true] at h
    obtain ⟨h1, h2⟩ := h
    simp only
    rw [wrapI32_of_fits h1]
    by_cases hc : isInOpenList v st.2 = false ∨
        (st.1.deref current).gScore + (st.1.deref current).score < (st.1.deref v).gScore
    · rw [if_pos hc] at h2
      simp only [Bool.and_eq_true] at h2
      rw [if_pos hc, if_pos hc, heuristic_machine h2.1, wrapI32_of_fits h2.2]
    · rw [if_neg hc, if_neg hc]
  · rw [if_neg hv, if_neg hv]

/-- The inner loop whose results fit in `I32` is the exact inner loop. -/
theorem relax_fold_machine :
    ∀ (neighbors : List Vector2i) (st : NodeMatrix × List Vector2i),
      relaxAllFit endp current neighbors st = true →
      neighbors.foldl (Machine.relax endp current) st =
        neighbors.foldl (relax endp current) st := by
  intro neighbors
  induction neighbors with
  | nil => intro st _; rfl
  | cons v l ih =>
    intro st h
    unfold relaxAllFit at h
    simp only [Bool.and_eq_true] at h
    rw [List.foldl_cons, List.foldl_cons, relax_machine h.1]
    exact ih _ h.2

theorem expand_machine {cl : NodeMatrix} {rest : List Vector2i}
    (h : expandFits nb endp cl current rest = true) :
    Machine.expand nb endp cl current rest = expand nb endp cl current rest := by
  unfold expandFits at h
  unfold Machine.expand expand
  cases hg : getNeighbors nb [] current cl with
  | none => rfl
  | some r =>
    obtain ⟨neighbors, cl1⟩ := r
    rw [hg] at h
    simp only at h ⊢
    rw [relax_fold_machine _ _ h]

/-- The main loop whose results fit in `I32` is the exact main loop. -/
theorem loop_machine (path : List Vector2i) :
    ∀ (fuel : Nat) (cl : NodeMatrix) (openList : List Vector2i),
      loopFits nb endp fuel cl openList = true →
      Machine.loop nb endp path fuel cl openList = loop nb endp path fuel cl openList := by
  intro fuel
  induction fuel with
  | zero => intro cl openList _; rfl
  | succ fuel ih =>
    intro cl openList h
    unfold Machine.loop loop
    by_cases hemp : openList.isEmpty = true
    · rw [if_pos hemp, if_pos hemp]
    · rw [if_neg hemp, if_neg hemp]
      cases hsort : sortOpen cl openList with
      | nil => rfl
      | cons cur rest =>
        simp only
        by_cases hpos : (cl.deref cur).position = endp
        · rw [if_pos hpos, if_pos hpos]
        · rw [if_neg hpos, if_neg hpos]
          have hemp' : openList.isEmpty = false := by
            cases hx : openList.isEmpty with
            | true => exact absurd hx hemp
            | false => rfl
          unfold loopFits at h
          rw [popped_of_sort hemp' hsort hpos] at h
          simp only [Bool.and_eq_true] at h
          obtain ⟨h1, h2⟩ := h
          rw [expand_machine h1]
          cases hexp : expand nb endp cl cur rest with
          | none => rfl
          | some st =>
            rw [hexp] at h2
            simp only at h2 ⊢
            exact ih st.1 st.2 h2

/-- A run without overflow: the run in `I32` arithmetic is the run in exact
arithmetic. -/
theorem runState_machine (nb : Vector2i → List Vector2i) (path0 : List Vector2i)
    (start endp : Vector2i) (map : Matrix) (h : noOverflow nb start endp map = true) :
    Machine.runState nb path0 start endp map = runState nb path0 start endp map := by
  unfold noOverflow entry at h
  unfold Machine.runState runState
  simp only
  cases hr : reset map (NodeMatrix.new map.getSize) with
  | none => rfl
  | some cl0 =>
    rw [hr] at h
    simp only at h ⊢
    by_cases hse : start = endp
    · rw [if_pos hse, if_pos hse]
    · rw [if_neg hse, if_neg hse]
      rw [if_neg hse] at h
      cases hws : isWall start cl0 with
      | none => rfl
      | some ws =>
        rw [hws] at h
        simp only at h ⊢
        by_cases hw1 : ws = true
        · rw [if_pos hw1, if_pos hw1]
        · rw [if_neg hw1, if_neg hw1]
          rw [if_neg hw1] at h
          cases hwe : isWall endp cl0 with
          | none => rfl
          | some we =>
            rw [hwe] at h
            simp only at h ⊢
            by_cases hw2 : we = true
            · rw [if_pos hw2, if_pos hw2]
            · rw [if_neg hw2, if_neg hw2]
              rw [if_neg hw2] at h
              cases hgs : cl0.get start with
              | none => rfl
              | some n =>
                rw [hgs] at h
                simp only [Bool.and_eq_true] at h ⊢
                obtain ⟨⟨h1, h2⟩, h3⟩ := h
                rw [heuristic_machine h1, wrapI32_of_fits h2]
                exact loop_machine _ _ _ _ h3

theorem run_machine (nb : Vector2i → List Vector2i) (path0 : List Vector2i)
    (start endp : Vector2i) (map : Matrix) (h : noOverflow nb start endp map = true) :
    Machine.run nb path0 start endp map = run nb path0 start endp map := by
  unfold Machine.run run
  rw [runState_machine nb path0 start endp map h]

theorem runCost_machine (nb : Vector2i → List Vector2i) (path0 : List Vector2i)
    (start endp : Vector2i) (map : Matrix) (h : noOverflow nb start endp map = true) :
    Machine.runCost nb path0 start endp map = runCost nb path0 start endp map := by
  unfold Machine.runCost runCost
  rw [runState_machine nb path0 start endp map h]

end machine

end AStar

/-! ### The overflow test does not depend on the cost of the end cell -/

namespace AStar

section fitsrel

variable {endp current : Vector2i} {openList : List Vector2i} {cl cl' : NodeMatrix}

/-- One relaxation on two related stores computes the same results. -/
theorem EndRel.relaxFits_rel (h : EndRel endp openList cl cl') (hc : current ≠ endp)
    (v : Vector2i) :
    relaxFits endp current (cl', openList) v = relaxFits endp current (cl, openList) v := by
  unfold relaxFits
  simp only
  rw [h.deref_other hc, h.all_visited v, h.all_position v]
  by_cases hv : (cl.deref v).visited = false
  · rw [if_pos hv, if_pos hv]
    by_cases hin : isInOpenList v openList = false
    · rw [if_pos (Or.inl hin), if_pos (Or.inl hin)]
    · have hmem : v ∈ openList := by
        unfold isInOpenList at hin
        simpa using hin
      rw [h.open_gScore hmem]
  · rw [if_neg hv, if_neg hv]

/-- The inner loop on two related stores computes the same results. -/
theorem EndRel.relaxAllFit_rel (hc : current ≠ endp) :
    ∀ (neighbors : List Vector2i) (openList : List Vector2i) (cl cl' : NodeMatrix),
      EndRel endp openList cl cl' →
      relaxAllFit endp current neighbors (cl', openList) =
        relaxAllFit endp current neighbors (cl, openList) := by
  intro neighbors
  induction neighbors with
  | nil => intro openList cl cl' _; rfl
  | cons v l ih =>
    intro openList cl cl' h
    obtain ⟨a1, a2⟩ := h.relax_rel hc v
    have e' : relax endp current (cl', openList) v =
        ((relax endp current (cl', openList) v).1,
          (relax endp current (cl, openList) v).2) := by
      rw [← a1]
    have e : relax endp current (cl, openList) v =
        ((relax endp current (cl, openList) v).1,
          (relax endp current (cl, openList) v).2) := rfl
    unfold relaxAllFit
    rw [h.relaxFits_rel hc v, e', e]
    congr 1
    exact ih _ _ _ a2

end fitsrel

section fitsloop

variable {nb : Vector2i → List Vector2i} {map : Matrix} {start endp : Vector2i}

/-- One expansion on two related stores computes the same results. -/
theorem EndRel.expandFits_rel {cl cl' : NodeMatrix} {openList rest : List Vector2i}
    {current : Vector2i}
    (h : Inv nb map start endp [] cl openList) (hr : EndRel endp openList cl cl')
    (hsort : sortOpen cl openList = current :: rest)
    (hpos : (cl.deref current).position ≠ endp) :
    expandFits nb endp cl' current rest = expandFits nb endp cl current rest := by
  have hperm : (current :: rest).Perm openList := hsort ▸ sortOpen_perm cl openList
  have hcur : current ∈ openList := hperm.mem_iff.mp (List.mem_cons_self _ _)
  have hcpos : (cl.deref current).position = current := h.touched_pos current (Or.inr hcur)
  have hne : current ≠ endp := fun e => hpos (by rw [hcpos]; exact e)
  have hsome : ∀ k, inBounds cl.mSize k → (cl.mMap k).isSome = true := by
    intro k hk
    rw [h.size] at hk
    obtain ⟨n, hn, _⟩ := h.store k hk
    rw [hn]; rfl
  have hsome' : ∀ k, inBounds cl'.mSize k → (cl'.mMap k).isSome = true := by
    intro k hk
    rw [hr.size] at hk
    rw [hr.all_isSome]
    exact hsome k hk
  obtain ⟨cl1, a1, a2, a3⟩ := getNeighbors_fold (nb (cl.deref current).position) [] cl hsome
  obtain ⟨cl1', b1, b2, b3⟩ := getNeighbors_fold (nb (cl.deref current).position) [] cl' hsome'
  have hfilter : (fun p => decide (inBounds cl'.mSize p) && decide ((cl'.deref p).gScore ≠ 1)) =
      (fun p => decide (inBounds cl.mSize p) && decide ((cl.deref p).gScore ≠ 1)) := by
    funext p
    rw [hr.size, hr.wall p]
  rw [hfilter] at b1
  have hr1 : EndRel endp rest cl1 cl1' :=
    (hr.posWritten_rel a2 b2 a3 b3).mono_open
      (fun hin => hperm.mem_iff.mp (List.mem_cons_of_mem _ hin))
  have hd1 : cl1'.deref current = cl1.deref current := hr1.deref_other hne
  have hr2 := hr1.set_other hne { cl1.deref current with visited := true }
  have c := EndRel.relaxAllFit_rel hne
    ((nb (cl.deref current).position).filter
      (fun p => decide (inBounds cl.mSize p) && decide ((cl.deref p).gScore ≠ 1)))
    rest _ _ hr2
  unfold expandFits
  unfold getNeighbors
  rw [a1, hr.all_position current, b1]
  simp only [List.nil_append]
  rw [hd1]
  exact c

/-- The main loop on two related stores computes the same results. -/
theorem EndRel.loopFits_rel :
    ∀ (fuel : Nat) (cl cl' : NodeMatrix) (openList : List Vector2i),
      Inv nb map start endp [] cl openList → EndRel endp openList cl cl' →
      loopFits nb endp fuel cl' openList = loopFits nb endp fuel cl openList := by
  intro fuel
  induction fuel with
  | zero => intro cl cl' openList _ _; rfl
  | succ fuel ih =>
    intro cl cl' openList h hr
    have hpop : popped endp cl' openList = popped endp cl openList := by
      unfold popped
      rw [hr.sortOpen_eq]
      cases sortOpen cl openList with
      | nil => rfl
      | cons c r => simp only [hr.all_position]
    unfold loopFits
    rw [hpop]
    cases hp : popped endp cl openList with
    | none => rfl
    | some cr =>
      obtain ⟨cur, rest⟩ := cr
      obtain ⟨_, hsort, hpos⟩ := popped_some hp
      obtain ⟨st, hst, hinv, _⟩ := h.step hsort hpos
      obtain ⟨st', hst', e1, hr'⟩ := hr.expand_rel h hsort hpos hst
      simp only
      rw [hr.expandFits_rel h hsort hpos, hst, hst']
      simp only
      rw [e1, ih st.1 st'.1 st.2 hinv hr']

/-- The state in which a query that passes the `VERIF` test enters the main
loop, written out. -/
theorem entry_explicit (hmap : map.Complete) (hs : inBounds map.getSize start)
    (he : inBounds map.getSize endp) (hne : start ≠ endp)
    (hsw : map.get start ≠ some WALL_COST) (hew : map.get endp ≠ some WALL_COST) :
    ∃ (cl0 : NodeMatrix) (cs : Int), cl0.mSize = map.mSize ∧
      (∀ p, cl0.mMap p =
        if inBounds map.mSize p then (map.get p).map (fun c => Node.mk2 c 0) else none) ∧
      map.get start = some cs ∧ cs ≠ 1 ∧
      entry start endp map =
        some (cl0.set start { Node.mk2 cs 0 with
          position := start, gScore := 0, fScore := 0 + heuristic start endp }, [start]) := by
  obtain ⟨cl0, hr, hsize, hcl⟩ := reset_spec map hmap
  change inBounds map.mSize start at hs
  change inBounds map.mSize endp at he
  obtain ⟨cs, hcs⟩ := get_of_complete hmap hs
  obtain ⟨ce, hce⟩ := get_of_complete hmap he
  have hcs1 : cs ≠ 1 := fun e => hsw (by rw [hcs, e]; rfl)
  have hce1 : ce ≠ 1 := fun e => hew (by rw [hce, e]; rfl)
  have hgs : cl0.get start = some (Node.mk2 cs 0) := by
    unfold NodeMatrix.get
    rw [hcl start, if_pos hs, hcs]; rfl
  have hge : cl0.get endp = some (Node.mk2 ce 0) := by
    unfold NodeMatrix.get
    rw [hcl endp, if_pos he, hce]; rfl
  refine ⟨cl0, cs, hsize, hcl, hcs, hcs1, ?_⟩
  unfold entry
  simp only [hr, if_neg hne, isWall, hgs, hge, Option.map_some', Node.mk2, hcs1, hce1,
    decide_False]
  rfl

/-- Replacing the map cost of the end cell by another non-wall value does not
change whether the run overflows. -/
theorem noOverflow_end_cost (nb : Vector2i → List Vector2i)
    (hmap : map.Complete) (hs : inBounds map.getSize start) (he : inBounds map.getSize endp)
    (hne : start ≠ endp) (hsw : map.get start ≠ some WALL_COST)
    (hew : map.get endp ≠ some WALL_COST) (v : Int) (hv : v ≠ WALL_COST) :
    noOverflow nb start endp (map.set endp v) = noOverflow nb start endp map := by
  have hsw' : (map.set endp v).get start ≠ some WALL_COST := by
    rw [get_set_other endp start v hne]; exact hsw
  have hew' : (map.set endp v).get endp ≠ some WALL_COST := by
    rw [get_set_self]
    exact fun e => hv (Option.some.inj e)
  obtain ⟨cl0, cs, a1, a2, a3, a4, a5⟩ := entry_explicit hmap hs he hne hsw hew
  obtain ⟨cl0', cs', b1, b2, b3, _, b5⟩ := entry_explicit
    (complete_set hmap endp v) hs he hne hsw' hew'
  have hcs : cs = cs' := by
    rw [get_set_other endp start v hne, a3] at b3
    exact Option.some.inj b3
  subst hcs
  change inBounds map.mSize endp at he
  obtain ⟨ce, hce⟩ := get_of_complete hmap he
  have hce1 : ce ≠ 1 := fun e => hew (by rw [hce, e]; rfl)
  have hd : cl0.deref endp = Node.mk2 ce 0 := by
    unfold NodeMatrix.deref
    rw [a2 endp, if_pos he, hce]; rfl
  have hd' : cl0'.deref endp = Node.mk2 v 0 := by
    unfold NodeMatrix.deref
    rw [b2 endp]
    have : inBounds (map.set endp v).mSize endp := he
    rw [if_pos this, get_set_self]; rfl
  have hrel0 : EndRel endp [start] cl0 cl0' :=
    { size := by rw [a1, b1]; rfl
      other := fun k hk => by
        rw [a2 k, b2 k, get_set_other endp k v hk]
        rfl
      isSome := by
        rw [a2 endp, b2 endp]
        have : inBounds (map.set endp v).mSize endp := he
        rw [if_pos he, if_pos this, get_set_self, hce]
        rfl
      fScore := by rw [hd, hd']; rfl
      position := by rw [hd, hd']; rfl
      parent := by rw [hd, hd']; rfl
      visited := by rw [hd, hd']; rfl
      gScore := by
        right
        rw [hd, hd']
        refine ⟨?_, hce1, hv⟩
        intro hin
        exact hne (List.mem_singleton.mp hin).symm }
  have hrel := hrel0.set_other hne { Node.mk2 cs 0 with
    position := start, gScore := 0, fScore := 0 + heuristic start endp }
  obtain ⟨hinv, _⟩ := @init_inv nb map start endp cl0 cs a1 a2 hmap hs a3 a4
  have hloop := hrel.loopFits_rel ((cells map.getSize).length + 1) _ _ _ hinv
  unfold noOverflow
  rw [a5, b5]
  simp only
  have hsz : (map.set endp v).getSize = map.getSize := rfl
  rw [hsz, hloop]

end fitsloop

end AStar

/-! ## The claims about `AStar::run` -/

namespace AStar

/-- C1. Path validity of `AStar::run`: on every complete cost map, for every
neighbour provider and all in-bounds `start` and `endp`, the run returns a path,
and when that path is non-empty (a) every consecutive pair `(u, v)` of
`start, c1, ..., cn` satisfies `v ∈ nb u`, (b) no cell of the path has map cost
`WALL_COST`, and (c) the path contains no cell twice. -/
theorem run_path_valid (nb : Vector2i → List Vector2i) (path0 : List Vector2i)
    (start endp : Vector2i) (map : Matrix) (hmap : map.Complete)
    (hs : inBounds map.getSize start) (he : inBounds map.getSize endp) :
    ∃ path, run nb path0 start endp map = some path ∧
      (path ≠ [] →
        List.Chain' (fun u v => v ∈ nb u) (start :: path) ∧
        (∀ c ∈ path, map.get c ≠ some WALL_COST) ∧ path.Nodup) := by
  obtain ⟨path, hrun, hp⟩ := run_shape nb path0 hmap hs he
  refine ⟨path, hrun, fun hne => ?_⟩
  obtain ⟨hw, _, hnd⟩ := hp hne
  refine ⟨?_, fun c hc => (chain_step_mem path start hw.1 c hc).2, (List.nodup_cons.mp hnd).2⟩
  exact List.Chain.imp (fun _ _ h => h.1) hw.1

/-- Witness of C1 on the 3 x 3 map with a wall in the middle. -/
theorem run_path_valid_witness :
    wallMap.Complete ∧ inBounds wallMap.getSize ⟨0, 0⟩ ∧ inBounds wallMap.getSize ⟨2, 2⟩ ∧
    ∃ path, run MapUtility.getNeighboors [] ⟨0, 0⟩ ⟨2, 2⟩ wallMap = some path ∧
      (path ≠ [] →
        List.Chain' (fun u v => v ∈ MapUtility.getNeighboors u) ((⟨0, 0⟩ : Vector2i) :: path) ∧
        (∀ c ∈ path, wallMap.get c ≠ some WALL_COST) ∧ path.Nodup) :=
  ⟨by decide, by decide, by decide,
    run_path_valid MapUtility.getNeighboors [] ⟨0, 0⟩ ⟨2, 2⟩ wallMap (by decide) (by decide)
      (by decide)⟩

/-- C2. Path shape of `AStar::run`: on every complete cost map and for all
in-bounds `start` and `endp`, the run returns a path, and when that path is
non-empty its last element is `endp` and `start` does not occur in it. -/
theorem run_path_shape (nb : Vector2i → List Vector2i) (path0 : List Vector2i)
    (start endp : Vector2i) (map : Matrix) (hmap : map.Complete)
    (hs : inBounds map.getSize start) (he : inBounds map.getSize endp) :
    ∃ path, run nb path0 start endp map = some path ∧
      (path ≠ [] → path.getLast? = some endp ∧ start ∉ path) := by
  obtain ⟨path, hrun, hp⟩ := run_shape nb path0 hmap hs he
  refine ⟨path, hrun, fun hne => ?_⟩
  obtain ⟨_, hl, hnd⟩ := hp hne
  exact ⟨hl, (List.nodup_cons.mp hnd).1⟩

/-- Witness of C2 on the 3 x 3 map with a wall in the middle. -/
theorem run_path_shape_witness :
    wallMap.Complete ∧ inBounds wallMap.getSize ⟨0, 0⟩ ∧ inBounds wallMap.getSize ⟨2, 2⟩ ∧
    ∃ path, run MapUtility.getNeighboors [] ⟨0, 0⟩ ⟨2, 2⟩ wallMap = some path ∧
      (path ≠ [] → path.getLast? = some ⟨2, 2⟩ ∧ (⟨0, 0⟩ : Vector2i) ∉ path) :=
  ⟨by decide, by decide, by decide,
    run_path_shape MapUtility.getNeighboors [] ⟨0, 0⟩ ⟨2, 2⟩ wallMap (by decide) (by decide)
      (by decide)⟩

/-- C3. Completeness of `AStar::run`: on every complete cost map, for every
neighbour provider and all in-bounds, distinct, non-wall `start` and `endp`,
the run returns a path, and that path is non-empty if and only if `endp` is
reachable from `start` by a chain of cells each of which is a neighbour of the
previous one, lies inside the map and has a map cost different from
`WALL_COST`. -/
theorem run_complete (nb : Vector2i → List Vector2i) (path0 : List Vector2i)
    (start endp : Vector2i) (map : Matrix) (hmap : map.Complete)
    (hs : inBounds map.getSize start) (he : inBounds map.getSize endp) (hne : start ≠ endp)
    (hsw : map.get start ≠ some WALL_COST) (hew : map.get endp ≠ some WALL_COST) :
    ∃ path, run nb path0 start endp map = some path ∧
      (path ≠ [] ↔ ∃ w, IsWalk nb map start endp w) := by
  obtain ⟨path, cl, hrun, hres⟩ := run_outcome nb path0 hmap hs he hne hsw hew
  refine ⟨path, run_eq_of_runState hrun, ?_⟩
  rcases hres with ⟨h1, h2, _⟩ | ⟨h1, h2⟩
  · exact ⟨fun _ => ⟨path, h1⟩, fun _ => h2⟩
  · exact ⟨fun h => absurd h1 h, fun ⟨w, hw⟩ => absurd hw (h2 w)⟩

/-- Witness of C3 on the 3 x 3 map with a wall in the middle. -/
theorem run_complete_witness :
    wallMap.Complete ∧ inBounds wallMap.getSize ⟨0, 0⟩ ∧ inBounds wallMap.getSize ⟨2, 2⟩ ∧
    (⟨0, 0⟩ : Vector2i) ≠ ⟨2, 2⟩ ∧ wallMap.get ⟨0, 0⟩ ≠ some WALL_COST ∧
    wallMap.get ⟨2, 2⟩ ≠ some WALL_COST ∧
    ∃ path, run MapUtility.getNeighboors [] ⟨0, 0⟩ ⟨2, 2⟩ wallMap = some path ∧
      (path ≠ [] ↔ ∃ w, IsWalk MapUtility.getNeighboors wallMap ⟨0, 0⟩ ⟨2, 2⟩ w) :=
  ⟨by decide, by decide, by decide, by decide, by decide, by decide,
    run_complete MapUtility.getNeighboors [] ⟨0, 0⟩ ⟨2, 2⟩ wallMap (by decide) (by decide)
      (by decide) (by decide) (by decide) (by decide)⟩

/-- C4. Trivial rejections of `AStar::run`: on every complete cost map and for
all in-bounds `start` and `endp`, if `start = endp`, or the map cost of `start`
is `WALL_COST`, or the map cost of `endp` is `WALL_COST`, then the returned path
is empty, whatever the output list `path0` held before. -/
theorem run_trivial_reject (nb : Vector2i → List Vector2i) (path0 : List Vector2i)
    (start endp : Vector2i) (map : Matrix) (hmap : map.Complete)
    (hs : inBounds map.getSize start) (he : inBounds map.getSize endp)
    (h : start = endp ∨ map.get start = some WALL_COST ∨ map.get endp = some WALL_COST) :
    run nb path0 start endp map = some [] := by
  obtain ⟨cl, hcl⟩ := runState_reject nb path0 hmap hs he h
  exact run_eq_of_runState hcl

/-- Witness of C4: a query that ends on the wall of the 3 x 3 map, with a
non-empty output list on entry. -/
theorem run_trivial_reject_witness :
    wallMap.Complete ∧ inBounds wallMap.getSize ⟨0, 0⟩ ∧ inBounds wallMap.getSize ⟨1, 1⟩ ∧
    ((⟨0, 0⟩ : Vector2i) = ⟨1, 1⟩ ∨ wallMap.get ⟨0, 0⟩ = some WALL_COST ∨
      wallMap.get ⟨1, 1⟩ = some WALL_COST) ∧
    run MapUtility.getNeighboors [⟨2, 2⟩] ⟨0, 0⟩ ⟨1, 1⟩ wallMap = some [] :=
  ⟨by decide, by decide, by decide, by decide,
    run_trivial_reject MapUtility.getNeighboors [⟨2, 2⟩] ⟨0, 0⟩ ⟨1, 1⟩ wallMap (by decide)
      (by decide) (by decide) (by decide)⟩

end AStar

/-! ## The claims about `Distance::run` and the concrete scenario -/

namespace Distance

/-- C8 (fails on the code). `Distance::run` looks a neighbour candidate up in
the cost map without a bounds test: on the 3 x 3 map, from the in-bounds,
passable start `(0, 0)` with budget `1`, the hexagonal candidate `(-1, -1)` lies
outside the map, has no cost, and the run performs the undefined lookup. -/
theorem run_out_of_bounds_lookup :
    (⟨-1, -1⟩ : Vector2i) ∈ MapUtility.getNeighboors ⟨0, 0⟩ ∧
    ¬ inBounds wallMap.getSize ⟨-1, -1⟩ ∧
    wallMap.get ⟨-1, -1⟩ = none ∧
    inBounds wallMap.getSize ⟨0, 0⟩ ∧ wallMap.get ⟨0, 0⟩ = some 2 ∧
    run MapUtility.getNeighboors [] ⟨0, 0⟩ 1 wallMap = none := by
  refine ⟨by decide, by decide, by decide, by decide, by decide, ?_⟩
  exact run_lookup_fails [] 1 (by decide) (show wallMap.get ⟨0, 0⟩ = some 2 by decide)
    (by decide) (show (⟨-1, -1⟩ : Vector2i) ∈ MapUtility.getNeighboors ⟨0, 0⟩ by decide)
    (by decide)

end Distance

namespace AStar

/-- On the 3 x 3 map of cost `2` with a wall at `(1, 1)`, the run from `(0, 0)`
to `(2, 2)` under the hexagonal candidates goes around the wall in three
moves. -/
theorem run_wallMap :
    run MapUtility.getNeighboors [] ⟨0, 0⟩ ⟨2, 2⟩ wallMap =
      some [⟨0, 1⟩, ⟨1, 2⟩, ⟨2, 2⟩] := by
  decide

/-- C10 as stated fails: on the 3 x 3 map on which every cell has cost `1`,
the run from `(0, 0)` to `(2, 2)` returns the empty path. -/
theorem onesMap_path_empty :
    run MapUtility.getNeighboors [] ⟨0, 0⟩ ⟨2, 2⟩ onesMap = some [] := by
  decide

/-- The scenario as worded is rejected under every neighbour provider: on the
map on which every cell has cost `1`, the value of `WALL_COST`, `start` is
itself a wall and no search is performed. -/
theorem run_onesMap (nb : Vector2i → List Vector2i) (path0 : List Vector2i) :
    run nb path0 ⟨0, 0⟩ ⟨2, 2⟩ onesMap = some [] := by
  obtain ⟨cl, hcl⟩ := runState_reject nb path0 (show onesMap.Complete by decide)
    (show inBounds onesMap.getSize ⟨0, 0⟩ by decide)
    (show inBounds onesMap.getSize ⟨2, 2⟩ by decide)
    (Or.inr (Or.inl (show onesMap.get ⟨0, 0⟩ = some WALL_COST by decide)))
  exact run_eq_of_runState hcl

/-- C10, amended. The concrete 3 x 3 scenario with a passable cost other than
`WALL_COST`: on the 3-wide, 3-high cost map in which every cell has cost `2`
except cell `(1, 1)`, which is `WALL_COST`, `AStar::run` from `(0, 0)` to
`(2, 2)` under the hexagonal candidates returns a non-empty path that ends at
`(2, 2)`, does not contain `(1, 1)` and has at least 2 cells; the path is
`(0, 1), (1, 2), (2, 2)`. -/
theorem run_wallMap_scenario :
    wallMap.getSize = ⟨3, 3⟩ ∧
    (∀ p ∈ cells wallMap.getSize,
      wallMap.get p = some (if p = ⟨1, 1⟩ then WALL_COST else 2)) ∧
    ∃ path, run MapUtility.getNeighboors [] ⟨0, 0⟩ ⟨2, 2⟩ wallMap = some path ∧
      path ≠ [] ∧ path.getLast? = some ⟨2, 2⟩ ∧ (⟨1, 1⟩ : Vector2i) ∉ path ∧
      2 ≤ path.length ∧ path = [⟨0, 1⟩, ⟨1, 2⟩, ⟨2, 2⟩] :=
  ⟨by decide, by decide, [⟨0, 1⟩, ⟨1, 2⟩, ⟨2, 2⟩], by decide, by decide, by decide, by decide,
    by decide, rfl⟩

end AStar

namespace Distance

/-- C6. `Distance::run` computes the breadth-first ball: on every complete cost
map, for every in-bounds non-wall `start` and every budget `b ≥ 1`, whenever
every neighbour enumerated during the search (every candidate of a cell within
`b - 1` hops) lies inside the map, the run returns a list without repetition
whose elements are exactly the cells within `b` hops of `start` along
neighbours of map cost different from `WALL_COST`; `start` comes first, the
cells appear in non-decreasing order of hop distance (a cell is within `k`
hops whenever a later cell of the list is), and no `WALL_COST` cell appears. -/
theorem run_ball (nb : Vector2i → List Vector2i) (r0 : List Vector2i) (start : Vector2i)
    (b : Nat) (map : Matrix) (hmap : map.Complete) (hb : 1 ≤ b)
    (hs : inBounds map.getSize start) (hsw : map.get start ≠ some WALL_COST)
    (hin : ∀ u, Within nb map start (b - 1) u → ∀ v ∈ nb u, inBounds map.getSize v) :
    ∃ l, run nb r0 start b map = some l ∧ l.Nodup ∧
      (∀ c, c ∈ l ↔ Within nb map start b c) ∧ l.head? = some start ∧
      l.Pairwise (fun a c => ∀ k, Within nb map start k c → Within nb map start k a) ∧
      ∀ c ∈ l, map.get c ≠ some WALL_COST := by
  obtain ⟨c, hc⟩ := AStar.get_of_complete hmap hs
  have hc1 : c ≠ 1 := fun e => hsw (by rw [hc, e]; rfl)
  obtain ⟨st, h1, h2⟩ := iterate_spec b 0 ([start], [start]) (init_binv hsw)
    (fun u hu v hv => by
      rw [Nat.zero_add] at hu
      obtain ⟨cv, hcv⟩ := AStar.get_of_complete hmap (hin u hu v hv)
      rw [hcv]; rfl)
  rw [Nat.zero_add] at h2
  refine ⟨st.1, ?_, h2.nodup, fun x => ⟨h2.sound x, h2.complete x⟩, h2.head, h2.ordered,
    h2.nonwall⟩
  unfold run
  have hb0 : b ≠ 0 := by omega
  simp only [if_neg hb0, hc, if_neg hc1, listClear, List.nil_append, h1, Option.map_some']

/-- Witness of C6: budget `1` from the centre of the 5 x 5 map. -/
theorem run_ball_witness :
    openMap.Complete ∧ 1 ≤ 1 ∧ inBounds openMap.getSize ⟨2, 2⟩ ∧
    openMap.get ⟨2, 2⟩ ≠ some WALL_COST ∧
    ∃ l, run MapUtility.getNeighboors [] ⟨2, 2⟩ 1 openMap = some l ∧ l.Nodup ∧
      (∀ c, c ∈ l ↔ Within MapUtility.getNeighboors openMap ⟨2, 2⟩ 1 c) ∧
      l.head? = some ⟨2, 2⟩ ∧
      l.Pairwise (fun a c => ∀ k, Within MapUtility.getNeighboors openMap ⟨2, 2⟩ k c →
        Within MapUtility.getNeighboors openMap ⟨2, 2⟩ k a) ∧
      ∀ c ∈ l, openMap.get c ≠ some WALL_COST :=
  ⟨by decide, by decide, by decide, by decide,
    run_ball MapUtility.getNeighboors [] ⟨2, 2⟩ 1 openMap (by decide) (by decide) (by decide)
      (by decide)
      (fun u hu => by
        rw [within_zero hu]
        decide)⟩

/-- The runs that return are monotone in the budget: for every cost map,
every `start` and every `b ≥ 0`, when the run with budget `b + 1` returns `l1`,
the run with budget `b` returns a list `l` that `l1` extends, so every cell of
`l` is in `l1`; and the run with budget `0` returns the empty list. -/
theorem run_monotone (nb : Vector2i → List Vector2i) (r0 : List Vector2i) (start : Vector2i)
    (b : Nat) (map : Matrix) (l1 : List Vector2i)
    (h : run nb r0 start (b + 1) map = some l1) :
    (∃ l, run nb r0 start b map = some l ∧ l <+: l1 ∧ ∀ c ∈ l, c ∈ l1) ∧
      run nb r0 start 0 map = some [] := by
  obtain ⟨l, h1, h2⟩ := run_succ_extends nb r0 start b map l1 h
  exact ⟨⟨l, h1, h2, fun c hc => h2.subset hc⟩, rfl⟩

/-- Budgets `1` and `2` from the centre of the 5 x 5 map. -/
theorem run_monotone_witness :
    run MapUtility.getNeighboors [] ⟨2, 2⟩ (1 + 1) openMap =
      some [⟨2, 2⟩, ⟨1, 1⟩, ⟨2, 1⟩, ⟨3, 2⟩, ⟨2, 3⟩, ⟨1, 3⟩, ⟨1, 2⟩, ⟨1, 0⟩, ⟨2, 0⟩, ⟨0, 1⟩,
        ⟨3, 0⟩, ⟨3, 1⟩, ⟨4, 2⟩, ⟨3, 3⟩, ⟨3, 4⟩, ⟨2, 4⟩, ⟨1, 4⟩, ⟨0, 3⟩, ⟨0, 2⟩] ∧
    ((∃ l, run MapUtility.getNeighboors [] ⟨2, 2⟩ 1 openMap = some l ∧
        l <+: [⟨2, 2⟩, ⟨1, 1⟩, ⟨2, 1⟩, ⟨3, 2⟩, ⟨2, 3⟩, ⟨1, 3⟩, ⟨1, 2⟩, ⟨1, 0⟩, ⟨2, 0⟩, ⟨0, 1⟩,
          ⟨3, 0⟩, ⟨3, 1⟩, ⟨4, 2⟩, ⟨3, 3⟩, ⟨3, 4⟩, ⟨2, 4⟩, ⟨1, 4⟩, ⟨0, 3⟩, ⟨0, 2⟩] ∧
        ∀ c ∈ l, c ∈ [⟨2, 2⟩, ⟨1, 1⟩, ⟨2, 1⟩, ⟨3, 2⟩, ⟨2, 3⟩, ⟨1, 3⟩, ⟨1, 2⟩, ⟨1, 0⟩, ⟨2, 0⟩,
          ⟨0, 1⟩, ⟨3, 0⟩, ⟨3, 1⟩, ⟨4, 2⟩, ⟨3, 3⟩, ⟨3, 4⟩, ⟨2, 4⟩, ⟨1, 4⟩, ⟨0, 3⟩, ⟨0, 2⟩]) ∧
      run MapUtility.getNeighboors [] ⟨2, 2⟩ 0 openMap = some []) :=
  ⟨by decide, run_monotone MapUtility.getNeighboors [] ⟨2, 2⟩ 1 openMap _ (by decide)⟩

/-- C7 (fails on the code). `Distance::run` is not monotone in the budget on
every cost map: on the 5 x 5 map of cost `2`, from the in-bounds, passable
start `(2, 2)`, the run with budget `2` returns 19 cells, `(1, 0)` among them;
the run with budget `3` goes on with the candidates of `(1, 0)`, looks the
candidate `(0, -1)` up in the cost map without a bounds test, outside the map
where no cost exists, and has no result: none of the 19 cells is returned. -/
theorem run_budget_not_monotone :
    openMap.Complete ∧ inBounds openMap.getSize ⟨2, 2⟩ ∧
    run MapUtility.getNeighboors [] ⟨2, 2⟩ 2 openMap =
      some [⟨2, 2⟩, ⟨1, 1⟩, ⟨2, 1⟩, ⟨3, 2⟩, ⟨2, 3⟩, ⟨1, 3⟩, ⟨1, 2⟩, ⟨1, 0⟩, ⟨2, 0⟩, ⟨0, 1⟩,
        ⟨3, 0⟩, ⟨3, 1⟩, ⟨4, 2⟩, ⟨3, 3⟩, ⟨3, 4⟩, ⟨2, 4⟩, ⟨1, 4⟩, ⟨0, 3⟩, ⟨0, 2⟩] ∧
    (⟨0, -1⟩ : Vector2i) ∈ MapUtility.getNeighboors ⟨1, 0⟩ ∧
    ¬ inBounds openMap.getSize ⟨0, -1⟩ ∧ openMap.get ⟨0, -1⟩ = none ∧
    run MapUtility.getNeighboors [] ⟨2, 2⟩ (2 + 1) openMap = none := by
  decide

end Distance

namespace AStar

/-- C5 as stated fails: on `detourMap` with the provider `detourNb` the costs
are non-negative and the heuristic is admissible, yet the run from `(5, 1)` to
`(0, 0)` returns a walk of cost `10` although a walk of cost `9` exists. -/
theorem run_admissible_not_optimal :
    NonNeg detourMap ∧ Admissible detourNb detourMap ⟨0, 0⟩ ∧
    run detourNb [] ⟨5, 1⟩ ⟨0, 0⟩ detourMap = some [⟨0, 1⟩, ⟨1, 0⟩, ⟨0, 0⟩] ∧
    walkCost detourMap ⟨5, 1⟩ [⟨0, 1⟩, ⟨1, 0⟩, ⟨0, 0⟩] = 10 ∧
    IsWalk detourNb detourMap ⟨5, 1⟩ ⟨0, 0⟩ [⟨5, 0⟩, ⟨1, 0⟩, ⟨0, 0⟩] ∧
    walkCost detourMap ⟨5, 1⟩ [⟨5, 0⟩, ⟨1, 0⟩, ⟨0, 0⟩] = 9 :=
  ⟨by decide, detour_admissible, by decide, by decide,
    ⟨List.Chain.cons (by decide) (List.Chain.cons (by decide) (List.Chain.cons (by decide)
      List.Chain.nil)), by decide⟩, by decide⟩

/-- C5, amended. Optimality of `AStar::run` under a consistent heuristic and
without overflow: the cost of a walk `start, c1, ..., cn = endp` being the sum
of the map costs of `start, c1, ..., c(n-1)`, for every complete cost map with
non-negative non-wall costs, every neighbour provider on which the heuristic is
consistent (it drops by at most the cost of `u` along every move `u → v` of a
valid walk), and all in-bounds, distinct, non-wall `start` and `endp` such that
no arithmetic operation of the run overflows `I32`, the run in `I32` arithmetic
returns a path, and when that path is non-empty it is a valid walk whose cost
is minimal among the valid walks from `start` to `endp`. -/
theorem run_optimal_of_consistent (nb : Vector2i → List Vector2i) (path0 : List Vector2i)
    (start endp : Vector2i) (map : Matrix) (hmap : map.Complete)
    (hs : inBounds map.getSize start) (he : inBounds map.getSize endp) (hne : start ≠ endp)
    (hsw : map.get start ≠ some WALL_COST) (hew : map.get endp ≠ some WALL_COST)
    (hnn : NonNeg map) (hcons : Consistent nb map endp)
    (hfit : noOverflow nb start endp map = true) :
    ∃ path, Machine.run nb path0 start endp map = some path ∧
      (path ≠ [] → IsWalk nb map start endp path ∧
        ∀ w, IsWalk nb map start endp w → walkCost map start path ≤ walkCost map start w) := by
  obtain ⟨path, cl, hrun, hres⟩ :=
    run_outcome_optimal nb path0 hmap hs he hne hsw hew hnn hcons
  refine ⟨path, ?_, fun hp => ?_⟩
  · rw [run_machine nb path0 start endp map hfit]
    exact run_eq_of_runState hrun
  · rcases hres with ⟨h1, _, h3⟩ | ⟨h1, _⟩
    · exact ⟨h1, h3⟩
    · exact absurd h1 hp

/-- Witness of the amended C5 on the 3 x 3 map with a wall in the middle. -/
theorem run_optimal_of_consistent_witness :
    wallMap.Complete ∧ inBounds wallMap.getSize ⟨0, 0⟩ ∧ inBounds wallMap.getSize ⟨2, 2⟩ ∧
    (⟨0, 0⟩ : Vector2i) ≠ ⟨2, 2⟩ ∧ wallMap.get ⟨0, 0⟩ ≠ some WALL_COST ∧
    wallMap.get ⟨2, 2⟩ ≠ some WALL_COST ∧ NonNeg wallMap ∧
    Consistent MapUtility.getNeighboors wallMap ⟨2, 2⟩ ∧
    noOverflow MapUtility.getNeighboors ⟨0, 0⟩ ⟨2, 2⟩ wallMap = true ∧
    ∃ path, Machine.run MapUtility.getNeighboors [] ⟨0, 0⟩ ⟨2, 2⟩ wallMap = some path ∧
      (path ≠ [] → IsWalk MapUtility.getNeighboors wallMap ⟨0, 0⟩ ⟨2, 2⟩ path ∧
        ∀ w, IsWalk MapUtility.getNeighboors wallMap ⟨0, 0⟩ ⟨2, 2⟩ w →
          walkCost wallMap ⟨0, 0⟩ path ≤ walkCost wallMap ⟨0, 0⟩ w) :=
  ⟨by decide, by decide, by decide, by decide, by decide, by decide, by decide, by decide,
    by decide,
    run_optimal_of_consistent MapUtility.getNeighboors [] ⟨0, 0⟩ ⟨2, 2⟩ wallMap (by decide)
      (by decide) (by decide) (by decide) (by decide) (by decide) (by decide) (by decide)
      (by decide)⟩

/-- The condition on overflow cannot be dropped: on `overflowMap` the costs are
non-negative and the heuristic is consistent under the hexagonal provider, but
the sums of the run from `(0, 0)` to `(0, 1)` leave `I32`; in `I32` arithmetic
the run returns the walk through `(1, 0)`, of cost `4147483647`, with the
accumulated total `-147483649`, although the direct walk costs `2147483647`. -/
theorem run_overflow_not_optimal :
    NonNeg overflowMap ∧ Consistent MapUtility.getNeighboors overflowMap ⟨0, 1⟩ ∧
    noOverflow MapUtility.getNeighboors ⟨0, 0⟩ ⟨0, 1⟩ overflowMap = false ∧
    Machine.runCost MapUtility.getNeighboors [] ⟨0, 0⟩ ⟨0, 1⟩ overflowMap =
      some ([⟨1, 0⟩, ⟨0, 1⟩], -147483649) ∧
    walkCost overflowMap ⟨0, 0⟩ [⟨1, 0⟩, ⟨0, 1⟩] = 4147483647 ∧
    runCost MapUtility.getNeighboors [] ⟨0, 0⟩ ⟨0, 1⟩ overflowMap =
      some ([⟨0, 1⟩], 2147483647) ∧
    walkCost overflowMap ⟨0, 0⟩ [⟨0, 1⟩] = 2147483647 := by
  decide

end AStar

namespace AStar

/-- C9 as stated fails: the cost of the start cell is charged.  On the 2 x 1
map of cost `2`, the run from `(0, 0)` to its neighbour `(1, 0)` accumulates the
total `2` for the end node, and the total `3` once the map cost of the start
cell is replaced by the non-wall value `3`; no cell lies strictly between
start and end. -/
theorem start_cost_charged :
    runCost MapUtility.getNeighboors [] ⟨0, 0⟩ ⟨1, 0⟩ lineMap = some ([⟨1, 0⟩], 2) ∧
    runCost MapUtility.getNeighboors [] ⟨0, 0⟩ ⟨1, 0⟩ (lineMap.set ⟨0, 0⟩ 3) =
      some ([⟨1, 0⟩], 3) := by
  decide

/-- C9, amended. The cost of the end cell is never charged, the cost of the
start cell is: for every query on a complete cost map with in-bounds `start` and
`endp`, none of whose arithmetic operations overflows `I32`, that returns (in
`I32` arithmetic) a non-empty path `path` with total `g` (the final `gScore` of
the end node), replacing the map cost of the end cell by any other non-wall
value leaves both the returned path and the total unchanged, and the total
equals the sum of the map costs of `start` and of the cells strictly between
`start` and `endp` on the returned path. -/
theorem end_cost_not_charged (nb : Vector2i → List Vector2i) (path0 : List Vector2i)
    (start endp : Vector2i) (map : Matrix) (hmap : map.Complete)
    (hs : inBounds map.getSize start) (he : inBounds map.getSize endp)
    (path : List Vector2i) (g : Int)
    (hfit : noOverflow nb start endp map = true)
    (hrun : Machine.runCost nb path0 start endp map = some (path, g)) (hne : path ≠ []) :
    (∀ v, v ≠ WALL_COST →
      Machine.runCost nb path0 start endp (map.set endp v) = some (path, g)) ∧
      g = walkCost map start path := by
  rw [runCost_machine nb path0 start endp map hfit] at hrun
  unfold runCost at hrun
  cases hst : runState nb path0 start endp map with
  | none => rw [hst] at hrun; exact Option.noConfusion hrun
  | some r =>
    obtain ⟨p, clf⟩ := r
    rw [hst] at hrun
    simp only [Option.map_some', Option.some.injEq, Prod.mk.injEq] at hrun
    obtain ⟨rfl, rfl⟩ := hrun
    obtain ⟨h1, h2, h3⟩ := nontrivial_of_path nb path0 hmap hs he hst hne
    constructor
    · intro v hv
      obtain ⟨clf', g1, g2⟩ := runState_end_cost nb path0 hmap hs he h1 h2 h3 v hv hst
      have hfit' : noOverflow nb start endp (map.set endp v) = true := by
        rw [noOverflow_end_cost nb hmap hs he h1 h2 h3 v hv]
        exact hfit
      rw [runCost_machine nb path0 start endp (map.set endp v) hfit']
      unfold runCost
      rw [g1]
      simp only [Option.map_some', g2 hne]
    · obtain ⟨p', cl', hrun', hres⟩ := run_outcome nb path0 hmap hs he h1 h2 h3
      rw [hst] at hrun'
      simp only [Option.some.injEq, Prod.mk.injEq] at hrun'
      obtain ⟨rfl, rfl⟩ := hrun'
      rcases hres with ⟨_, _, _, _, h5⟩ | ⟨h5, _⟩
      · exact h5
      · exact absurd h5 hne

/-- Witness of the amended C9 on the 3 x 3 map with a wall in the middle. -/
theorem end_cost_not_charged_witness :
    wallMap.Complete ∧ inBounds wallMap.getSize ⟨0, 0⟩ ∧ inBounds wallMap.getSize ⟨2, 2⟩ ∧
    noOverflow MapUtility.getNeighboors ⟨0, 0⟩ ⟨2, 2⟩ wallMap = true ∧
    Machine.runCost MapUtility.getNeighboors [] ⟨0, 0⟩ ⟨2, 2⟩ wallMap =
      some ([⟨0, 1⟩, ⟨1, 2⟩, ⟨2, 2⟩], 6) ∧
    ([⟨0, 1⟩, ⟨1, 2⟩, ⟨2, 2⟩] : List Vector2i) ≠ [] ∧
    ((∀ v, v ≠ WALL_COST → Machine.runCost MapUtility.getNeighboors [] ⟨0, 0⟩ ⟨2, 2⟩
        (wallMap.set ⟨2, 2⟩ v) = some ([⟨0, 1⟩, ⟨1, 2⟩, ⟨2, 2⟩], 6)) ∧
      (6 : Int) = walkCost wallMap ⟨0, 0⟩ [⟨0, 1⟩, ⟨1, 2⟩, ⟨2, 2⟩]) :=
  ⟨by decide, by decide, by decide, by decide, by decide, by decide,
    end_cost_not_charged MapUtility.getNeighboors [] ⟨0, 0⟩ ⟨2, 2⟩ wallMap (by decide)
      (by decide) (by decide) [⟨0, 1⟩, ⟨1, 2⟩, ⟨2, 2⟩] 6 (by decide) (by decide) (by decide)⟩

end AStar

namespace AStar

/-- C11. `AStar::run` terminates: on every complete cost map of size
`width x height`, for every neighbour provider and all in-bounds `start` and
`endp`, the run returns, and its main loop ends after the popping iterations
listed by `runPops`, which are at most `width * height`; the popped (closed)
nodes are pairwise distinct, so every node is closed at most once; and in every
state of the search the open list holds no node twice and holds no closed
node. -/
theorem run_terminates (nb : Vector2i → List Vector2i) (path0 : List Vector2i)
    (start endp : Vector2i) (map : Matrix) (hmap : map.Complete)
    (hs : inBounds map.getSize start) (he : inBounds map.getSize endp) :
    (∃ path cl, runState nb path0 start endp map = some (path, cl) ∧
      ∀ st, entry start endp map = some st →
        loop nb endp [] ((runPops nb start endp map).length + 1) st.1 st.2 =
          some (path, cl)) ∧
    (runPops nb start endp map).length ≤ map.getSize.x.toNat * map.getSize.y.toNat ∧
    (runPops nb start endp map).Nodup ∧
    ∀ st ∈ runStates nb start endp map,
      st.2.Nodup ∧ ∀ k ∈ st.2, (st.1.deref k).visited = false := by
  have hstates : ∀ st ∈ runStates nb start endp map,
      st.2.Nodup ∧ ∀ k ∈ st.2, (st.1.deref k).visited = false := by
    intro st hst
    obtain ⟨exc, hinv, _⟩ := runStates_sane nb hmap hs he st hst
    exact ⟨hinv.open_nodup, hinv.open_unvisited⟩
  by_cases htriv : start = endp ∨ map.get start = some WALL_COST ∨
      map.get endp = some WALL_COST
  · obtain ⟨cl, hcl⟩ := runState_reject nb path0 hmap hs he htriv
    have hentry := entry_reject hmap hs he htriv
    have hp : runPops nb start endp map = [] := by
      unfold runPops
      rw [hentry]
    refine ⟨⟨[], cl, hcl, fun st hst => ?_⟩, ?_, ?_, hstates⟩
    · rw [hentry] at hst; exact Option.noConfusion hst
    · rw [hp]; exact Nat.zero_le _
    · rw [hp]; exact List.nodup_nil
  · simp only [not_or] at htriv
    obtain ⟨st0, h1, h2, _, h4, h5⟩ :=
      entry_search nb path0 hmap hs he htriv.1 htriv.2.1 htriv.2.2
    obtain ⟨path, cl, hrun, _⟩ := run_outcome nb path0 hmap hs he htriv.1 htriv.2.1 htriv.2.2
    have hp : runPops nb start endp map =
        pops nb endp ((cells map.getSize).length + 1) st0.1 st0.2 := by
      unfold runPops
      rw [h1]
    obtain ⟨p1, _, p3⟩ := pops_spec ((cells map.getSize).length + 1) st0.1 st0.2 h2
    refine ⟨⟨path, cl, hrun, fun st hst => ?_⟩, ?_, ?_, hstates⟩
    · rw [h1] at hst
      rw [← Option.some.inj hst, hp, loop_pops [] _ st0.1 st0.2 h2 h4, ← h5]
      exact hrun
    · rw [hp, ← cells_length]
      have : unvisitedCount st0.1 ≤ (cells st0.1.mSize).length := List.countP_le_length _
      rw [h2.size] at this
      exact le_trans p3 this
    · rw [hp]; exact p1

/-- Witness of C11 on the 3 x 3 map with a wall in the middle. -/
theorem run_terminates_witness :
    wallMap.Complete ∧ inBounds wallMap.getSize ⟨0, 0⟩ ∧ inBounds wallMap.getSize ⟨2, 2⟩ ∧
    ((∃ path cl, runState MapUtility.getNeighboors [] ⟨0, 0⟩ ⟨2, 2⟩ wallMap = some (path, cl) ∧
      ∀ st, entry ⟨0, 0⟩ ⟨2, 2⟩ wallMap = some st →
        loop MapUtility.getNeighboors ⟨2, 2⟩ []
          ((runPops MapUtility.getNeighboors ⟨0, 0⟩ ⟨2, 2⟩ wallMap).length + 1) st.1 st.2 =
          some (path, cl)) ∧
    (runPops MapUtility.getNeighboors ⟨0, 0⟩ ⟨2, 2⟩ wallMap).length ≤
      wallMap.getSize.x.toNat * wallMap.getSize.y.toNat ∧
    (runPops MapUtility.getNeighboors ⟨0, 0⟩ ⟨2, 2⟩ wallMap).Nodup ∧
    ∀ st ∈ runStates MapUtility.getNeighboors ⟨0, 0⟩ ⟨2, 2⟩ wallMap,
      st.2.Nodup ∧ ∀ k ∈ st.2, (st.1.deref k).visited = false) :=
  ⟨by decide, by decide, by decide,
    run_terminates MapUtility.getNeighboors [] ⟨0, 0⟩ ⟨2, 2⟩ wallMap (by decide) (by decide)
      (by decide)⟩

/-- C12. The wall-test aliasing cannot trigger under non-negative costs: on
every complete cost map whose non-wall costs are non-negative (arithmetic
without overflow), for all in-bounds `start` and `endp`, a query that passes
the `VERIF` test goes through at least one state, and in every state of the
search the `gScore` of every touched node (`0` for `start`, `current.gScore +
current.score` after a relaxation) is different from `1`, the candidate cost
`gScore + score` through every closed node is different from `1`,
`isWall(cell)` holds for an in-bounds cell if and only if its map cost is
`WALL_COST`, and `getNeighbors` of an open node returns exactly the in-bounds
candidates whose map cost is not `WALL_COST`. -/
theorem wall_test_exact (nb : Vector2i → List Vector2i) (start endp : Vector2i)
    (map : Matrix) (hmap : map.Complete)
    (hs : inBounds map.getSize start) (he : inBounds map.getSize endp)
    (hnn : NonNeg map) :
    (start ≠ endp → map.get start ≠ some WALL_COST → map.get endp ≠ some WALL_COST →
      runStates nb start endp map ≠ []) ∧
    ∀ st ∈ runStates nb start endp map,
      (∀ k, Touched st.1 st.2 k → (st.1.deref k).gScore ≠ 1) ∧
      (∀ k, (st.1.deref k).visited = true →
        (st.1.deref k).gScore + (st.1.deref k).score ≠ 1) ∧
      (∀ k, inBounds map.getSize k →
        isWall k st.1 = some (decide (map.get k = some WALL_COST))) ∧
      (∀ node ∈ st.2, ∃ cl1, getNeighbors nb [] node st.1 =
        some ((nb node).filter (fun p => decide (inBounds map.getSize p) &&
          decide (map.get p ≠ some WALL_COST)), cl1)) := by
  refine ⟨runStates_ne_nil nb hmap hs he, fun st hst => ?_⟩
  obtain ⟨exc, hinv, hgs⟩ := runStates_sane nb hmap hs he st hst
  have hg := hgs hnn
  refine ⟨fun k hk => (hg k hk).2, fun k hk => (candidate_ok hinv hnn hg (Or.inl hk)).2,
    fun k hk => ?_, fun node hnode => getNeighbors_exact hinv hg hnode⟩
  obtain ⟨n, hn1, _⟩ := hinv.store k hk
  have hw := wall_iff hinv hg hk
  rw [deref_of_mMap hn1] at hw
  unfold isWall NodeMatrix.get
  rw [hn1, Option.map_some']
  congr 1
  exact decide_eq_decide.mpr hw

/-- Witness of C12 on the 3 x 3 map with a wall in the middle. -/
theorem wall_test_exact_witness :
    wallMap.Complete ∧ inBounds wallMap.getSize ⟨0, 0⟩ ∧ inBounds wallMap.getSize ⟨2, 2⟩ ∧
    NonNeg wallMap ∧
    (((⟨0, 0⟩ : Vector2i) ≠ ⟨2, 2⟩ → wallMap.get ⟨0, 0⟩ ≠ some WALL_COST →
      wallMap.get ⟨2, 2⟩ ≠ some WALL_COST →
      runStates MapUtility.getNeighboors ⟨0, 0⟩ ⟨2, 2⟩ wallMap ≠ []) ∧
    ∀ st ∈ runStates MapUtility.getNeighboors ⟨0, 0⟩ ⟨2, 2⟩ wallMap,
      (∀ k, Touched st.1 st.2 k → (st.1.deref k).gScore ≠ 1) ∧
      (∀ k, (st.1.deref k).visited = true →
        (st.1.deref k).gScore + (st.1.deref k).score ≠ 1) ∧
      (∀ k, inBounds wallMap.getSize k →
        isWall k st.1 = some (decide (wallMap.get k = some WALL_COST))) ∧
      (∀ node ∈ st.2, ∃ cl1, getNeighbors MapUtility.getNeighboors [] node st.1 =
        some ((MapUtility.getNeighboors node).filter
          (fun p => decide (inBounds wallMap.getSize p) &&
            decide (wallMap.get p ≠ some WALL_COST)), cl1))) :=
  ⟨by decide, by decide, by decide, by decide,
    wall_test_exact MapUtility.getNeighboors ⟨0, 0⟩ ⟨2, 2⟩ wallMap (by decide) (by decide)
      (by decide) (by decide)⟩

end AStar

namespace AStar

/-- C13. `AStar::run` is optimal when the heuristic is consistent: for every
complete cost map in which every non-wall cost is at least `2` (arithmetic
without overflow), every neighbour provider that only returns cells differing
from the queried cell by at most 1 in `x` and at most 1 in `y`, and all
in-bounds, distinct, non-wall `start` and `endp`, the truncated Euclidean
heuristic satisfies `h(u) ≤ cost(u) + h(v)` for every neighbour `v` of a
non-wall cell `u` of the map, the run returns a path, and when that path
`c1, ..., cn = endp` is non-empty the sum of the map costs of
`start, c1, ..., c(n-1)` is less than or equal to the same sum for every valid
walk from `start` to `endp`. -/
theorem run_optimal_of_local (nb : Vector2i → List Vector2i) (path0 : List Vector2i)
    (start endp : Vector2i) (map : Matrix) (hmap : map.Complete)
    (hs : inBounds map.getSize start) (he : inBounds map.getSize endp) (hne : start ≠ endp)
    (hsw : map.get start ≠ some WALL_COST) (hew : map.get endp ≠ some WALL_COST)
    (hcost : ∀ p ∈ cells map.getSize, map.get p ≠ some WALL_COST → 2 ≤ cost map p)
    (hloc : ∀ u v, v ∈ nb u → |v.x - u.x| ≤ 1 ∧ |v.y - u.y| ≤ 1) :
    (∀ u ∈ cells map.getSize, map.get u ≠ some WALL_COST → ∀ v ∈ nb u,
      heuristic u endp ≤ cost map u + heuristic v endp) ∧
    ∃ path, run nb path0 start endp map = some path ∧
      (path ≠ [] →
        ∀ w, IsWalk nb map start endp w → walkCost map start path ≤ walkCost map start w) := by
  have hcons := consistent_of_local endp hcost hloc
  have hnn : NonNeg map := fun p hp hw => le_trans (by decide) (hcost p hp hw)
  obtain ⟨path, cl, hrun, hres⟩ :=
    run_outcome_optimal nb path0 hmap hs he hne hsw hew hnn
      (fun u hu hw v hv _ _ => hcons u hu hw v hv)
  refine ⟨hcons, path, run_eq_of_runState hrun, fun hp => ?_⟩
  rcases hres with ⟨_, _, h3⟩ | ⟨h1, _⟩
  · exact h3
  · exact absurd h1 hp

/-- Witness of C13 on the 3 x 3 map of cost `2` with a wall in the middle, under
the hexagonal provider. -/
theorem run_optimal_of_local_witness :
    wallMap.Complete ∧ inBounds wallMap.getSize ⟨0, 0⟩ ∧ inBounds wallMap.getSize ⟨2, 2⟩ ∧
    (⟨0, 0⟩ : Vector2i) ≠ ⟨2, 2⟩ ∧ wallMap.get ⟨0, 0⟩ ≠ some WALL_COST ∧
    wallMap.get ⟨2, 2⟩ ≠ some WALL_COST ∧
    (∀ p ∈ cells wallMap.getSize, wallMap.get p ≠ some WALL_COST → 2 ≤ cost wallMap p) ∧
    (∀ u v, v ∈ MapUtility.getNeighboors u → |v.x - u.x| ≤ 1 ∧ |v.y - u.y| ≤ 1) ∧
    ((∀ u ∈ cells wallMap.getSize, wallMap.get u ≠ some WALL_COST →
      ∀ v ∈ MapUtility.getNeighboors u,
        heuristic u ⟨2, 2⟩ ≤ cost wallMap u + heuristic v ⟨2, 2⟩) ∧
    ∃ path, run MapUtility.getNeighboors [] ⟨0, 0⟩ ⟨2, 2⟩ wallMap = some path ∧
      (path ≠ [] →
        ∀ w, IsWalk MapUtility.getNeighboors wallMap ⟨0, 0⟩ ⟨2, 2⟩ w →
          walkCost wallMap ⟨0, 0⟩ path ≤ walkCost wallMap ⟨0, 0⟩ w)) :=
  ⟨by decide, by decide, by decide, by decide, by decide, by decide, by decide,
    MapUtility.getNeighboors_local,
    run_optimal_of_local MapUtility.getNeighboors [] ⟨0, 0⟩ ⟨2, 2⟩ wallMap (by decide)
      (by decide) (by decide) (by decide) (by decide) (by decide) (by decide)
      MapUtility.getNeighboors_local⟩

end AStar
end Arthropoda
